import Mathlib

/-!
SpotShadow (libs/hwui/SpotShadow.cpp): a shallow embedding.

Conventions of the embedding.

* `float` and `double` values are exact rationals (`ℚ`): rounding is not modelled.
  A float that the source tests with `isnan` is an `NFloat`, a rational or NaN.
* A C array together with its length is a `List`; an array index is an `Int`.
  A read or write outside the array is undefined behaviour in the source; a
  function that can perform one returns `Option`, and `none` is that case
  (or exhausted fuel, for the loops that are run with fuel).
* What the source takes from headers that are not part of the repository
  sources at hand (`EPSILON`, `SHADOW_RAY_COUNT`, `SHADOW_LAYER_COUNT`, `FP_NAN`,
  `M_PI`, `sinf`, `cosf`, `ShadowTessellator::centroid2d`) is a parameter of the
  definitions that use it.
-/

namespace SpotShadow

/-! ## Data model -/

/-- The 2D vector of `Vector.h`: two floats. -/
structure Vector2 where
  x : ℚ
  y : ℚ
deriving DecidableEq, Repr

/-- The 3D vector of `Vector.h`: three floats. -/
structure Vector3 where
  x : ℚ
  y : ℚ
  z : ℚ
deriving DecidableEq, Repr

/-- A float whose NaN-ness the source observes: NaN or an exact value. -/
inductive NFloat where
  | nan : NFloat
  | val : ℚ → NFloat
deriving DecidableEq, Repr

namespace NFloat

/-- The `isnan` of math.h. -/
def isnan : NFloat → Bool
  | nan => true
  | val _ => false

/-- Float addition: NaN when an operand is NaN. -/
def add : NFloat → NFloat → NFloat
  | val a, val b => val (a + b)
  | _, _ => nan

/-- Float subtraction: NaN when an operand is NaN. -/
def sub : NFloat → NFloat → NFloat
  | val a, val b => val (a - b)
  | _, _ => nan

/-- Float multiplication: NaN when an operand is NaN. -/
def mul : NFloat → NFloat → NFloat
  | val a, val b => val (a * b)
  | _, _ => nan

/-- Division of a float by the non-zero constant `c`. -/
def divConst : NFloat → ℚ → NFloat
  | val a, c => val (a / c)
  | nan, _ => nan

end NFloat

/-- The `AlphaVertex` of `Vertex.h`: position and opacity. -/
structure AlphaVertex where
  x : NFloat
  y : NFloat
  alpha : NFloat
deriving DecidableEq, Repr

/-- The output sink: `empty` until `alloc` is called; afterwards the size passed
to `alloc` and the vertices written, in the order of the writes
(`shadowVertices[currentIndex++]`, from index 0). -/
inductive VertexBuffer where
  | empty : VertexBuffer
  | allocated (size : Nat) (vertices : List AlphaVertex) : VertexBuffer
deriving DecidableEq, Repr

/-! ## Ray casting and the triangle strip -/

/-- The loop of `rayIntersectPoly` from edge `(p1, p2)` on, `p2` the head of the
remaining vertices: the `t2` of the first edge with `div != 0`, `0 <= t <= 1` and
`t2 > 0`, or `none` when the loop runs to its end. -/
def rayIntersectLoop (px py dx dy : ℚ) : Vector2 → List Vector2 → Option ℚ
  | _, [] => none
  | p1, p2 :: rest =>
    let p1x := p1.x
    let p1y := p1.y
    let p2x := p2.x
    let p2y := p2.y
    let div := dx * (p1y - p2y) + dy * p2x - dy * p1x
    let t := (dx * (p1y - py) + dy * px - dy * p1x) / div
    let t2 := (p1x * (py - p2y) + p2x * (p1y - py) + px * (p2y - p1y)) / div
    if div ≠ 0 ∧ (0 ≤ t ∧ t ≤ 1) ∧ 0 < t2 then some t2
    else rayIntersectLoop px py dx dy p2 rest

/-- `SpotShadow::rayIntersectPoly`: the distance along the ray, or the value the
source writes `FP_NAN` otherwise. `p1` starts at `polyLength - 1`. -/
def rayIntersectPoly (FP_NAN : NFloat) (poly : List Vector2) (point : Vector2)
    (dx dy : ℚ) : NFloat :=
  match poly.getLast? with
  | none => FP_NAN
  | some last =>
    match rayIntersectLoop point.x point.y dx dy last poly with
    | some t2 => NFloat.val t2
    | none => FP_NAN

/-- `SpotShadow::calculateOpacity`. -/
def calculateOpacity (layerRatio : NFloat) : NFloat :=
  NFloat.divConst (NFloat.add (NFloat.mul layerRatio layerRatio) layerRatio) 2

/-- `SpotShadow::getStripSize`. -/
def getStripSize (rays layers : Nat) : Nat :=
  2 + rays + (layers * 2 * (rays + 1))

/-- The `layerIndex / (float) layers` of `generateTriangleStrip`; with `layers = 0`
the only quotient formed is `0 / 0.0f`, a NaN. -/
def layerRatioOf (layerIndex layers : Nat) : NFloat :=
  if layers = 0 then NFloat.nan else NFloat.val ((layerIndex : ℚ) / (layers : ℚ))

section Strip

variable (rays layers : Nat) (FP_NAN : NFloat) (M_PI : ℚ) (sinf cosf : ℚ → ℚ)
  (centroid2d : List Vector2 → Vector2)

/-- The `step` of `generateTriangleStrip`. -/
def rayStep : ℚ := M_PI * 2 / (rays : ℚ)

/-- The value stored in `umbraDistPerRay[i]`. -/
def umbraDistPerRay (umbra : List Vector2) (i : Nat) : NFloat :=
  rayIntersectPoly FP_NAN umbra (centroid2d umbra)
    (sinf (rayStep rays M_PI * i)) (cosf (rayStep rays M_PI * i))

/-- The value stored in `penumbraDistPerRay[i]`: the ray starts at the centroid of
the umbra. -/
def penumbraDistPerRay (penumbra umbra : List Vector2) (i : Nat) : NFloat :=
  rayIntersectPoly FP_NAN penumbra (centroid2d umbra)
    (sinf (rayStep rays M_PI * i)) (cosf (rayStep rays M_PI * i))

/-- Whether iteration `i` of the ray loop executes one of its two `return`s. Both
tests read `umbraDistPerRay[i]`, as in the source. -/
def rayLoopReturns (umbra : List Vector2) (i : Nat) : Bool :=
  if (umbraDistPerRay rays FP_NAN M_PI sinf cosf centroid2d umbra i).isnan then true
  else if (umbraDistPerRay rays FP_NAN M_PI sinf cosf centroid2d umbra i).isnan then true
  else false

/-- The vertex written for `(layerIndex, rayIndex)`. -/
def stripVertex (penumbra umbra : List Vector2) (layerIndex rayIndex : Nat) : AlphaVertex :=
  let centroid := centroid2d umbra
  let dx := sinf (rayStep rays M_PI * rayIndex)
  let dy := cosf (rayStep rays M_PI * rayIndex)
  let layerRatio := layerRatioOf layerIndex layers
  let umb := umbraDistPerRay rays FP_NAN M_PI sinf cosf centroid2d umbra rayIndex
  let pen := penumbraDistPerRay rays FP_NAN M_PI sinf cosf centroid2d penumbra umbra rayIndex
  let deltaDist := NFloat.mul layerRatio (NFloat.sub umb pen)
  let currentDist := NFloat.add pen deltaDist
  let op := calculateOpacity layerRatio
  { x := NFloat.add (NFloat.mul (NFloat.val dx) currentDist) (NFloat.val centroid.x)
    y := NFloat.add (NFloat.mul (NFloat.val dy) currentDist) (NFloat.val centroid.y)
    alpha := op }

/-- `SpotShadow::generateTriangleStrip`, started on an empty sink: the sink
afterwards. -/
def generateTriangleStrip (penumbra umbra : List Vector2) : VertexBuffer :=
  let centroid := centroid2d umbra
  if (List.range rays).any (rayLoopReturns rays FP_NAN M_PI sinf cosf centroid2d umbra) then
    VertexBuffer.empty
  else
    let stripSize := getStripSize rays layers
    let layered := (List.range (layers + 1)).flatMap fun layerIndex =>
      (List.range rays).map fun rayIndex =>
        stripVertex rays layers FP_NAN M_PI sinf cosf centroid2d penumbra umbra
          layerIndex rayIndex
    VertexBuffer.allocated stripSize
      (layered ++ [{ x := NFloat.val centroid.x, y := NFloat.val centroid.y,
                     alpha := NFloat.val 1 }])

end Strip

/-! ## Geometry primitives -/

/-- `SpotShadow::ccw`. -/
def ccw (EPSILON : ℚ) (ax ay bx «by» cx cy : ℚ) : Bool :=
  decide ((bx - ax) * (cy - ay) - («by» - ay) * (cx - ax) > EPSILON)

/-- `ccw` on three points, as `hull` calls it. -/
def ccwPts (EPSILON : ℚ) (a b c : Vector2) : Bool :=
  ccw EPSILON a.x a.y b.x b.y c.x c.y

/-- `Vector2::lengthSquared` of the difference `a - b`. -/
def distSquared (a b : Vector2) : ℚ :=
  (a.x - b.x) * (a.x - b.x) + (a.y - b.y) * (a.y - b.y)

/-- The test of one edge `(start, end)` in `testPointInsidePolygon`. -/
def edgeCrosses (testx testy : ℚ) (start «end» : Vector2) : Bool :=
  let startX := start.x
  let startY := start.y
  let endX := «end».x
  let endY := «end».y
  (decide (endY > testy) != decide (startY > testy)) &&
    decide (testx < (startX - endX) * (testy - endY) / (startY - endY) + endX)

/-- The loop of `testPointInsidePolygon` from edge `(start, end)` on, `end` the head
of the remaining vertices, `c` the flag so far. -/
def testPointInsideLoop (testx testy : ℚ) : Vector2 → List Vector2 → Bool → Bool
  | _, [], c => c
  | start, e :: rest, c =>
    testPointInsideLoop testx testy e rest
      (if edgeCrosses testx testy start e then !c else c)

/-- `SpotShadow::testPointInsidePolygon`; `j` starts at `len - 1`. -/
def testPointInsidePolygon (testPoint : Vector2) (poly : List Vector2) : Bool :=
  match poly.getLast? with
  | none => false
  | some last => testPointInsideLoop testPoint.x testPoint.y last poly false

/-- The loop of `isClockwise` from `p1` on: the sum of `p1x * p2y - p2x * p1y`. -/
def shoelaceLoop : Vector2 → List Vector2 → ℚ → ℚ
  | _, [], sum => sum
  | p1, p2 :: rest, sum => shoelaceLoop p2 rest (sum + (p1.x * p2.y - p2.x * p1.y))

/-- `SpotShadow::isClockwise`. The source reads `polygon[len - 1]` first, so it is
only called with `len > 0`; on the empty list the sum here is 0. -/
def isClockwise (polygon : List Vector2) : Bool :=
  match polygon.getLast? with
  | none => false
  | some last => decide (shoelaceLoop last polygon 0 < 0)

/-- Exchange of the entries `i` and `k` of an array, both inside it. -/
def exchange (polygon : List Vector2) (i k : Nat) : List Vector2 :=
  match polygon[i]?, polygon[k]? with
  | some tmp, some pk => (polygon.set i pk).set k tmp
  | _, _ => polygon

/-- `SpotShadow::reverse`: for `i < len / 2`, exchange entries `i` and `len - 1 - i`. -/
def reverse (polygon : List Vector2) : List Vector2 :=
  (List.range (polygon.length / 2)).foldl
    (fun poly i => exchange poly i (polygon.length - 1 - i)) polygon

/-- `SpotShadow::makeClockwise`. -/
def makeClockwise (polygon : List Vector2) : List Vector2 :=
  if polygon.length = 0 then polygon
  else if !isClockwise polygon then reverse polygon
  else polygon

/-- `SpotShadow::lineIntersection`: `some ret` when it returns true. -/
def lineIntersection (EPSILON : ℚ) (x1 y1 x2 y2 x3 y3 x4 y4 : ℚ) : Option Vector2 :=
  let d := (x1 - x2) * (y3 - y4) - (y1 - y2) * (x3 - x4)
  if d = 0 then none
  else
    let dx := x1 * y2 - y1 * x2
    let dy := x3 * y4 - y3 * x4
    let x := (dx * (x3 - x4) - (x1 - x2) * dy) / d
    let y := (dx * (y3 - y4) - (y1 - y2) * dy) / d
    if (x - x1) * (x - x2) > EPSILON ∨ (x - x3) * (x - x4) > EPSILON
        ∨ (y - y1) * (y - y2) > EPSILON ∨ (y - y3) * (y - y4) > EPSILON then none
    else some { x := x, y := y }

/-- `SpotShadow::angle`, with libm's `atan2` a parameter. -/
def angle (atan2 : ℚ → ℚ → ℚ) (point center : Vector2) : ℚ :=
  -(atan2 (point.y - center.y) (point.x - center.x))

/-! ## Sorting -/

/-- The read `points[i]`: `none` outside the array. -/
def readAt (points : List Vector2) (i : Int) : Option Vector2 :=
  if 0 ≤ i then points[i.toNat]? else none

/-- `SpotShadow::swap`. -/
def swap (points : List Vector2) (i j : Int) : Option (List Vector2) :=
  match readAt points i, readAt points j with
  | some temp, some pj => some ((points.set i.toNat pj).set j.toNat temp)
  | _, _ => none

/-- The loop `while (key(points[i]) < pivot) i++`, at most `fuel` reads. -/
def scanUp (key : Vector2 → ℚ) (pivot : ℚ) (points : List Vector2) : Nat → Int → Option Int
  | 0, _ => none
  | fuel + 1, i =>
    match readAt points i with
    | none => none
    | some v => if key v < pivot then scanUp key pivot points fuel (i + 1) else some i

/-- The loop `while (key(points[j]) > pivot) j--`, at most `fuel` reads. -/
def scanDown (key : Vector2 → ℚ) (pivot : ℚ) (points : List Vector2) : Nat → Int → Option Int
  | 0, _ => none
  | fuel + 1, j =>
    match readAt points j with
    | none => none
    | some v => if key v > pivot then scanDown key pivot points fuel (j - 1) else some j

/-- The loop `while (i <= j)` shared by `quicksortX` and `quicksortCirc`: the array
and the values of `i` and `j` when it exits. -/
def partitionLoop (key : Vector2 → ℚ) (pivot : ℚ) :
    Nat → List Vector2 → Int → Int → Option (List Vector2 × Int × Int)
  | 0, _, _, _ => none
  | fuel + 1, points, i, j =>
    if i ≤ j then
      match scanUp key pivot points (points.length + 1) i with
      | none => none
      | some i1 =>
        match scanDown key pivot points (points.length + 1) j with
        | none => none
        | some j1 =>
          if i1 ≤ j1 then
            match swap points i1 j1 with
            | none => none
            | some swapped => partitionLoop key pivot fuel swapped (i1 + 1) (j1 - 1)
          else partitionLoop key pivot fuel points i1 j1
    else some (points, i, j)

/-- The body shared by `quicksortX` (key `points[k].x`) and `quicksortCirc` (key
`angle(points[k], center)`), with `fuel` bounding the depth of the recursion. The
pivot index is `low + (high - low) / 2` in C's truncating division. -/
def quicksortKey (key : Vector2 → ℚ) : Nat → List Vector2 → Int → Int → Option (List Vector2)
  | 0, _, _, _ => none
  | fuel + 1, points, low, high =>
    match readAt points (low + (high - low).tdiv 2) with
    | none => none
    | some pv =>
      match partitionLoop key (key pv) (points.length + 1) points low high with
      | none => none
      | some (parted, i, j) =>
        match (if low < j then quicksortKey key fuel parted low j else some parted) with
        | none => none
        | some left => if i < high then quicksortKey key fuel left i high else some left

/-- `SpotShadow::quicksortX`. -/
def quicksortX (fuel : Nat) (points : List Vector2) (low high : Int) : Option (List Vector2) :=
  quicksortKey Vector2.x fuel points low high

/-- `SpotShadow::quicksortCirc`. -/
def quicksortCirc (atan2 : ℚ → ℚ → ℚ) (fuel : Nat) (points : List Vector2) (low high : Int)
    (center : Vector2) : Option (List Vector2) :=
  quicksortKey (fun p => angle atan2 p center) fuel points low high

/-- `SpotShadow::xsort`. -/
def xsort (points : List Vector2) : Option (List Vector2) :=
  quicksortX (points.length + 1) points 0 ((points.length : Int) - 1)

/-- `SpotShadow::sort`. -/
def sort (atan2 : ℚ → ℚ → ℚ) (poly : List Vector2) (center : Vector2) :
    Option (List Vector2) :=
  quicksortCirc atan2 (poly.length + 1) poly 0 ((poly.length : Int) - 1) center

/-! ## Convex hull -/

/-- One pass of `hull`'s inner `while` loop after the point `c` has been appended to
a chain. The chain below `c` is held last point first: while it has two points
`b, a` on top and `!ccw(a, b, c)`, the middle point `b` is removed. -/
def pruneChain (EPSILON : ℚ) (c : Vector2) : List Vector2 → List Vector2
  | b :: a :: rest =>
    if ccwPts EPSILON a b c then c :: b :: a :: rest
    else pruneChain EPSILON c (a :: rest)
  | chain => c :: chain

/-- The `for` loop of `hull` that builds a chain (last point first) from its first two
points by appending the remaining ones in order. -/
def buildChain (EPSILON : ℚ) (first second : Vector2) (others : List Vector2) : List Vector2 :=
  others.foldl (fun chain p => pruneChain EPSILON p chain) [second, first]

/-- The array `lUpper` of `hull` at the end of its loop, on sorted `points`. -/
def lUpperOf (EPSILON : ℚ) (points : List Vector2) : Option (List Vector2) :=
  match points[0]?, points[1]? with
  | some p0, some p1 => some (buildChain EPSILON p0 p1 (points.drop 2)).reverse
  | _, _ => none

/-- The array `lLower` of `hull` at the end of its loop, on sorted `points`: it starts
from `points[n - 1]`, `points[n - 2]` and appends `points[n - 3]` down to `points[0]`. -/
def lLowerOf (EPSILON : ℚ) (points : List Vector2) : Option (List Vector2) :=
  match readAt points ((points.length : Int) - 1), readAt points ((points.length : Int) - 2) with
  | some q0, some q1 =>
    some (buildChain EPSILON q0 q1 (points.take (points.length - 2)).reverse).reverse
  | _, _ => none

/-- `SpotShadow::hull`: the first `count` entries of `retPoly`, that is `lUpper`
followed by `lLower[1 .. lLowerSize - 2]`. -/
def hull (EPSILON : ℚ) (points : List Vector2) : Option (List Vector2) :=
  match xsort points with
  | none => none
  | some sorted =>
    match lUpperOf EPSILON sorted, lLowerOf EPSILON sorted with
    | some lUpper, some lLower => some (lUpper ++ (lLower.drop 1).dropLast)
    | _, _ => none

/-- The loop body of `testConvex` at index `i`: true when it reports the error, that
is when `delta >= EPSILON` for `polygon[i]`, `polygon[(i+1) % n]`, `polygon[(i+2) % n]`. -/
def convexErrorAt (EPSILON : ℚ) (polygon : List Vector2) (i : Nat) : Bool :=
  match polygon[i]?, polygon[(i + 1) % polygon.length]?, polygon[(i + 2) % polygon.length]? with
  | some start, some middle, some «end» =>
    decide ((middle.x - start.x) * («end».y - start.y)
      - (middle.y - start.y) * («end».x - start.x) ≥ EPSILON)
  | _, _, _ => false

/-- `SpotShadow::testConvex`: false as soon as one index reports the error. -/
def testConvex (EPSILON : ℚ) (polygon : List Vector2) : Bool :=
  !(List.range polygon.length).any (convexErrorAt EPSILON polygon)

/-! ## Polygon intersection -/

/-- The arrays `intersection` leaves behind: `poly1` (made clockwise in place) and
the first `resultLength` entries of `poly2`, the output polygon. -/
structure Intersected where
  poly1 : List Vector2
  poly2 : List Vector2
deriving DecidableEq, Repr

/-- The points one pair of edges adds to `poly` in `intersection`: the edge of `poly2`
from `a2` to `b2` and the edge of `poly1` from `a1` to `b1`. -/
def edgePairPoints (EPSILON : ℚ) (a2 b2 a1 b1 : Vector2) : List Vector2 :=
  match lineIntersection EPSILON a2.x a2.y b2.x b2.y a1.x a1.y b1.x b1.y with
  | some found => [found]
  | none => if distSquared a2 a1 < EPSILON then [a2] else []

/-- The edges of a polygon in index order: `(poly[i], poly[(i + 1) % len])`. -/
def edgesOf (poly : List Vector2) : List (Vector2 × Vector2) :=
  List.zip poly (poly.rotate 1)

/-- One step of the filter loop of `intersection`: `out` is the output so far, last
written entry first; `p` is `poly[i]`. -/
def filterStep (EPSILON : ℚ) (center : Vector2) (out : List Vector2) (p : Vector2) :
    List Vector2 :=
  match out with
  | [] => [p]
  | last :: below =>
    if distSquared p last ≥ EPSILON then p :: last :: below
    else if distSquared p center < distSquared last center then p :: below
    else last :: below

/-- The filter loop of `intersection` on the sorted `poly`: the entries
`poly2[0 .. lastOutputIndex]`. -/
def filterClose (EPSILON : ℚ) (center : Vector2) : List Vector2 → List Vector2
  | [] => []
  | p0 :: rest => (rest.foldl (filterStep EPSILON center) [p0]).reverse

/-- The `center` of `intersection`: the sum of the `count` points divided by `count`. -/
def centerOf (poly : List Vector2) : Vector2 :=
  { x := (poly.map Vector2.x).sum / (poly.length : ℚ)
    y := (poly.map Vector2.y).sum / (poly.length : ℚ) }

/-- The scratch array `poly` of `intersection` when the edge loops end: the vertices of
`poly1` inside `poly2`, the vertices of `poly2` inside `poly1`, then what the pairs of
edges add, `poly2`'s edge index outermost. Both polygons are already clockwise. -/
def candidates (EPSILON : ℚ) (poly1 poly2 : List Vector2) : List Vector2 :=
  poly1.filter (fun p => testPointInsidePolygon p poly2)
    ++ poly2.filter (fun p => testPointInsidePolygon p poly1)
    ++ (edgesOf poly2).flatMap fun e2 =>
        (edgesOf poly1).flatMap fun e1 => edgePairPoints EPSILON e2.1 e2.2 e1.1 e1.2

/-- `SpotShadow::intersection`. The scratch array is declared as
`poly[poly1Length * poly2Length + 2]`: the two inside loops write at most
`poly1Length + poly2Length` entries, which fit whenever an early return is taken, and
on the general path the result is `none` when the edge loops write past the end of
the array. -/
def intersection (EPSILON : ℚ) (atan2 : ℚ → ℚ → ℚ) (poly1In poly2In : List Vector2) :
    Option Intersected :=
  let poly1 := makeClockwise poly1In
  let poly2 := makeClockwise poly2In
  let insidePoly2 := (poly1.filter (fun p => testPointInsidePolygon p poly2)).length
  let insidePoly1 := (poly2.filter (fun p => testPointInsidePolygon p poly1)).length
  if insidePoly2 = poly1.length then some { poly1 := poly1, poly2 := poly1 }
  else if insidePoly1 = poly2.length then some { poly1 := poly1, poly2 := poly2 }
  else
    let poly := candidates EPSILON poly1 poly2
    if poly1.length * poly2.length + 2 < poly.length then none
    else if poly.length = 0 then some { poly1 := poly1, poly2 := [] }
    else
      let center := centerOf poly
      match sort atan2 poly center with
      | none => none
      | some sorted => some { poly1 := poly1, poly2 := filterClose EPSILON center sorted }

/-! ## The shadow projector -/

/-- `SpotShadow::computeLightPolygon`. -/
def computeLightPolygon (M_PI : ℚ) (sinf cosf : ℚ → ℚ) (points : Nat) (lightCenter : Vector3)
    (size : ℚ) : List Vector3 :=
  (List.range points).map fun i =>
    let angle := 2 * (i : ℚ) * M_PI / (points : ℚ)
    { x := sinf angle * size + lightCenter.x
      y := cosf angle * size + lightCenter.y
      z := lightCenter.z }

/-- The validation loop of `computeSpotShadow`: the value of `inputPolyPositionValid`
after it; `none` when `lightPoly[0]` is read from an empty light polygon. -/
def inputPolyPositionValid (lightPoly : List Vector3) : List Vector3 → Option Bool
  | [] => some true
  | v :: rest =>
    if v.z ≤ 1 / 100000 then some false
    else
      match lightPoly[0]? with
      | none => none
      | some l0 =>
        if v.z ≥ l0.z then some false else inputPolyPositionValid lightPoly rest

/-- The inner loop of `computeSpotShadow` for one light point: the projections of the
caster's vertices onto `z = 0`, or `none` when the loop executes `return` (`t == 0`). -/
def projectOutline (light : Vector3) : List Vector3 → Option (List Vector2)
  | [] => some []
  | v :: rest =>
    let t := light.z - v.z
    if t = 0 then none
    else
      let t := light.z / t
      let x := light.x - t * (light.x - v.x)
      let y := light.y - t * (light.y - v.y)
      match projectOutline light rest with
      | none => none
      | some more => some ({ x := x, y := y } :: more)

/-- How the loop over the light polygon of `computeSpotShadow` ends. -/
inductive Projection where
  | returned : Projection
  | regions (shadowRegion umbra : List Vector2) : Projection
deriving DecidableEq, Repr

/-- The loop over the light polygon of `computeSpotShadow`, from light vertex `j` on:
`shadowRegion` holds the `k` points stored so far, `umbra` the first `umbraLength`
entries of the umbra. -/
def umbraLoop (EPSILON : ℚ) (atan2 : ℚ → ℚ → ℚ) (poly : List Vector3) :
    List Vector3 → List Vector2 → List Vector2 → Option Projection
  | [], shadowRegion, umbra => some (Projection.regions shadowRegion umbra)
  | light :: lights, shadowRegion, umbra =>
    match projectOutline light poly with
    | none => some Projection.returned
    | some outline =>
      if umbra.length = 0 then
        umbraLoop EPSILON atan2 poly lights (shadowRegion ++ outline) outline
      else
        match intersection EPSILON atan2 outline umbra with
        | none => none
        | some r =>
          if r.poly2.length = 0 then some (Projection.regions (shadowRegion ++ outline) r.poly2)
          else umbraLoop EPSILON atan2 poly lights (shadowRegion ++ outline) r.poly2

/-- The fake umbra of `computeSpotShadow`: the caster projected from `lightCenter` and
shrunk towards its centroid by `SHADOW_SHRINK_SCALE = 0.1`; `none` on `return`. -/
def fakeUmbraOf (centroid2d : List Vector2 → Vector2) (lightCenter : Vector3)
    (poly : List Vector3) : Option (List Vector2) :=
  match projectOutline lightCenter poly with
  | none => none
  | some fakeUmbra =>
    let shadowCentroid := centroid2d fakeUmbra
    some (fakeUmbra.map fun p =>
      { x := shadowCentroid.x * (1 - 1 / 10) + p.x * (1 / 10)
        y := shadowCentroid.y * (1 - 1 / 10) + p.y * (1 / 10) })

section Projector

variable (EPSILON : ℚ) (rays layers : Nat) (FP_NAN : NFloat) (M_PI : ℚ) (sinf cosf : ℚ → ℚ)
  (atan2 : ℚ → ℚ → ℚ) (centroid2d : List Vector2 → Vector2)

/-- `SpotShadow::computeSpotShadow`, started on an empty sink: the sink afterwards. -/
def computeSpotShadow (lightPoly : List Vector3) (lightCenter : Vector3)
    (poly : List Vector3) : Option VertexBuffer :=
  match inputPolyPositionValid lightPoly poly with
  | none => none
  | some false => some VertexBuffer.empty
  | some true =>
    match umbraLoop EPSILON atan2 poly lightPoly [] [] with
    | none => none
    | some Projection.returned => some VertexBuffer.empty
    | some (Projection.regions shadowRegion umbra) =>
      match hull EPSILON shadowRegion with
      | none => none
      | some penumbra =>
        if umbra.length < 3 then
          match fakeUmbraOf centroid2d lightCenter poly with
          | none => some VertexBuffer.empty
          | some fakeUmbra =>
            some (generateTriangleStrip rays layers FP_NAN M_PI sinf cosf centroid2d
              penumbra fakeUmbra)
        else
          some (generateTriangleStrip rays layers FP_NAN M_PI sinf cosf centroid2d
            penumbra umbra)

/-- `SpotShadow::createSpotShadow`. -/
def createSpotShadow (poly : List Vector3) (lightCenter : Vector3) (lightSize : ℚ)
    (lightVertexCount : Nat) : Option VertexBuffer :=
  computeSpotShadow EPSILON rays layers FP_NAN M_PI sinf cosf atan2 centroid2d
    (computeLightPolygon M_PI sinf cosf lightVertexCount lightCenter lightSize)
    lightCenter poly

end Projector

/-! ## Predicates used in the statements -/

/-- What a pass over the index range `[low, high]` may do to an array: keep its
length, permute it, leave every entry outside the range alone, and fill the range
from the range. -/
structure RangePerm (low high : Int) (before after : List Vector2) : Prop where
  length_eq : after.length = before.length
  perm : after.Perm before
  outside : ∀ k : Int, k < low ∨ high < k → readAt after k = readAt before k
  inside : ∀ k : Int, low ≤ k → k ≤ high → ∀ v, readAt after k = some v →
    ∃ k', low ≤ k' ∧ k' ≤ high ∧ readAt before k' = some v

/-- The invariant of the loop `while (i <= j)` of the quicksorts at its test. -/
structure PartInv (key : Vector2 → ℚ) (pivot : ℚ) (low high : Int) (pts : List Vector2)
    (i j : Int) : Prop where
  low_nonneg : 0 ≤ low
  high_lt : high < pts.length
  low_le_i : low ≤ i
  j_le_high : j ≤ high
  i_le : i ≤ high + 1
  le_j : low - 1 ≤ j
  left : ∀ k, low ≤ k → k < i → ∀ v, readAt pts k = some v → key v ≤ pivot
  right : ∀ k, j < k → k ≤ high → ∀ v, readAt pts k = some v → pivot ≤ key v
  stopUp : i ≤ j → ∃ k v, i ≤ k ∧ k ≤ high ∧ readAt pts k = some v ∧ pivot ≤ key v
  stopDown : i ≤ j → ∃ k v, low ≤ k ∧ k ≤ j ∧ readAt pts k = some v ∧ key v ≤ pivot
  progress : (low < i ∧ j < high) ∨
    ∃ p v, i ≤ p ∧ p ≤ j ∧ readAt pts p = some v ∧ key v = pivot

/-- The entries of the index range `[low, high]` are in non-decreasing key order. -/
def SortedOn (key : Vector2 → ℚ) (low high : Int) (l : List Vector2) : Prop :=
  ∀ k k' : Int, low ≤ k → k ≤ k' → k' ≤ high →
    ∀ a b, readAt l k = some a → readAt l k' = some b → key a ≤ key b

/-! ## Concrete inputs used by the closed statements -/

/-- Modelled from the spec: `ShadowTessellator::centroid2d`, which is not among the
sources, as "the mean of vertex coordinates"; the centroid the examples are run with. -/
def meanCentroid (poly : List Vector2) : Vector2 :=
  { x := (poly.map Vector2.x).sum / (poly.length : ℚ)
    y := (poly.map Vector2.y).sum / (poly.length : ℚ) }

/-- Exact sine at the quarter turns `0, 1, 2, 3` (with `M_PI` taken as `2`). -/
def quarterSin (a : ℚ) : ℚ :=
  if a = 1 then 1 else if a = 3 then -1 else 0

/-- Exact cosine at the quarter turns `0, 1, 2, 3` (with `M_PI` taken as `2`). -/
def quarterCos (a : ℚ) : ℚ :=
  if a = 0 then 1 else if a = 2 then -1 else 0

/-- The square with corners `(-1,-1)` and `(1,1)`. -/
def squareUmbra : List Vector2 := [⟨-1, -1⟩, ⟨-1, 1⟩, ⟨1, 1⟩, ⟨1, -1⟩]

/-- The square with corners `(-2,-2)` and `(2,2)`. -/
def squarePenumbra : List Vector2 := [⟨-2, -2⟩, ⟨-2, 2⟩, ⟨2, 2⟩, ⟨2, -2⟩]

/-- A triangle that lies wholly to the right of `squareUmbra`. -/
def farPenumbra : List Vector2 := [⟨5, 5⟩, ⟨6, 5⟩, ⟨5, 6⟩]

/-- A stand-in for libm's `atan2` in the closed statements: the "diamond angle", a
rational that increases strictly with the angle `atan2 y x` returns (from `-2`,
excluded, to `2`), so it orders directions exactly as `atan2` does. -/
def diamondAtan2 (y x : ℚ) : ℚ :=
  if y = 0 ∧ x = 0 then 0
  else if y ≥ 0 then (if x ≥ 0 then y / (x + y) else 1 + (-x) / (-x + y))
  else (if x < 0 then -2 + (-y) / (-x + -y) else -1 + x / (x + -y))

/-- The square caster of the specification's example, at height 5. -/
def squareCaster : List Vector3 := [⟨-1, -1, 5⟩, ⟨1, -1, 5⟩, ⟨1, 1, 5⟩, ⟨-1, 1, 5⟩]

/-- The square caster with its third vertex raised to the light's height, 20. -/
def casterAtLightHeight : List Vector3 := [⟨-1, -1, 5⟩, ⟨1, -1, 5⟩, ⟨1, 1, 20⟩, ⟨-1, 1, 5⟩]

/-- The square caster with its first vertex at height `1/200000`, above the receiver. -/
def lowCaster : List Vector3 := [⟨-1, -1, 1 / 200000⟩, ⟨1, -1, 5⟩, ⟨1, 1, 5⟩, ⟨-1, 1, 5⟩]

/-- A light polygon at height 20. -/
def lightAt20 : List Vector3 := [⟨0, 2, 20⟩, ⟨2, 0, 20⟩, ⟨0, -2, 20⟩, ⟨-2, 0, 20⟩]

/-- The cross product `(b - a) × (c - a)` that `ccw` and `testConvex` compare with
`EPSILON`. -/
def cross (a b c : Vector2) : ℚ :=
  (b.x - a.x) * (c.y - a.y) - (b.y - a.y) * (c.x - a.x)

/-- Every three consecutive points `c, b, a` of a chain held last point first passed
the test `ccw(a, b, c)`. -/
def StackCCW (EPSILON : ℚ) : List Vector2 → Prop
  | c :: b :: a :: rest => ccwPts EPSILON a b c = true ∧ StackCCW EPSILON (b :: a :: rest)
  | _ => True

/-- The 2D cross product of two displacement vectors. -/
def cr (u v : ℚ × ℚ) : ℚ := u.1 * v.2 - u.2 * v.1

/-- The sum of a list of displacement vectors. -/
def vsum : List (ℚ × ℚ) → ℚ × ℚ
  | [] => (0, 0)
  | e :: es => (e.1 + (vsum es).1, e.2 + (vsum es).2)

/-- The displacements between consecutive points of a list. -/
def dirs : List Vector2 → List (ℚ × ℚ)
  | p :: q :: rest => (q.x - p.x, q.y - p.y) :: dirs (q :: rest)
  | _ => []

/-- What holds of the chain `S` (last point first) that `hull` has built from the
points `pushed` (in the order they were appended), `R later earlier` relating a point
to every point appended before it. -/
structure ChainInv (EPSILON : ℚ) (R : Vector2 → Vector2 → Prop) (S pushed : List Vector2) :
    Prop where
  ccw : StackCCW EPSILON S
  sub : S.Sublist pushed.reverse
  top : S.head? = pushed.getLast?
  bottom : S.getLast? = pushed.head?
  two : 2 ≤ S.length
  pruned : ∀ q ∈ pushed, q ∈ S ∨
    ∃ a c, a ∈ pushed ∧ c ∈ pushed ∧ R q a ∧ R c q ∧ ccwPts EPSILON a q c = false

/-- The point `q` lies strictly outside the convex polygon with the vertices `poly`:
a line through two points `a`, `b` has every vertex on it or to its left, and `q`
strictly to its right. -/
def StrictlyOutside (poly : List Vector2) (q : Vector2) : Prop :=
  ∃ a b : Vector2, (∀ v ∈ poly, 0 ≤ cross a b v) ∧ cross a b q < 0

/-- Four points, the second one `1/200000` below the segment from the first to the
third. -/
def shallowDip : List Vector2 := [⟨0, 0⟩, ⟨1, -1 / 200000⟩, ⟨2, 0⟩, ⟨1, 1⟩]

/-- The corners of the unit square, counter-clockwise from the origin. -/
def unitSquarePoints : List Vector2 := [⟨0, 0⟩, ⟨1, 0⟩, ⟨1, 1⟩, ⟨0, 1⟩]

/-- Parity of the number of edges between consecutive points of a path that
`testPointInsidePolygon` counts as crossed. -/
def pathCrossings (testx testy : ℚ) : List Vector2 → Bool
  | x :: y :: rest => xor (edgeCrosses testx testy x y) (pathCrossings testx testy (y :: rest))
  | _ => false

/-- A clockwise triangle inside the unit square. -/
def innerTriangle : List Vector2 := [⟨1 / 4, 1 / 4⟩, ⟨1 / 4, 1 / 2⟩, ⟨1 / 2, 1 / 4⟩]

/-- The unit square, clockwise from the origin. -/
def unitSquare : List Vector2 := [⟨0, 0⟩, ⟨0, 1⟩, ⟨1, 1⟩, ⟨1, 0⟩]

/-- A light polygon of three vertices at height 20, ten units from its centre. -/
def wideLight : List Vector3 := [⟨10, 0, 20⟩, ⟨-10, 0, 20⟩, ⟨0, 10, 20⟩]

/-- A small triangular caster at height 10 under the centre of `wideLight`. -/
def smallCaster : List Vector3 := [⟨-1, -1, 10⟩, ⟨0, 1, 10⟩, ⟨1, -1, 10⟩]

/-- A light polygon of two vertices at height 20, one unit apart. -/
def narrowLight : List Vector3 := [⟨0, 0, 20⟩, ⟨1, 0, 20⟩]

/-- The projections of `smallCaster` from the two vertices of `narrowLight`. -/
def narrowOutlines : List Vector2 :=
  [⟨-2, -2⟩, ⟨0, 2⟩, ⟨2, -2⟩, ⟨-3, -2⟩, ⟨-1, 2⟩, ⟨1, -2⟩]

/-- The projections of `smallCaster` from the first two vertices of `wideLight`. -/
def twoOutlines : List Vector2 :=
  [⟨-12, -2⟩, ⟨-10, 2⟩, ⟨-8, -2⟩, ⟨8, -2⟩, ⟨10, 2⟩, ⟨12, -2⟩]

/-- The float that `return FP_NAN;` yields when `FP_NAN` is the number classification
macro of `<math.h>`, which expands to an integer constant `n` (the value `fpclassify`
returns for a NaN; `0x02` in bionic, `0` in glibc): the conversion of `n` to `float`. -/
def classificationSentinel (n : Int) : NFloat := NFloat.val (n : ℚ)

/-- The edges `(poly[p1], poly[p2])` in the order `rayIntersectPoly` walks them: `p1`
starts at the last vertex, `p2` at the first. -/
def walkedEdges (poly : List Vector2) : List (Vector2 × Vector2) :=
  match poly.getLast? with
  | none => []
  | some last => List.zip (last :: poly) poly

/-- The point `o` lies strictly inside the convex polygon `poly`: it is strictly on
the same side of every edge, the left of all of them or the right of all of them. -/
def StrictlyInside (poly : List Vector2) (o : Vector2) : Prop :=
  poly ≠ [] ∧
    ((∀ e ∈ walkedEdges poly, 0 < cross o e.1 e.2) ∨
     (∀ e ∈ walkedEdges poly, cross o e.1 e.2 < 0))

/-- The side of the line through `o` with direction `(dx, dy)` on which `v` lies:
the cross product `(v - o) × (dx, dy)`. -/
def sideOfRay (o : Vector2) (dx dy : ℚ) (v : Vector2) : ℚ :=
  (v.x - o.x) * dy - (v.y - o.y) * dx

/-- The test `rayIntersectPoly` applies to the edge from `p1` to `p2`. -/
def edgeQualifies (px py dx dy : ℚ) (p1 p2 : Vector2) : Prop :=
  dx * (p1.y - p2.y) + dy * p2.x - dy * p1.x ≠ 0 ∧
  (0 ≤ (dx * (p1.y - py) + dy * px - dy * p1.x) / (dx * (p1.y - p2.y) + dy * p2.x - dy * p1.x) ∧
   (dx * (p1.y - py) + dy * px - dy * p1.x) / (dx * (p1.y - p2.y) + dy * p2.x - dy * p1.x) ≤ 1) ∧
  0 < (p1.x * (py - p2.y) + p2.x * (p1.y - py) + px * (p2.y - p1.y))
        / (dx * (p1.y - p2.y) + dy * p2.x - dy * p1.x)

/-- Half the absolute value of the sum `isClockwise` forms: the area a polygon
encloses by the shoelace formula. -/
def shoelaceArea (poly : List Vector2) : ℚ :=
  match poly.getLast? with
  | none => 0
  | some last => |shoelaceLoop last poly 0| / 2

/-- The triangle with corners `(0,0)`, `(0,1)`, `(1,0)`, clockwise. -/
def cornerTriangle : List Vector2 := [⟨0, 0⟩, ⟨0, 1⟩, ⟨1, 0⟩]

/-- The triangle `cornerTriangle` moved by `3/1000` along `x`. -/
def shiftedTriangle : List Vector2 := [⟨3 / 1000, 0⟩, ⟨3 / 1000, 1⟩, ⟨1003 / 1000, 0⟩]

/-- The unit square moved by `(1/2, 1/2)`, clockwise. -/
def offsetSquare : List Vector2 := [⟨1 / 2, 1 / 2⟩, ⟨1 / 2, 3 / 2⟩, ⟨3 / 2, 3 / 2⟩, ⟨3 / 2, 1 / 2⟩]

/-- The determinant `d` of `lineIntersection`. -/
def lineDet (x1 y1 x2 y2 x3 y3 x4 y4 : ℚ) : ℚ :=
  (x1 - x2) * (y3 - y4) - (y1 - y2) * (x3 - x4)

/-- The point `(x, y)` that `lineIntersection` computes when `d` is not zero. -/
def lineCommonPoint (x1 y1 x2 y2 x3 y3 x4 y4 : ℚ) : Vector2 :=
  { x := ((x1 * y2 - y1 * x2) * (x3 - x4) - (x1 - x2) * (x3 * y4 - y3 * x4))
          / ((x1 - x2) * (y3 - y4) - (y1 - y2) * (x3 - x4))
    y := ((x1 * y2 - y1 * x2) * (y3 - y4) - (y1 - y2) * (x3 * y4 - y3 * x4))
          / ((x1 - x2) * (y3 - y4) - (y1 - y2) * (x3 - x4)) }

/-- The point `q` lies on the line through `(xa, ya)` and `(xb, yb)`. -/
def OnLine (xa ya xb yb : ℚ) (q : Vector2) : Prop :=
  (q.x - xa) * (yb - ya) = (q.y - ya) * (xb - xa)

/-- The sum of `p1x * p2y - p2x * p1y` over the consecutive points `p1`, `p2` of a
path. -/
def pathShoelace : List Vector2 → ℚ
  | p1 :: p2 :: rest => (p1.x * p2.y - p2.x * p1.y) + pathShoelace (p2 :: rest)
  | _ => 0

/-- The sum `isClockwise` forms for a polygon (0 for the empty one). -/
def shoelaceSum (polygon : List Vector2) : ℚ :=
  match polygon.getLast? with
  | none => 0
  | some last => shoelaceLoop last polygon 0

/-- A light polygon with the single vertex `(0, 0, 20)`. -/
def pointLight : List Vector3 := [⟨0, 0, 20⟩]

/-- A caster with the single vertex `(0, 0, 5)`. -/
def pointCaster : List Vector3 := [⟨0, 0, 5⟩]

/-- How the output vertex `v` of `intersection` relates to the output vertex `u`
before it: the filter loop first wrote after `u` a candidate `w` at squared distance
at least `EPSILON` from `u`, and `v` is `w` or a candidate closer to the centre that
replaced it. -/
def WrittenApart (EPSILON : ℚ) (center : Vector2) (cands : List Vector2)
    (u v : Vector2) : Prop :=
  ∃ w ∈ cands, EPSILON ≤ distSquared w u ∧
    (v = w ∨ distSquared v center < distSquared w center)

/-- A triangle with a corner at `(1003/1000, 0)`. -/
def wedgeTriangle : List Vector2 := [⟨1003 / 1000, 0⟩, ⟨0, 1003 / 2000⟩, ⟨0, -1003 / 6000⟩]

/-- A thin triangle along the `x` axis with its tip at `(1/5, 1/2000)`. -/
def sliverTriangle : List Vector2 := [⟨1 / 5, 1 / 2000⟩, ⟨2, 11 / 4000⟩, ⟨2, -7 / 4000⟩]

/-- A triangle of height `13/10000` with its top at `(0, 1/500)`, clockwise. -/
def tinyUpper : List Vector2 := [⟨-1 / 5000, 7 / 10000⟩, ⟨0, 1 / 500⟩, ⟨1 / 5000, 7 / 10000⟩]

/-- A triangle of height `1/1000` on the `x` axis with its top at `(0, 1/1000)`,
clockwise. -/
def tinyLower : List Vector2 := [⟨-1 / 1000, 0⟩, ⟨0, 1 / 1000⟩, ⟨1 / 1000, 0⟩]

/-- The polygon `poly` is convex with distinct vertices and the point `p` lies
strictly inside it: every edge has all the vertices of `poly` on it or to its left and
`p` strictly to its left, or every edge has them on it or to its right and `p`
strictly to its right. -/
def InsideConvex (poly : List Vector2) (p : Vector2) : Prop :=
  poly.Nodup ∧
    ((∀ e ∈ walkedEdges poly, 0 < cross e.1 e.2 p ∧ ∀ v ∈ poly, 0 ≤ cross e.1 e.2 v) ∨
     (∀ e ∈ walkedEdges poly, cross e.1 e.2 p < 0 ∧ ∀ v ∈ poly, cross e.1 e.2 v ≤ 0))

/-- The point `q` is covered by the chain `S` of `hull` (held last point first): two
consecutive points `u`, `w` of the chain, `u` appended before `w`, have `q` between
them in the direction the chain advances (`d = 1` for increasing `x`, `d = -1` for
decreasing `x`) and `q` on the edge from `u` to `w` or to its left. -/
def Covered (d : ℚ) (S : List Vector2) (q : Vector2) : Prop :=
  ∃ u w, (w, u) ∈ List.zip S S.tail ∧ d * u.x ≤ d * q.x ∧ d * q.x ≤ d * w.x ∧
    0 ≤ cross u w q

/-- Five points with different `x`, any three of them turning by 0, by less than 0 or
by more than `1/100000`. -/
def farPoints : List Vector2 := [⟨0, 0⟩, ⟨1, 2⟩, ⟨2, -1⟩, ⟨3, 1⟩, ⟨3 / 2, 1 / 2⟩]

/-- Four points with different `x`, the second one `1/200000` below the segment from
the first to the third. -/
def skewDip : List Vector2 := [⟨0, 0⟩, ⟨1, -1 / 200000⟩, ⟨2, 0⟩, ⟨3 / 2, 1⟩]

/-- Four points, three of them with the same `x`. -/
def tiedPoints : List Vector2 := [⟨0, 1⟩, ⟨0, 0⟩, ⟨0, 2⟩, ⟨1, 0⟩]

section StripFacts

variable (rays layers : Nat) (FP_NAN : NFloat) (M_PI : ℚ) (sinf cosf : ℚ → ℚ)
  (centroid2d : List Vector2 → Vector2)

theorem length_bind_const {α β : Type} (l : List α) (f : α → List β) (k : Nat)
    (h : ∀ a ∈ l, (f a).length = k) : (l.flatMap f).length = l.length * k := by
  induction l with
  | nil => simp
  | cons a t ih =>
    have ha : (f a).length = k := h a (List.mem_cons_self a t)
    have ht : (t.flatMap f).length = t.length * k :=
      ih (fun b hb => h b (List.mem_cons_of_mem a hb))
    simp only [List.flatMap_cons, List.length_append, List.length_cons, ha, ht]
    ring

/-- C1. Whenever `generateTriangleStrip` allocates (does not abort), it writes exactly
`rays * (layers + 1) + 1` vertices, and the last one written is the centroid of the
umbra with opacity exactly 1. -/
theorem generateTriangleStrip_count_and_last (penumbra umbra : List Vector2)
    (size : Nat) (vertices : List AlphaVertex)
    (h : generateTriangleStrip rays layers FP_NAN M_PI sinf cosf centroid2d penumbra umbra
      = VertexBuffer.allocated size vertices) :
    vertices.length = rays * (layers + 1) + 1 ∧
    vertices.getLast? = some { x := NFloat.val (centroid2d umbra).x,
                               y := NFloat.val (centroid2d umbra).y,
                               alpha := NFloat.val 1 } := by
  unfold generateTriangleStrip at h
  split at h
  · exact absurd h (by simp)
  · simp only [VertexBuffer.allocated.injEq] at h
    obtain ⟨-, hv⟩ := h
    subst hv
    constructor
    · rw [List.length_append, length_bind_const _ _ rays (by intro a _; simp)]
      simp only [List.length_range, List.length_singleton]
      ring
    · simp

/-- The run of `generateTriangleStrip` on the two squares, 4 rays and 1 layer. -/
theorem squares_strip_run :
    generateTriangleStrip 4 1 NFloat.nan 2 quarterSin quarterCos meanCentroid
      squarePenumbra squareUmbra
      = VertexBuffer.allocated (getStripSize 4 1)
        [⟨.val 0, .val 2, .val 0⟩, ⟨.val 2, .val 0, .val 0⟩,
         ⟨.val 0, .val (-2), .val 0⟩, ⟨.val (-2), .val 0, .val 0⟩,
         ⟨.val 0, .val 1, .val 1⟩, ⟨.val 1, .val 0, .val 1⟩,
         ⟨.val 0, .val (-1), .val 1⟩, ⟨.val (-1), .val 0, .val 1⟩,
         ⟨.val 0, .val 0, .val 1⟩] := by decide!

/-- The hypothesis of C1 holds for a square umbra inside a square penumbra, with 4 rays
and 1 layer, and there the strip has `4 * (1 + 1) + 1 = 9` vertices ending at the
centroid `(0, 0)`. -/
theorem generateTriangleStrip_count_and_last_witness :
    ∃ size vertices,
      generateTriangleStrip 4 1 NFloat.nan 2 quarterSin quarterCos meanCentroid
        squarePenumbra squareUmbra = VertexBuffer.allocated size vertices ∧
      vertices.length = 4 * (1 + 1) + 1 ∧
      vertices.getLast? = some { x := NFloat.val 0, y := NFloat.val 0,
                                 alpha := NFloat.val 1 } := by
  have hrun := squares_strip_run
  have hc : meanCentroid squareUmbra = ⟨0, 0⟩ := by decide!
  have := generateTriangleStrip_count_and_last 4 1 NFloat.nan 2 quarterSin quarterCos
    meanCentroid squarePenumbra squareUmbra _ _ hrun
  rw [hc] at this
  exact ⟨_, _, hrun, this⟩

/-- C2. The size passed to `alloc` is `getStripSize(rays, layers)`, which exceeds the
`rays * (layers + 1) + 1` vertices filled by `1 + layers * (rays + 2)` for every ray and
layer count; on the two squares with 4 rays and 1 layer, 16 are allocated and 9 filled. -/
theorem getStripSize_exceeds_filled :
    (∀ rays layers : Nat,
      getStripSize rays layers = (rays * (layers + 1) + 1) + (1 + layers * (rays + 2)) ∧
      getStripSize rays layers ≠ rays * (layers + 1) + 1) ∧
    ∃ vertices,
      generateTriangleStrip 4 1 NFloat.nan 2 quarterSin quarterCos meanCentroid
        squarePenumbra squareUmbra = VertexBuffer.allocated 16 vertices ∧
      vertices.length = 9 := by
  have h12 : getStripSize 4 1 = 16 := by decide
  have hrun := squares_strip_run
  rw [h12] at hrun
  refine ⟨fun rays layers => ?_, _, hrun, rfl⟩
  have h : getStripSize rays layers
      = (rays * (layers + 1) + 1) + (1 + layers * (rays + 2)) := by
    unfold getStripSize
    ring
  exact ⟨h, by omega⟩

theorem rayIntersectPoly_of_loop (FP_NAN : NFloat) (poly : List Vector2) (last point : Vector2)
    (dx dy t2 : ℚ) (hl : poly.getLast? = some last)
    (h : rayIntersectLoop point.x point.y dx dy last poly = some t2) :
    rayIntersectPoly FP_NAN poly point dx dy = NFloat.val t2 := by
  unfold rayIntersectPoly
  rw [hl]
  simp only [h]

theorem rayIntersectPoly_of_loop_none (FP_NAN : NFloat) (poly : List Vector2)
    (last point : Vector2) (dx dy : ℚ) (hl : poly.getLast? = some last)
    (h : rayIntersectLoop point.x point.y dx dy last poly = none) :
    rayIntersectPoly FP_NAN poly point dx dy = FP_NAN := by
  unfold rayIntersectPoly
  rw [hl]
  simp only [h]

/-- C5. With the square umbra, a penumbra that no ray from the umbra's centroid reaches,
4 rays and 1 layer: whatever the value of the sentinel `FP_NAN` (NaN included), the ray
of index 0 misses the penumbra, `rayIntersectPoly` returns the sentinel, and the strip
is allocated all the same, with 9 vertices written. -/
theorem generateTriangleStrip_penumbra_miss_not_aborted (FP_NAN : NFloat) :
    penumbraDistPerRay 4 FP_NAN 2 quarterSin quarterCos meanCentroid farPenumbra squareUmbra 0
      = FP_NAN ∧
    ∃ vertices,
      generateTriangleStrip 4 1 FP_NAN 2 quarterSin quarterCos meanCentroid
        farPenumbra squareUmbra = VertexBuffer.allocated 16 vertices ∧
      vertices.length = 9 := by
  have hc : meanCentroid squareUmbra = ⟨0, 0⟩ := by decide!
  have hu : ∀ i ∈ List.range 4,
      umbraDistPerRay 4 FP_NAN 2 quarterSin quarterCos meanCentroid squareUmbra i
        = NFloat.val 1 := by
    intro i hi
    have hi4 : i < 4 := List.mem_range.mp hi
    unfold umbraDistPerRay
    apply rayIntersectPoly_of_loop FP_NAN squareUmbra ⟨1, -1⟩
    · decide
    · rw [hc]
      interval_cases i <;> decide!
  constructor
  · unfold penumbraDistPerRay
    apply rayIntersectPoly_of_loop_none FP_NAN farPenumbra ⟨5, 6⟩
    · decide
    · rw [hc]
      decide!
  · have hany : (List.range 4).any
        (rayLoopReturns 4 FP_NAN 2 quarterSin quarterCos meanCentroid squareUmbra) = false := by
      rw [List.any_eq_false]
      intro i hi
      unfold rayLoopReturns
      rw [hu i hi]
      simp [NFloat.isnan]
    unfold generateTriangleStrip
    have h12 : getStripSize 4 1 = 16 := by decide
    simp only [hany, Bool.false_eq_true, if_false, h12]
    refine ⟨_, rfl, ?_⟩
    rw [List.length_append, length_bind_const _ _ 4 (by intro a _; simp)]
    simp

end StripFacts

/-! ### The validation gate of `computeSpotShadow` -/

section GateFacts

variable (EPSILON : ℚ) (rays layers : Nat) (FP_NAN : NFloat) (M_PI : ℚ) (sinf cosf : ℚ → ℚ)
  (atan2 : ℚ → ℚ → ℚ) (centroid2d : List Vector2 → Vector2)

theorem inputPolyPositionValid_cons (l0 : Vector3) (ls : List Vector3) (v : Vector3)
    (rest : List Vector3) :
    inputPolyPositionValid (l0 :: ls) (v :: rest) =
      if v.z ≤ 1 / 100000 then some false
      else if v.z ≥ l0.z then some false
      else inputPolyPositionValid (l0 :: ls) rest := by
  simp only [inputPolyPositionValid, List.getElem?_cons_zero]

theorem inputPolyPositionValid_false_iff (l0 : Vector3) (ls poly : List Vector3) :
    inputPolyPositionValid (l0 :: ls) poly = some false ↔
      ∃ v ∈ poly, v.z ≤ 1 / 100000 ∨ l0.z ≤ v.z := by
  induction poly with
  | nil => simp [inputPolyPositionValid]
  | cons v rest ih =>
    rw [inputPolyPositionValid_cons, List.exists_mem_cons_iff]
    by_cases h1 : v.z ≤ 1 / 100000
    · rw [if_pos h1]
      exact ⟨fun _ => Or.inl (Or.inl h1), fun _ => rfl⟩
    · rw [if_neg h1]
      by_cases h2 : v.z ≥ l0.z
      · rw [if_pos h2]
        exact ⟨fun _ => Or.inl (Or.inr h2), fun _ => rfl⟩
      · rw [if_neg h2, ih]
        constructor
        · intro h
          exact Or.inr h
        · rintro (h | h)
          · rcases h with h | h
            · exact absurd h h1
            · exact absurd h h2
          · exact h

theorem inputPolyPositionValid_true_iff (l0 : Vector3) (ls poly : List Vector3) :
    inputPolyPositionValid (l0 :: ls) poly = some true ↔
      ∀ v ∈ poly, 1 / 100000 < v.z ∧ v.z < l0.z := by
  induction poly with
  | nil => simp [inputPolyPositionValid]
  | cons v rest ih =>
    rw [inputPolyPositionValid_cons, List.forall_mem_cons]
    by_cases h1 : v.z ≤ 1 / 100000
    · rw [if_pos h1]
      constructor
      · intro h
        exact absurd h (by simp)
      · rintro ⟨⟨h, -⟩, -⟩
        exact absurd h1 (not_le.mpr h)
    · rw [if_neg h1]
      by_cases h2 : v.z ≥ l0.z
      · rw [if_pos h2]
        constructor
        · intro h
          exact absurd h (by simp)
        · rintro ⟨⟨-, h⟩, -⟩
          exact absurd h2 (not_le.mpr h)
      · rw [if_neg h2, ih]
        constructor
        · intro h
          exact ⟨⟨not_le.mp h1, not_le.mp h2⟩, h⟩
        · rintro ⟨-, h⟩
          exact h

theorem computeSpotShadow_of_gate_false (lightPoly : List Vector3) (lightCenter : Vector3)
    (poly : List Vector3) (h : inputPolyPositionValid lightPoly poly = some false) :
    computeSpotShadow EPSILON rays layers FP_NAN M_PI sinf cosf atan2 centroid2d
      lightPoly lightCenter poly = some VertexBuffer.empty := by
  unfold computeSpotShadow
  rw [h]

/-- C3, as amended. With a non-empty light polygon, the validation gate of
`computeSpotShadow` rejects the caster exactly when some caster vertex has
`z <= 0.00001` or `z >= lightPoly[0].z`, and then the call returns with the sink never
allocated; it lets the caster pass exactly when every vertex has
`0.00001 < z < lightPoly[0].z`. -/
theorem computeSpotShadow_gate (l0 : Vector3) (ls : List Vector3) (lightCenter : Vector3)
    (poly : List Vector3) :
    (inputPolyPositionValid (l0 :: ls) poly = some false ↔
      ∃ v ∈ poly, v.z ≤ 1 / 100000 ∨ l0.z ≤ v.z) ∧
    (inputPolyPositionValid (l0 :: ls) poly = some true ↔
      ∀ v ∈ poly, 1 / 100000 < v.z ∧ v.z < l0.z) ∧
    ((∃ v ∈ poly, v.z ≤ 1 / 100000 ∨ l0.z ≤ v.z) →
      computeSpotShadow EPSILON rays layers FP_NAN M_PI sinf cosf atan2 centroid2d
        (l0 :: ls) lightCenter poly = some VertexBuffer.empty) :=
  ⟨inputPolyPositionValid_false_iff l0 ls poly, inputPolyPositionValid_true_iff l0 ls poly,
    fun h => computeSpotShadow_of_gate_false EPSILON rays layers FP_NAN M_PI sinf cosf atan2
      centroid2d (l0 :: ls) lightCenter poly
      ((inputPolyPositionValid_false_iff l0 ls poly).mpr h)⟩

/-- C3 as stated fails: every vertex of `lowCaster` has a height strictly above zero and
strictly below the light's height 20, yet the gate rejects it and nothing is
allocated. -/
theorem computeSpotShadow_gate_rejects_low_caster :
    (∀ v ∈ lowCaster, 0 < v.z ∧ v.z < 20) ∧
    inputPolyPositionValid lightAt20 lowCaster = some false ∧
    computeSpotShadow (1 / 100000) 4 1 NFloat.nan 2 quarterSin quarterCos diamondAtan2
      meanCentroid lightAt20 ⟨0, 0, 20⟩ lowCaster = some VertexBuffer.empty := by
  refine ⟨by decide!, by decide!, ?_⟩
  exact computeSpotShadow_of_gate_false _ _ _ _ _ _ _ _ _ _ _ _ (by decide!)

theorem computeLightPolygon_pos (points : Nat) (lightCenter : Vector3) (size : ℚ)
    (h : 0 < points) :
    ∃ l0 ls, computeLightPolygon M_PI sinf cosf points lightCenter size = l0 :: ls ∧
      l0.z = lightCenter.z := by
  obtain ⟨n, rfl⟩ : ∃ n, points = n + 1 := ⟨points - 1, by omega⟩
  unfold computeLightPolygon
  rw [List.range_succ_eq_map]
  exact ⟨_, _, rfl, rfl⟩

/-- C4. A caster with a vertex whose height equals the light's height is rejected:
`computeSpotShadow` (the light's height being `lightPoly[0].z`) and `createSpotShadow`
(light polygon of at least one vertex, all at `lightCenter.z`) return with the sink
never allocated. -/
theorem spotShadow_empty_of_vertex_at_light_height (poly : List Vector3) (v : Vector3)
    (hv : v ∈ poly) :
    (∀ (l0 : Vector3) (ls : List Vector3) (lightCenter : Vector3), v.z = l0.z →
      computeSpotShadow EPSILON rays layers FP_NAN M_PI sinf cosf atan2 centroid2d
        (l0 :: ls) lightCenter poly = some VertexBuffer.empty) ∧
    (∀ (lightCenter : Vector3) (lightSize : ℚ) (lightVertexCount : Nat),
      0 < lightVertexCount → v.z = lightCenter.z →
      createSpotShadow EPSILON rays layers FP_NAN M_PI sinf cosf atan2 centroid2d
        poly lightCenter lightSize lightVertexCount = some VertexBuffer.empty) := by
  have key : ∀ (l0 : Vector3) (ls : List Vector3) (lightCenter : Vector3), v.z = l0.z →
      computeSpotShadow EPSILON rays layers FP_NAN M_PI sinf cosf atan2 centroid2d
        (l0 :: ls) lightCenter poly = some VertexBuffer.empty := by
    intro l0 ls lightCenter hz
    apply computeSpotShadow_of_gate_false
    rw [inputPolyPositionValid_false_iff]
    exact ⟨v, hv, Or.inr (le_of_eq hz.symm)⟩
  refine ⟨key, ?_⟩
  intro lightCenter lightSize lightVertexCount hn hz
  obtain ⟨l0, ls, hl, hl0⟩ :=
    computeLightPolygon_pos M_PI sinf cosf lightVertexCount lightCenter lightSize hn
  unfold createSpotShadow
  rw [hl]
  exact key l0 ls lightCenter (hz.trans hl0.symm)

/-- C4 at the specification's example: the square caster with one vertex at height 20
under a light centred at `(0, 0, 20)` with radius 2 and 8 samples. -/
theorem spotShadow_empty_of_vertex_at_light_height_witness :
    (⟨1, 1, 20⟩ : Vector3) ∈ casterAtLightHeight ∧
    createSpotShadow (1 / 100000) 16 3 NFloat.nan 2 quarterSin quarterCos diamondAtan2
      meanCentroid casterAtLightHeight ⟨0, 0, 20⟩ 2 8 = some VertexBuffer.empty :=
  ⟨by decide!,
    (spotShadow_empty_of_vertex_at_light_height (1 / 100000) 16 3 NFloat.nan 2 quarterSin
      quarterCos diamondAtan2 meanCentroid casterAtLightHeight ⟨1, 1, 20⟩ (by decide!)).2
      ⟨0, 0, 20⟩ 2 8 (by decide) rfl⟩

end GateFacts

/-! ### Array reads, `swap` and the quicksorts -/

theorem readAt_eq_some {l : List Vector2} {i : Int} {v : Vector2} :
    readAt l i = some v ↔ 0 ≤ i ∧ l[i.toNat]? = some v := by
  unfold readAt
  by_cases h : 0 ≤ i
  · simp [h]
  · simp [h]

theorem readAt_lt_length {l : List Vector2} {i : Int} {v : Vector2} (h : readAt l i = some v) :
    0 ≤ i ∧ i < l.length := by
  rw [readAt_eq_some] at h
  obtain ⟨h0, h1⟩ := h
  have := (List.getElem?_eq_some_iff.mp h1).1
  omega

theorem readAt_of_lt {l : List Vector2} {i : Int} (h0 : 0 ≤ i) (h1 : i < l.length) :
    ∃ v, readAt l i = some v := by
  have hlt : i.toNat < l.length := by omega
  exact ⟨l[i.toNat], readAt_eq_some.mpr ⟨h0, List.getElem?_eq_getElem hlt⟩⟩

theorem readAt_eq_none_of_not {l : List Vector2} {i : Int} (h : ¬ (0 ≤ i ∧ i < l.length)) :
    readAt l i = none := by
  cases hr : readAt l i with
  | none => rfl
  | some v => exact absurd (readAt_lt_length hr) h

theorem swap_length {l l' : List Vector2} {i j : Int} (h : swap l i j = some l') :
    l'.length = l.length := by
  unfold swap at h
  split at h
  · simp only [Option.some.injEq] at h
    rw [← h]
    simp
  · exact absurd h (by simp)

theorem swap_some {l : List Vector2} {i j : Int} (hi0 : 0 ≤ i) (hi : i < l.length)
    (hj0 : 0 ≤ j) (hj : j < l.length) : ∃ l', swap l i j = some l' := by
  obtain ⟨a, ha⟩ := readAt_of_lt hi0 hi
  obtain ⟨b, hb⟩ := readAt_of_lt hj0 hj
  unfold swap
  rw [ha, hb]
  exact ⟨_, rfl⟩

theorem readAt_swap {l l' : List Vector2} {i j : Int} (h : swap l i j = some l') (k : Int) :
    readAt l' k = if k = j then readAt l i else if k = i then readAt l j else readAt l k := by
  unfold swap at h
  split at h
  · rename_i temp pj hi hj
    simp only [Option.some.injEq] at h
    subst h
    have hib := readAt_lt_length hi
    have hjb := readAt_lt_length hj
    by_cases hk0 : 0 ≤ k
    · by_cases hkj : k = j
      · subst hkj
        rw [if_pos rfl, hi, readAt_eq_some]
        refine ⟨hk0, ?_⟩
        rw [List.getElem?_set_self]
        simp only [List.length_set]
        omega
      · rw [if_neg hkj]
        have hne : j.toNat ≠ k.toNat := by omega
        by_cases hki : k = i
        · subst hki
          rw [if_pos rfl, hj, readAt_eq_some]
          refine ⟨hk0, ?_⟩
          rw [List.getElem?_set_ne hne, List.getElem?_set_self]
          omega
        · rw [if_neg hki]
          have hne2 : i.toNat ≠ k.toNat := by omega
          unfold readAt
          rw [if_pos hk0, if_pos hk0, List.getElem?_set_ne hne, List.getElem?_set_ne hne2]
    · have hkj : k ≠ j := by omega
      have hki : k ≠ i := by omega
      rw [if_neg hkj, if_neg hki]
      unfold readAt
      rw [if_neg hk0, if_neg hk0]
  · exact absurd h (by simp)

theorem set_set_perm_aux {l : List Vector2} {m n : Nat} (hm : m < l.length) (hn : n < l.length) :
    ((l.set m l[n]).set n l[m]).Perm l := by
  rw [List.perm_iff_count]
  intro a
  have h1 : (if l[m] == a then 1 else 0) ≤ l.count a := by
    split
    · rename_i h
      have : l[m] = a := by simpa using h
      rw [← this]
      exact List.count_pos_iff.mpr (List.getElem_mem hm)
    · omega
  by_cases hmn : m = n
  · subst hmn
    rw [List.set_set, List.count_set _ _ _ _ hm]
    omega
  · rw [List.count_set _ _ _ _ (by simpa using hn), List.count_set _ _ _ _ hm]
    simp only [List.getElem_set_ne hmn]
    omega

theorem swap_perm {l l' : List Vector2} {i j : Int} (h : swap l i j = some l') : l'.Perm l := by
  have hh := h
  unfold swap at hh
  split at hh
  · rename_i temp pj hi hj
    simp only [Option.some.injEq] at hh
    subst hh
    have hib := readAt_lt_length hi
    have hjb := readAt_lt_length hj
    have hi2 : i.toNat < l.length := by omega
    have hj2 : j.toNat < l.length := by omega
    have e1 : temp = l[i.toNat] := by
      have := (readAt_eq_some.mp hi).2
      rw [List.getElem?_eq_getElem hi2] at this
      exact (Option.some.inj this).symm
    have e2 : pj = l[j.toNat] := by
      have := (readAt_eq_some.mp hj).2
      rw [List.getElem?_eq_getElem hj2] at this
      exact (Option.some.inj this).symm
    rw [e1, e2]
    exact set_set_perm_aux hi2 hj2
  · exact absurd hh (by simp)

theorem RangePerm.refl (low high : Int) (l : List Vector2) : RangePerm low high l l :=
  ⟨rfl, List.Perm.refl l, fun _ _ => rfl, fun k h1 h2 _ hv => ⟨k, h1, h2, hv⟩⟩

theorem RangePerm.trans {low high : Int} {a b c : List Vector2}
    (h1 : RangePerm low high a b) (h2 : RangePerm low high b c) : RangePerm low high a c :=
  ⟨h2.length_eq.trans h1.length_eq, h2.perm.trans h1.perm,
    fun k hk => (h2.outside k hk).trans (h1.outside k hk),
    fun k hl hh v hv => by
      obtain ⟨k1, hl1, hh1, hv1⟩ := h2.inside k hl hh v hv
      exact h1.inside k1 hl1 hh1 v hv1⟩

theorem RangePerm.mono {low high low' high' : Int} {a b : List Vector2}
    (h : RangePerm low' high' a b) (hl : low ≤ low') (hh : high' ≤ high) :
    RangePerm low high a b :=
  ⟨h.length_eq, h.perm, fun k hk => h.outside k (by omega),
    fun k h1 h2 v hv => by
      by_cases hin : low' ≤ k ∧ k ≤ high'
      · obtain ⟨k1, hl1, hh1, hv1⟩ := h.inside k hin.1 hin.2 v hv
        exact ⟨k1, by omega, by omega, hv1⟩
      · rw [h.outside k (by omega)] at hv
        exact ⟨k, h1, h2, hv⟩⟩

theorem RangePerm.of_swap {low high : Int} {l l' : List Vector2} {i j : Int}
    (h : swap l i j = some l') (hi : low ≤ i ∧ i ≤ high) (hj : low ≤ j ∧ j ≤ high) :
    RangePerm low high l l' := by
  refine ⟨swap_length h, swap_perm h, ?_, ?_⟩
  · intro k hk
    rw [readAt_swap h k, if_neg (by omega), if_neg (by omega)]
  · intro k h1 h2 v hv
    rw [readAt_swap h k] at hv
    by_cases hkj : k = j
    · rw [if_pos hkj] at hv
      exact ⟨i, hi.1, hi.2, hv⟩
    · rw [if_neg hkj] at hv
      by_cases hki : k = i
      · rw [if_pos hki] at hv
        exact ⟨j, hj.1, hj.2, hv⟩
      · rw [if_neg hki] at hv
        exact ⟨k, h1, h2, hv⟩

theorem scanUp_spec (key : Vector2 → ℚ) (pivot : ℚ) (l : List Vector2) :
    ∀ (fuel : Nat) (i k : Int), 0 ≤ i → i ≤ k → (k - i).toNat < fuel →
      (∃ v, readAt l k = some v ∧ ¬ key v < pivot) →
      ∃ i1, scanUp key pivot l fuel i = some i1 ∧ i ≤ i1 ∧ i1 ≤ k ∧
        (∃ v, readAt l i1 = some v ∧ ¬ key v < pivot) ∧
        (∀ m, i ≤ m → m < i1 → ∀ v, readAt l m = some v → key v < pivot) := by
  intro fuel
  induction fuel with
  | zero => intro i k _ _ h; omega
  | succ n ih =>
    intro i k hi hik hfuel hstop
    obtain ⟨w, hw, hwk⟩ := hstop
    have hkb := readAt_lt_length hw
    obtain ⟨v, hv⟩ := readAt_of_lt (l := l) hi (by omega)
    rw [scanUp, hv]
    by_cases hlt : key v < pivot
    · simp only [hlt, if_true]
      have hne : i ≠ k := by
        intro e
        subst e
        rw [hv] at hw
        exact hwk (Option.some.inj hw ▸ hlt)
      obtain ⟨i1, h1, h2, h3, h4, h5⟩ :=
        ih (i + 1) k (by omega) (by omega) (by omega) ⟨w, hw, hwk⟩
      refine ⟨i1, h1, by omega, h3, h4, ?_⟩
      intro m hm1 hm2 u hu
      by_cases hmi : m = i
      · subst hmi
        rw [hv] at hu
        exact Option.some.inj hu ▸ hlt
      · exact h5 m (by omega) hm2 u hu
    · simp only [hlt, if_false]
      exact ⟨i, rfl, le_refl i, hik, ⟨v, hv, hlt⟩, fun m h1 h2 => by omega⟩

theorem scanDown_spec (key : Vector2 → ℚ) (pivot : ℚ) (l : List Vector2) :
    ∀ (fuel : Nat) (j k : Int), k ≤ j → j < l.length → (j - k).toNat < fuel →
      (∃ v, readAt l k = some v ∧ ¬ key v > pivot) →
      ∃ j1, scanDown key pivot l fuel j = some j1 ∧ k ≤ j1 ∧ j1 ≤ j ∧
        (∃ v, readAt l j1 = some v ∧ ¬ key v > pivot) ∧
        (∀ m, j1 < m → m ≤ j → ∀ v, readAt l m = some v → key v > pivot) := by
  intro fuel
  induction fuel with
  | zero => intro j k _ _ h; omega
  | succ n ih =>
    intro j k hkj hj hfuel hstop
    obtain ⟨w, hw, hwk⟩ := hstop
    have hkb := readAt_lt_length hw
    obtain ⟨v, hv⟩ := readAt_of_lt (l := l) (i := j) (by omega) hj
    rw [scanDown, hv]
    by_cases hgt : key v > pivot
    · simp only [hgt, if_true]
      have hne : j ≠ k := by
        intro e
        subst e
        rw [hv] at hw
        exact hwk (Option.some.inj hw ▸ hgt)
      obtain ⟨j1, h1, h2, h3, h4, h5⟩ :=
        ih (j - 1) k (by omega) (by omega) (by omega) ⟨w, hw, hwk⟩
      refine ⟨j1, h1, h2, by omega, h4, ?_⟩
      intro m hm1 hm2 u hu
      by_cases hmj : m = j
      · subst hmj
        rw [hv] at hu
        exact Option.some.inj hu ▸ hgt
      · exact h5 m hm1 (by omega) u hu
    · simp only [hgt, if_false]
      exact ⟨j, rfl, hkj, le_refl j, ⟨v, hv, hgt⟩, fun m h1 h2 => by omega⟩

theorem partitionLoop_spec (key : Vector2 → ℚ) (pivot : ℚ) (low high : Int) :
    ∀ (fuel : Nat) (pts : List Vector2) (i j : Int),
      PartInv key pivot low high pts i j → (j + 1 - i).toNat < fuel →
      ∃ out i' j', partitionLoop key pivot fuel pts i j = some (out, i', j') ∧
        RangePerm low high pts out ∧ j' < i' ∧ low < i' ∧ j' < high ∧
        low - 1 ≤ j' ∧ i' ≤ high + 1 ∧
        (∀ k, low ≤ k → k < i' → ∀ v, readAt out k = some v → key v ≤ pivot) ∧
        (∀ k, j' < k → k ≤ high → ∀ v, readAt out k = some v → pivot ≤ key v) := by
  intro fuel
  induction fuel with
  | zero => intro pts i j _ h; omega
  | succ n ih =>
    intro pts i j inv hfuel
    rw [partitionLoop]
    by_cases hij : i ≤ j
    · rw [if_pos hij]
      obtain ⟨ku, vu, hku1, hku2, hvu, hpu⟩ := inv.stopUp hij
      obtain ⟨kd, vd, hkd1, hkd2, hvd, hpd⟩ := inv.stopDown hij
      have hkub := readAt_lt_length hvu
      have hkdb := readAt_lt_length hvd
      have hlow := inv.low_nonneg
      have hhigh := inv.high_lt
      have hli := inv.low_le_i
      have hjh := inv.j_le_high
      obtain ⟨i1, hs1, hi1a, hi1b, ⟨wi, hwi, hwik⟩, hbelow⟩ :=
        scanUp_spec key pivot pts (pts.length + 1) i ku (by omega) hku1
          (by omega) ⟨vu, hvu, not_lt.mpr hpu⟩
      obtain ⟨j1, hs2, hj1a, hj1b, ⟨wj, hwj, hwjk⟩, habove⟩ :=
        scanDown_spec key pivot pts (pts.length + 1) j kd hkd2 (by omega)
          (by omega) ⟨vd, hvd, not_lt.mpr hpd⟩
      rw [hs1, hs2]
      simp only []
      by_cases h12 : i1 ≤ j1
      · rw [if_pos h12]
        obtain ⟨sw, hsw⟩ := swap_some (l := pts) (i := i1) (j := j1) (by omega) (by omega)
          (by omega) (by omega)
        rw [hsw]
        simp only []
        have hrp : RangePerm low high pts sw :=
          RangePerm.of_swap hsw ⟨by omega, by omega⟩ ⟨by omega, by omega⟩
        have inv' : PartInv key pivot low high sw (i1 + 1) (j1 - 1) := by
          refine ⟨hlow, by rw [swap_length hsw]; exact hhigh, by omega, by omega,
            by omega, by omega, ?_, ?_, ?_, ?_, Or.inl ⟨by omega, by omega⟩⟩
          · intro k hk1 hk2 v hv
            rw [readAt_swap hsw k] at hv
            by_cases hkj : k = j1
            · have hk : k = i1 := by omega
              rw [if_pos hkj, ← hk] at hv
              subst hk
              subst hkj
              rw [hwj] at hv
              exact Option.some.inj hv ▸ not_lt.mp hwjk
            · rw [if_neg hkj] at hv
              by_cases hki : k = i1
              · rw [if_pos hki, hwj] at hv
                exact Option.some.inj hv ▸ not_lt.mp hwjk
              · rw [if_neg hki] at hv
                by_cases hki2 : k < i
                · exact inv.left k hk1 hki2 v hv
                · exact le_of_lt (hbelow k (by omega) (by omega) v hv)
          · intro k hk1 hk2 v hv
            rw [readAt_swap hsw k] at hv
            by_cases hkj : k = j1
            · rw [if_pos hkj, hwi] at hv
              exact Option.some.inj hv ▸ not_lt.mp hwik
            · rw [if_neg hkj] at hv
              by_cases hki : k = i1
              · omega
              · rw [if_neg hki] at hv
                by_cases hkj2 : j < k
                · exact inv.right k hkj2 hk2 v hv
                · exact le_of_lt (habove k (by omega) (by omega) v hv)
          · intro hle
            refine ⟨j1, wi, by omega, by omega, ?_, not_lt.mp hwik⟩
            rw [readAt_swap hsw j1, if_pos rfl, hwi]
          · intro hle
            refine ⟨i1, wj, by omega, by omega, ?_, not_lt.mp hwjk⟩
            rw [readAt_swap hsw i1, if_neg (by omega), if_pos rfl, hwj]
        obtain ⟨out, i', j', hrun, hrp', rest⟩ := ih sw (i1 + 1) (j1 - 1) inv' (by omega)
        exact ⟨out, i', j', hrun, hrp.trans hrp', rest⟩
      · rw [if_neg h12]
        have hprog : low < i1 ∧ j1 < high := by
          rcases inv.progress with h | ⟨p, v, hp1, hp2, hv, hpv⟩
          · omega
          · exfalso
            have hp_i1 : i1 ≤ p := by
              by_contra hc
              have := hbelow p hp1 (by omega) v hv
              rw [hpv] at this
              exact lt_irrefl _ this
            have hp_j1 : p ≤ j1 := by
              by_contra hc
              have := habove p (by omega) hp2 v hv
              rw [hpv] at this
              exact lt_irrefl _ this
            omega
        have inv' : PartInv key pivot low high pts i1 j1 := by
          refine ⟨hlow, hhigh, by omega, by omega, by omega, by omega, ?_, ?_,
            fun h => absurd h h12, fun h => absurd h h12, Or.inl hprog⟩
          · intro k hk1 hk2 v hv
            by_cases hki2 : k < i
            · exact inv.left k hk1 hki2 v hv
            · exact le_of_lt (hbelow k (by omega) hk2 v hv)
          · intro k hk1 hk2 v hv
            by_cases hkj2 : j < k
            · exact inv.right k hkj2 hk2 v hv
            · exact le_of_lt (habove k hk1 (by omega) v hv)
        exact ih pts i1 j1 inv' (by omega)
    · rw [if_neg hij]
      have hprog : low < i ∧ j < high := by
        rcases inv.progress with h | ⟨p, v, hp1, hp2, _, _⟩
        · exact h
        · omega
      refine ⟨pts, i, j, rfl, RangePerm.refl low high pts, by omega, hprog.1, hprog.2,
        inv.le_j, inv.i_le, inv.left, inv.right⟩

theorem SortedOn.of_short (key : Vector2 → ℚ) (low high : Int) (l : List Vector2)
    (h : high ≤ low) : SortedOn key low high l := by
  intro k k' h1 h2 h3 a b ha hb
  have e : k = k' := by omega
  subst e
  rw [ha] at hb
  exact le_of_eq (congrArg key (Option.some.inj hb))

theorem quicksortKey_spec (key : Vector2 → ℚ) :
    ∀ (fuel : Nat) (pts : List Vector2) (low high : Int),
      0 ≤ low → low ≤ high → high < pts.length → (high - low).toNat < fuel →
      ∃ out, quicksortKey key fuel pts low high = some out ∧
        RangePerm low high pts out ∧ SortedOn key low high out := by
  intro fuel
  induction fuel with
  | zero => intro pts low high _ _ _ h; omega
  | succ n ih =>
    intro pts low high hlow hlh hhigh hfuel
    rw [quicksortKey]
    have hp : low + (high - low).tdiv 2 = low + (high - low) / 2 := by
      rw [Int.tdiv_eq_ediv (by omega) (by omega)]
    rw [hp]
    obtain ⟨pv, hpv⟩ := readAt_of_lt (l := pts) (i := low + (high - low) / 2)
      (by omega) (by omega)
    rw [hpv]
    simp only []
    have inv : PartInv key (key pv) low high pts low high :=
      ⟨hlow, hhigh, le_refl low, le_refl high, by omega, by omega,
        fun k h1 h2 => by omega, fun k h1 h2 => by omega,
        fun _ => ⟨low + (high - low) / 2, pv, by omega, by omega, hpv, le_refl _⟩,
        fun _ => ⟨low + (high - low) / 2, pv, by omega, by omega, hpv, le_refl _⟩,
        Or.inr ⟨low + (high - low) / 2, pv, by omega, by omega, hpv, rfl⟩⟩
    obtain ⟨parted, i', j', hrun, hrp, hji, hli, hjh, hlj, hih, hleft, hright⟩ :=
      partitionLoop_spec key (key pv) low high (pts.length + 1) pts low high inv (by omega)
    rw [hrun]
    simp only []
    have hlenp : parted.length = pts.length := hrp.length_eq
    obtain ⟨left, hleftrun, hrpl, hsl⟩ : ∃ left,
        (if low < j' then quicksortKey key n parted low j' else some parted) = some left ∧
        RangePerm low j' parted left ∧ SortedOn key low j' left := by
      by_cases hc : low < j'
      · rw [if_pos hc]
        exact ih parted low j' hlow (le_of_lt hc) (by omega) (by omega)
      · rw [if_neg hc]
        exact ⟨parted, rfl, RangePerm.refl _ _ _, SortedOn.of_short key _ _ _ (by omega)⟩
    rw [hleftrun]
    simp only []
    have hlenl : left.length = parted.length := hrpl.length_eq
    obtain ⟨out, houtrun, hrpo, hso⟩ : ∃ out,
        (if i' < high then quicksortKey key n left i' high else some left) = some out ∧
        RangePerm i' high left out ∧ SortedOn key i' high out := by
      by_cases hc : i' < high
      · rw [if_pos hc]
        exact ih left i' high (by omega) (le_of_lt hc) (by omega) (by omega)
      · rw [if_neg hc]
        exact ⟨left, rfl, RangePerm.refl _ _ _, SortedOn.of_short key _ _ _ (by omega)⟩
    refine ⟨out, houtrun, ?_, ?_⟩
    · exact hrp.trans ((hrpl.mono (le_refl low) (by omega)).trans
        (hrpo.mono (by omega) (le_refl high)))
    · have F1 : ∀ k, low ≤ k → k < i' → ∀ v, readAt out k = some v → key v ≤ key pv := by
        intro k h1 h2 v hv
        rw [hrpo.outside k (Or.inl h2)] at hv
        by_cases hk : k ≤ j'
        · obtain ⟨k2, h3, h4, hv2⟩ := hrpl.inside k h1 hk v hv
          exact hleft k2 h3 (by omega) v hv2
        · rw [hrpl.outside k (Or.inr (by omega))] at hv
          exact hleft k h1 h2 v hv
      have F2 : ∀ k, j' < k → k ≤ high → ∀ v, readAt out k = some v → key pv ≤ key v := by
        intro k h1 h2 v hv
        by_cases hk : i' ≤ k
        · obtain ⟨k2, h3, h4, hv2⟩ := hrpo.inside k hk h2 v hv
          rw [hrpl.outside k2 (Or.inr (by omega))] at hv2
          exact hright k2 (by omega) h4 v hv2
        · rw [hrpo.outside k (Or.inl (by omega)), hrpl.outside k (Or.inr h1)] at hv
          exact hright k h1 h2 v hv
      intro k k' h1 h2 h3 a b ha hb
      by_cases hA : k' ≤ j'
      · rw [hrpo.outside k (Or.inl (by omega))] at ha
        rw [hrpo.outside k' (Or.inl (by omega))] at hb
        exact hsl k k' h1 h2 hA a b ha hb
      · by_cases hB : i' ≤ k
        · exact hso k k' hB h2 h3 a b ha hb
        · exact le_trans (F1 k h1 (by omega) a ha) (F2 k' (by omega) h3 b hb)

theorem pairwise_of_sortedOn (key : Vector2 → ℚ) (l : List Vector2)
    (h : SortedOn key 0 ((l.length : Int) - 1) l) :
    l.Pairwise (fun a b => key a ≤ key b) := by
  rw [List.pairwise_iff_getElem]
  intro i j hi hj hij
  apply h (i : Int) (j : Int) (by omega) (by omega) (by omega)
  · rw [readAt_eq_some]
    exact ⟨by omega, by simp [List.getElem?_eq_getElem hi]⟩
  · rw [readAt_eq_some]
    exact ⟨by omega, by simp [List.getElem?_eq_getElem hj]⟩

theorem quicksortKey_whole (key : Vector2 → ℚ) (pts : List Vector2) (h : pts ≠ []) :
    ∃ out, quicksortKey key (pts.length + 1) pts 0 ((pts.length : Int) - 1) = some out ∧
      out.Perm pts ∧ out.Pairwise (fun a b => key a ≤ key b) := by
  have hpos : 0 < pts.length := List.length_pos.mpr h
  obtain ⟨out, hrun, hrp, hs⟩ := quicksortKey_spec key (pts.length + 1) pts 0
    ((pts.length : Int) - 1) (le_refl 0) (by omega) (by omega) (by omega)
  refine ⟨out, hrun, hrp.perm, pairwise_of_sortedOn key out ?_⟩
  rw [hrp.length_eq]
  exact hs

theorem xsort_spec (points : List Vector2) (h : points ≠ []) :
    ∃ sorted, xsort points = some sorted ∧ sorted.Perm points ∧
      sorted.Pairwise (fun a b => a.x ≤ b.x) :=
  quicksortKey_whole Vector2.x points h

theorem sort_spec (atan2 : ℚ → ℚ → ℚ) (poly : List Vector2) (center : Vector2) (h : poly ≠ []) :
    ∃ sorted, sort atan2 poly center = some sorted ∧ sorted.Perm poly ∧
      sorted.Pairwise (fun a b => angle atan2 a center ≤ angle atan2 b center) :=
  quicksortKey_whole (fun p => angle atan2 p center) poly h

/-! ### Chains of turns -/

theorem ccwPts_iff (EPSILON : ℚ) (a b c : Vector2) :
    ccwPts EPSILON a b c = true ↔ EPSILON < cross a b c := by
  unfold ccwPts ccw cross
  simp

theorem cr_mid_ne_zero (u v w : ℚ × ℚ) (h1 : 0 < cr v u) (h2 : 0 < cr w v)
    (h3 : 0 ≤ u.1 * w.1) : v.1 ≠ 0 := by
  intro hv
  unfold cr at h1 h2
  rw [hv] at h1 h2
  nlinarith [mul_pos h1 h2, sq_nonneg v.2]

theorem cr_step (u v w : ℚ × ℚ) (h1 : 0 ≤ cr v u) (h2 : 0 < cr w v) (hv : v.1 ≠ 0)
    (h3 : 0 ≤ w.1 * v.1) (h4 : 0 ≤ u.1 * v.1) : 0 ≤ cr w u := by
  by_contra hc
  push_neg at hc
  have hsq : 0 < v.1 ^ 2 := by positivity
  have hid : cr w u * v.1 ^ 2 = cr v u * (w.1 * v.1) + cr w v * (u.1 * v.1) := by
    unfold cr
    ring
  have hl : cr w u * v.1 ^ 2 < 0 := mul_neg_of_neg_of_pos hc hsq
  have hr : 0 ≤ cr v u * (w.1 * v.1) + cr w v * (u.1 * v.1) :=
    add_nonneg (mul_nonneg h1 h3) (mul_nonneg (le_of_lt h2) h4)
  linarith

theorem dirs_pairwise (ds : List (ℚ × ℚ))
    (hc : ds.Chain' (fun u v => 0 < cr v u))
    (hs : ∀ e ∈ ds, ∀ f ∈ ds, 0 ≤ e.1 * f.1) :
    ds.Pairwise (fun u v => 0 ≤ cr v u) := by
  induction ds using List.reverseRecOn with
  | nil => exact List.Pairwise.nil
  | append_singleton init w ih =>
    have hci : init.Chain' (fun u v => 0 < cr v u) := (List.chain'_append.mp hc).1
    have hsi : ∀ e ∈ init, ∀ f ∈ init, 0 ≤ e.1 * f.1 := fun e he f hf =>
      hs e (List.mem_append_left _ he) f (List.mem_append_left _ hf)
    have hpi := ih hci hsi
    rw [List.pairwise_append]
    refine ⟨hpi, List.pairwise_singleton _ _, ?_⟩
    intro u hu x hx
    rw [List.mem_singleton] at hx
    subst hx
    have hw : x ∈ init ++ [x] := List.mem_append_right _ (List.mem_singleton_self x)
    induction init using List.reverseRecOn with
    | nil => exact absurd hu (List.not_mem_nil u)
    | append_singleton init' v _ =>
      have hvw : 0 < cr x v := by
        have := (List.chain'_append.mp hc).2.2 v (by simp) x (by simp)
        exact this
      rw [List.mem_append, List.mem_singleton] at hu
      rcases hu with hu | hu
      · have huv : 0 ≤ cr v u := by
          have := (List.pairwise_append.mp hpi).2.2 u hu v (List.mem_singleton_self v)
          exact this
        have hvm : v ∈ init' ++ [v] ++ [x] := by simp
        have hum : u ∈ init' ++ [v] ++ [x] := by simp [hu]
        have hv0 : v.1 ≠ 0 := by
          induction init' using List.reverseRecOn with
          | nil => exact absurd hu (List.not_mem_nil u)
          | append_singleton init'' t _ =>
            have htv : 0 < cr v t := by
              have := (List.chain'_append.mp hci).2.2 t (by simp) v (by simp)
              exact this
            exact cr_mid_ne_zero t v x htv hvw (hs t (by simp) x (by simp))
        exact cr_step u v x huv hvw hv0 (hs x hw v hvm) (hs u hum v hvm)
      · subst hu
        exact le_of_lt hvw

theorem cr_vsum_left (B : List (ℚ × ℚ)) (u : ℚ × ℚ) (h : ∀ w ∈ B, 0 ≤ cr w u) :
    0 ≤ cr (vsum B) u := by
  induction B with
  | nil => simp [vsum, cr]
  | cons e es ih =>
    have h1 := h e (List.mem_cons_self e es)
    have h2 := ih (fun w hw => h w (List.mem_cons_of_mem e hw))
    unfold cr at h1 h2 ⊢
    simp only [vsum]
    linarith

theorem cr_vsum_nonneg (A B : List (ℚ × ℚ)) (h : ∀ u ∈ A, ∀ w ∈ B, 0 ≤ cr w u) :
    0 ≤ cr (vsum B) (vsum A) := by
  induction A with
  | nil => simp [vsum, cr]
  | cons u us ih =>
    have h1 := cr_vsum_left B u (h u (List.mem_cons_self u us))
    have h2 := ih (fun x hx => h x (List.mem_cons_of_mem u hx))
    unfold cr at h1 h2 ⊢
    simp only [vsum]
    linarith

theorem cr_vsum_pos (A : List (ℚ × ℚ)) (w0 : ℚ × ℚ) (B : List (ℚ × ℚ)) (hA : A ≠ [])
    (hc : (A ++ w0 :: B).Chain' (fun u v => 0 < cr v u))
    (hp : (A ++ w0 :: B).Pairwise (fun u v => 0 ≤ cr v u)) :
    0 < cr (vsum (w0 :: B)) (vsum A) := by
  induction A with
  | nil => exact absurd rfl hA
  | cons u us ih =>
    have hall : ∀ w ∈ w0 :: B, 0 ≤ cr w u := by
      intro w hw
      have := List.rel_of_pairwise_cons hp (List.mem_append_right us hw)
      exact this
    by_cases hus : us = []
    · subst hus
      have h0 : 0 < cr w0 u := by
        have := List.Chain'.rel_head hc
        exact this
      have h1 := cr_vsum_left B u (fun w hw => hall w (List.mem_cons_of_mem w0 hw))
      unfold cr at h0 h1 ⊢
      simp only [vsum]
      linarith
    · have h1 := cr_vsum_left (w0 :: B) u hall
      have h2 := ih hus (List.Chain'.tail hc) (List.Pairwise.of_cons hp)
      unfold cr at h1 h2 ⊢
      simp only [vsum] at h1 h2 ⊢
      linarith

theorem dirs_cons_cons (p q : Vector2) (rest : List Vector2) :
    dirs (p :: q :: rest) = (q.x - p.x, q.y - p.y) :: dirs (q :: rest) := rfl

theorem vsum_cons (e : ℚ × ℚ) (es : List (ℚ × ℚ)) :
    vsum (e :: es) = (e.1 + (vsum es).1, e.2 + (vsum es).2) := rfl

theorem vsum_dirs (p : Vector2) (mid : List Vector2) (r : Vector2) :
    vsum (dirs (p :: (mid ++ [r]))) = (r.x - p.x, r.y - p.y) := by
  induction mid generalizing p with
  | nil => simp [dirs, vsum]
  | cons m ms ih =>
    rw [List.cons_append, dirs_cons_cons, vsum_cons, ih m]
    simp

theorem dirs_append (X : List Vector2) (q : Vector2) (Y : List Vector2) :
    dirs (X ++ q :: Y) = dirs (X ++ [q]) ++ dirs (q :: Y) := by
  induction X with
  | nil => simp [dirs]
  | cons p ps ih =>
    cases ps with
    | nil => simp [dirs]
    | cons p' ps' =>
      simp only [List.cons_append] at ih ⊢
      rw [dirs_cons_cons, ih, dirs_cons_cons, List.cons_append]

theorem StackCCW.tail {EPSILON : ℚ} {x : Vector2} {l : List Vector2}
    (h : StackCCW EPSILON (x :: l)) : StackCCW EPSILON l := by
  match l, h with
  | [], _ => trivial
  | [_], _ => trivial
  | _ :: _ :: [], _ => trivial
  | _ :: _ :: _ :: _, h => exact h.2

theorem dirs_chain (EPSILON : ℚ) (hE : 0 ≤ EPSILON) (S : List Vector2)
    (h : StackCCW EPSILON S) : (dirs S).Chain' (fun u v => 0 < cr v u) := by
  induction S with
  | nil => simp [dirs]
  | cons p t ih =>
    have iht := ih (StackCCW.tail h)
    match t, h, iht with
    | [], _, _ => simp [dirs]
    | [_], _, _ => simp [dirs]
    | q :: r :: rest, h, iht =>
      rw [dirs_cons_cons]
      rw [dirs_cons_cons] at iht ⊢
      refine List.Chain'.cons ?_ iht
      have hc : EPSILON < cross r q p := (ccwPts_iff EPSILON r q p).mp h.1
      have : cr (r.x - q.x, r.y - q.y) (q.x - p.x, q.y - p.y) = cross r q p := by
        unfold cr cross
        ring
      rw [this]
      linarith

theorem dirs_nonpos (S : List Vector2) (h : S.Pairwise (fun u v => v.x ≤ u.x)) :
    ∀ e ∈ dirs S, e.1 ≤ 0 := by
  induction S with
  | nil => simp [dirs]
  | cons p t ih =>
    match t, h, ih with
    | [], _, _ => simp [dirs]
    | q :: rest, h, ih =>
      intro e he
      rw [dirs_cons_cons, List.mem_cons] at he
      rcases he with he | he
      · subst he
        have := List.rel_of_pairwise_cons h (List.mem_cons_self q rest)
        simp only
        linarith
      · exact ih (List.Pairwise.of_cons h) e he

theorem dirs_nonneg (S : List Vector2) (h : S.Pairwise (fun u v => u.x ≤ v.x)) :
    ∀ e ∈ dirs S, 0 ≤ e.1 := by
  induction S with
  | nil => simp [dirs]
  | cons p t ih =>
    match t, h, ih with
    | [], _, _ => simp [dirs]
    | q :: rest, h, ih =>
      intro e he
      rw [dirs_cons_cons, List.mem_cons] at he
      rcases he with he | he
      · subst he
        have := List.rel_of_pairwise_cons h (List.mem_cons_self q rest)
        simp only
        linarith
      · exact ih (List.Pairwise.of_cons h) e he

/-- In a chain held last point first whose consecutive triples passed `ccw` and whose
`x` is monotone, every point strictly between the ends lies strictly to the right of
the line from the first point `bottom` to the last point `top`. -/
theorem stack_interior_side (EPSILON : ℚ) (hE : 0 ≤ EPSILON) (top : Vector2)
    (X : List Vector2) (q : Vector2) (Y : List Vector2) (bottom : Vector2)
    (hS : StackCCW EPSILON (top :: (X ++ q :: (Y ++ [bottom]))))
    (hm : (∀ e ∈ dirs (top :: (X ++ q :: (Y ++ [bottom]))), e.1 ≤ 0) ∨
          (∀ e ∈ dirs (top :: (X ++ q :: (Y ++ [bottom]))), 0 ≤ e.1)) :
    cross bottom top q < 0 := by
  have hsame : ∀ e ∈ dirs (top :: (X ++ q :: (Y ++ [bottom]))),
      ∀ f ∈ dirs (top :: (X ++ q :: (Y ++ [bottom]))), 0 ≤ e.1 * f.1 := by
    intro e he f hf
    rcases hm with hm | hm
    · exact mul_nonneg_of_nonpos_of_nonpos (hm e he) (hm f hf)
    · exact mul_nonneg (hm e he) (hm f hf)
  have hchain := dirs_chain EPSILON hE _ hS
  have hpair := dirs_pairwise _ hchain hsame
  have hsplit : dirs (top :: (X ++ q :: (Y ++ [bottom])))
      = dirs (top :: (X ++ [q])) ++ dirs (q :: (Y ++ [bottom])) := by
    have := dirs_append (top :: X) q (Y ++ [bottom])
    simpa using this
  have hA : vsum (dirs (top :: (X ++ [q]))) = (q.x - top.x, q.y - top.y) := vsum_dirs top X q
  have hB : vsum (dirs (q :: (Y ++ [bottom]))) = (bottom.x - q.x, bottom.y - q.y) :=
    vsum_dirs q Y bottom
  have hAne : dirs (top :: (X ++ [q])) ≠ [] := by
    cases X <;> simp [dirs]
  obtain ⟨w0, B, hBeq⟩ : ∃ w0 B, dirs (q :: (Y ++ [bottom])) = w0 :: B := by
    cases Y <;> exact ⟨_, _, rfl⟩
  rw [hsplit, hBeq] at hchain hpair
  have hpos := cr_vsum_pos _ w0 B hAne hchain hpair
  rw [← hBeq, hA, hB] at hpos
  unfold cr at hpos
  unfold cross
  simp only at hpos
  linarith

/-! ### The chains of hull -/

theorem pruneChain_spec (EPSILON : ℚ) (R : Vector2 → Vector2 → Prop) (c : Vector2) :
    ∀ S0 : List Vector2, StackCCW EPSILON S0 → S0.Pairwise R →
      ∃ S1, pruneChain EPSILON c S0 = c :: S1 ∧ S1 <:+ S0 ∧ (S0 ≠ [] → S1 ≠ []) ∧
        StackCCW EPSILON (c :: S1) ∧
        (∀ q ∈ S0, q ∈ S1 ∨ ∃ a ∈ S0, R q a ∧ ccwPts EPSILON a q c = false) := by
  intro S0
  induction S0 with
  | nil =>
    intro _ _
    exact ⟨[], rfl, List.suffix_refl _, fun h => absurd rfl h, trivial, by simp⟩
  | cons b t ih =>
    intro hccw hpw
    match t, hccw, hpw, ih with
    | [], _, _, _ =>
      exact ⟨[b], rfl, List.suffix_refl _, fun _ => by simp, trivial,
        fun q hq => Or.inl hq⟩
    | a :: rest, hccw, hpw, ih =>
      rw [pruneChain]
      by_cases ht : ccwPts EPSILON a b c = true
      · rw [if_pos ht]
        exact ⟨b :: a :: rest, rfl, List.suffix_refl _, fun _ => by simp, ⟨ht, hccw⟩,
          fun q hq => Or.inl hq⟩
      · rw [if_neg ht]
        obtain ⟨S1, h1, h2, h3, h4, h5⟩ := ih (StackCCW.tail hccw) (List.Pairwise.of_cons hpw)
        refine ⟨S1, h1, h2.trans (List.suffix_cons b _), fun _ => h3 (by simp), h4, ?_⟩
        intro q hq
        rw [List.mem_cons] at hq
        rcases hq with hq | hq
        · subst hq
          refine Or.inr ⟨a, by simp, ?_, by simpa using ht⟩
          exact List.rel_of_pairwise_cons hpw (List.mem_cons_self a rest)
        · rcases h5 q hq with h | ⟨a', ha', hr, hf⟩
          · exact Or.inl h
          · exact Or.inr ⟨a', List.mem_cons_of_mem b ha', hr, hf⟩

theorem getLast?_of_suffix {S1 S0 : List Vector2} (h : S1 <:+ S0) (hne : S1 ≠ []) :
    S1.getLast? = S0.getLast? := by
  obtain ⟨pre, rfl⟩ := h
  rw [List.getLast?_append_of_ne_nil _ hne]

theorem ChainInv.push (EPSILON : ℚ) (R : Vector2 → Vector2 → Prop) (S pushed : List Vector2)
    (c : Vector2) (inv : ChainInv EPSILON R S pushed)
    (hR : (pushed ++ [c]).reverse.Pairwise R) :
    ChainInv EPSILON R (pruneChain EPSILON c S) (pushed ++ [c]) := by
  have hrev : (pushed ++ [c]).reverse = c :: pushed.reverse := by simp
  rw [hrev] at hR
  have hSR : S.Pairwise R := (List.Pairwise.of_cons hR).sublist inv.sub
  have hSne : S ≠ [] := by
    intro e
    have := inv.two
    rw [e] at this
    simp at this
  obtain ⟨S1, h1, h2, h3, h4, h5⟩ := pruneChain_spec EPSILON R c S inv.ccw hSR
  rw [h1]
  have hS1ne := h3 hSne
  refine ⟨h4, ?_, ?_, ?_, ?_, ?_⟩
  · rw [hrev]
    exact (h2.sublist.trans inv.sub).cons₂ c
  · simp
  · have hb : S1.getLast? = pushed.head? := (getLast?_of_suffix h2 hS1ne).trans inv.bottom
    cases S1 with
    | nil => exact absurd rfl hS1ne
    | cons x xs =>
      rw [List.getLast?_cons_cons, hb]
      cases pushed with
      | nil =>
        have := inv.sub
        simp at this
        exact absurd this hSne
      | cons p ps => simp
  · cases S1 with
    | nil => exact absurd rfl hS1ne
    | cons _ _ => simp
  · intro q hq
    rw [List.mem_append, List.mem_singleton] at hq
    rcases hq with hq | hq
    · have hcq : R c q := List.rel_of_pairwise_cons hR (List.mem_reverse.mpr hq)
      rcases inv.pruned q hq with h | ⟨a, c', ha, hc', hr1, hr2, hf⟩
      · rcases h5 q h with h' | ⟨a, ha, hr, hf⟩
        · exact Or.inl (List.mem_cons_of_mem c h')
        · refine Or.inr ⟨a, c, ?_, by simp, hr, hcq, hf⟩
          exact List.mem_append_left _ (List.mem_reverse.mp (inv.sub.subset ha))
      · exact Or.inr ⟨a, c', List.mem_append_left _ ha, List.mem_append_left _ hc',
          hr1, hr2, hf⟩
    · subst hq
      exact Or.inl (List.mem_cons_self q S1)

theorem foldl_chainInv (EPSILON : ℚ) (R : Vector2 → Vector2 → Prop) :
    ∀ (others S pushed : List Vector2), ChainInv EPSILON R S pushed →
      (pushed ++ others).reverse.Pairwise R →
      ChainInv EPSILON R (others.foldl (fun chain p => pruneChain EPSILON p chain) S)
        (pushed ++ others) := by
  intro others
  induction others with
  | nil =>
    intro S pushed inv _
    simpa using inv
  | cons c cs ih =>
    intro S pushed inv hR
    have hsplit : (pushed ++ c :: cs).reverse = cs.reverse ++ (pushed ++ [c]).reverse := by
      simp
    have hR1 : (pushed ++ [c]).reverse.Pairwise R := by
      rw [hsplit] at hR
      exact (List.pairwise_append.mp hR).2.1
    have inv' := ChainInv.push EPSILON R S pushed c inv hR1
    have := ih (pruneChain EPSILON c S) (pushed ++ [c]) inv' (by simpa using hR)
    simpa using this

theorem lUpperOf_spec (EPSILON : ℚ) (R : Vector2 → Vector2 → Prop) (p0 p1 : Vector2)
    (rest : List Vector2) (hR : (p0 :: p1 :: rest).reverse.Pairwise R) :
    ∃ S, lUpperOf EPSILON (p0 :: p1 :: rest) = some S.reverse ∧
      ChainInv EPSILON R S (p0 :: p1 :: rest) := by
  refine ⟨buildChain EPSILON p0 p1 rest, by simp [lUpperOf], ?_⟩
  have init : ChainInv EPSILON R [p1, p0] [p0, p1] :=
    ⟨trivial, by simp, rfl, rfl, le_refl 2, fun q hq => Or.inl (by
      rw [List.mem_cons, List.mem_singleton] at hq ⊢
      exact hq.symm)⟩
  exact foldl_chainInv EPSILON R rest [p1, p0] [p0, p1] init hR

theorem lLowerOf_reverse (EPSILON : ℚ) (r : List Vector2) :
    lLowerOf EPSILON r.reverse = lUpperOf EPSILON r := by
  match r with
  | [] => rfl
  | [x] => rfl
  | q0 :: q1 :: rest =>
    have hlen : ((q0 :: q1 :: rest).reverse.length : Int) = (rest.length : Int) + 2 := by
      simp
    have h0 : readAt (q0 :: q1 :: rest).reverse (((q0 :: q1 :: rest).reverse.length : Int) - 1)
        = some q0 := by
      rw [readAt_eq_some, hlen]
      refine ⟨by omega, ?_⟩
      have e : ((rest.length : Int) + 2 - 1).toNat = rest.length + 1 := by omega
      rw [e, List.reverse_cons, List.reverse_cons, List.append_assoc,
        List.getElem?_append_right (by simp)]
      simp
    have h1 : readAt (q0 :: q1 :: rest).reverse (((q0 :: q1 :: rest).reverse.length : Int) - 2)
        = some q1 := by
      rw [readAt_eq_some, hlen]
      refine ⟨by omega, ?_⟩
      have e : ((rest.length : Int) + 2 - 2).toNat = rest.length := by omega
      rw [e, List.reverse_cons, List.reverse_cons, List.append_assoc,
        List.getElem?_append_right (by simp)]
      simp
    have h2 : ((q0 :: q1 :: rest).reverse.take ((q0 :: q1 :: rest).reverse.length - 2)).reverse
        = rest := by
      simp
    unfold lLowerOf lUpperOf
    rw [h0, h1, h2]
    simp

theorem lLowerOf_eq (EPSILON : ℚ) (s : List Vector2) :
    lLowerOf EPSILON s = lUpperOf EPSILON s.reverse := by
  have := lLowerOf_reverse EPSILON s.reverse
  rwa [List.reverse_reverse] at this

theorem exists_two_of_length {l : List Vector2} (h : 2 ≤ l.length) :
    ∃ p0 p1 rest, l = p0 :: p1 :: rest := by
  match l, h with
  | p0 :: p1 :: rest, _ => exact ⟨p0, p1, rest, rfl⟩

/-- The run of `hull` on at least two points: the sorted array `s`, and the two chains
(last point first) with what holds of them. -/
theorem hull_structure (EPSILON : ℚ) (points : List Vector2) (h2 : 2 ≤ points.length) :
    ∃ s SU SL, s.Perm points ∧ s.Pairwise (fun a b => a.x ≤ b.x) ∧
      hull EPSILON points = some (SU.reverse ++ (SL.reverse.drop 1).dropLast) ∧
      ChainInv EPSILON (fun u v => v.x ≤ u.x) SU s ∧
      ChainInv EPSILON (fun u v => u.x ≤ v.x) SL s.reverse := by
  have hne : points ≠ [] := by
    intro e
    rw [e] at h2
    simp at h2
  obtain ⟨s, hrun, hperm, hsorted⟩ := xsort_spec points hne
  have hlen : 2 ≤ s.length := by rw [hperm.length_eq]; exact h2
  obtain ⟨p0, p1, rest, hs⟩ := exists_two_of_length hlen
  obtain ⟨q0, q1, rest', hsr⟩ := exists_two_of_length (l := s.reverse) (by simpa using hlen)
  obtain ⟨SU, hU, invU⟩ := lUpperOf_spec EPSILON (fun u v => v.x ≤ u.x) p0 p1 rest (by
    rw [← hs, List.pairwise_reverse]
    exact hsorted)
  obtain ⟨SL, hL, invL⟩ := lUpperOf_spec EPSILON (fun u v => u.x ≤ v.x) q0 q1 rest' (by
    rw [← hsr, List.reverse_reverse]
    exact hsorted)
  rw [← hs] at hU invU
  rw [← hsr] at hL invL
  refine ⟨s, SU, SL, hperm, hsorted, ?_, invU, invL⟩
  unfold hull
  rw [hrun]
  simp only []
  rw [lLowerOf_eq, hU, hL]

theorem head_last_decomp {l : List Vector2} {b a : Vector2} (h2 : 2 ≤ l.length)
    (hh : l.head? = some b) (hl : l.getLast? = some a) : ∃ M, l = b :: (M ++ [a]) := by
  match l, h2, hh, hl with
  | x :: y :: t, _, hh, hl =>
    simp only [List.head?_cons, Option.some.injEq] at hh
    subst hh
    rw [List.getLast?_cons_cons] at hl
    have hne : y :: t ≠ [] := by simp
    refine ⟨(y :: t).dropLast, ?_⟩
    have := List.dropLast_append_getLast? a hl
    rw [this]

/-! ### The hull: vertex count -/

theorem exists_ends_of_length {l : List Vector2} (h : 2 ≤ l.length) :
    ∃ a mid b, l = a :: (mid ++ [b]) := by
  match l, h with
  | a :: y :: t, _ =>
    refine ⟨a, (y :: t).dropLast, (y :: t).getLast (by simp), ?_⟩
    rw [List.dropLast_append_getLast]

/-- The run of `hull` on at least two points, with the sorted array and both chains
split into their end points and what lies between. -/
theorem hull_decomp (EPSILON : ℚ) (points : List Vector2) (h2 : 2 ≤ points.length) :
    ∃ (s : List Vector2) (a b : Vector2) (smid MU ML : List Vector2),
      s.Perm points ∧ s.Pairwise (fun p q => p.x ≤ q.x) ∧ s = a :: (smid ++ [b]) ∧
      hull EPSILON points = some (a :: (MU.reverse ++ [b]) ++ ML.reverse) ∧
      ChainInv EPSILON (fun u v => v.x ≤ u.x) (b :: (MU ++ [a])) s ∧
      ChainInv EPSILON (fun u v => u.x ≤ v.x) (a :: (ML ++ [b])) s.reverse := by
  obtain ⟨s, SU, SL, hperm, hsorted, hrun, invU, invL⟩ := hull_structure EPSILON points h2
  have hlen : 2 ≤ s.length := by rw [hperm.length_eq]; exact h2
  obtain ⟨a, smid, b, hs⟩ := exists_ends_of_length hlen
  have hsh : s.head? = some a := by rw [hs]; rfl
  have hsl : s.getLast? = some b := by
    rw [hs, ← List.cons_append, List.getLast?_append_of_ne_nil _ (by simp)]
    rfl
  have hrh : s.reverse.head? = some b := by rw [List.head?_reverse]; exact hsl
  have hrl : s.reverse.getLast? = some a := by rw [List.getLast?_reverse]; exact hsh
  obtain ⟨MU, hMU⟩ := head_last_decomp invU.two (invU.top.trans hsl) (invU.bottom.trans hsh)
  obtain ⟨ML, hML⟩ := head_last_decomp invL.two (invL.top.trans hrl) (invL.bottom.trans hrh)
  subst hMU
  subst hML
  refine ⟨s, a, b, smid, MU, ML, hperm, hsorted, hs, ?_, invU, invL⟩
  rw [hrun]
  simp

theorem countP_disjoint_le (P N : Vector2 → Bool) (l : List Vector2)
    (h : ∀ q, ¬ (P q = true ∧ N q = true)) : l.countP P + l.countP N ≤ l.length := by
  induction l with
  | nil => simp
  | cons x t ih =>
    rw [List.countP_cons, List.countP_cons, List.length_cons]
    have := h x
    cases hP : P x <;> cases hN : N x <;> simp [hP, hN] at this ⊢ <;> omega

theorem cross_self_left (a b : Vector2) : cross a b a = 0 := by
  unfold cross
  ring

theorem cross_self_right (a b : Vector2) : cross a b b = 0 := by
  unfold cross
  ring

theorem cross_swap (a b q : Vector2) : cross b a q = -cross a b q := by
  unfold cross
  ring

/-- C8. For every array of at least 3 points (and a tolerance `EPSILON >= 0`), `hull`
returns, and the vertex count it returns is at most the number of input points. -/
theorem hull_count_le (EPSILON : ℚ) (hE : 0 ≤ EPSILON) (points : List Vector2)
    (h3 : 3 ≤ points.length) :
    ∃ retPoly, hull EPSILON points = some retPoly ∧ retPoly.length ≤ points.length := by
  obtain ⟨s, a, b, smid, MU, ML, hperm, hsorted, hs, hrun, invU, invL⟩ :=
    hull_decomp EPSILON points (by omega)
  refine ⟨_, hrun, ?_⟩
  have hUpw : (b :: (MU ++ [a])).Pairwise (fun u v => v.x ≤ u.x) :=
    (List.pairwise_reverse.mpr hsorted).sublist invU.sub
  have hLpw : (a :: (ML ++ [b])).Pairwise (fun u v => u.x ≤ v.x) :=
    hsorted.sublist (by simpa using invL.sub)
  have hUside : ∀ q ∈ MU, cross a b q < 0 := by
    intro q hq
    obtain ⟨X, Y, rfl⟩ := List.append_of_mem hq
    have hS : StackCCW EPSILON (b :: (X ++ q :: (Y ++ [a]))) := by
      simpa using invU.ccw
    exact stack_interior_side EPSILON hE b X q Y a hS
      (Or.inl (dirs_nonpos _ (by simpa using hUpw)))
  have hLside : ∀ q ∈ ML, 0 < cross a b q := by
    intro q hq
    obtain ⟨X, Y, rfl⟩ := List.append_of_mem hq
    have hS : StackCCW EPSILON (a :: (X ++ q :: (Y ++ [b]))) := by
      simpa using invL.ccw
    have := stack_interior_side EPSILON hE a X q Y b hS
      (Or.inr (dirs_nonneg _ (by simpa using hLpw)))
    rw [cross_swap] at this
    linarith
  have hcU : MU.length ≤ smid.countP (fun q => decide (cross a b q < 0)) := by
    have h1 : MU.countP (fun q => decide (cross a b q < 0)) = MU.length :=
      List.countP_eq_length.mpr (fun q hq => by simpa using hUside q hq)
    have h2 : MU.Sublist (b :: (MU ++ [a])) :=
      (List.sublist_append_left MU [a]).cons b
    have h3 := (h2.trans invU.sub).countP_le (fun q => decide (cross a b q < 0))
    rw [List.countP_reverse, hs] at h3
    simp only [List.countP_cons, List.countP_append, List.countP_nil, cross_self_left,
      cross_self_right, lt_irrefl, decide_False, Bool.false_eq_true, if_false] at h3
    omega
  have hcL : ML.length ≤ smid.countP (fun q => decide (0 < cross a b q)) := by
    have h1 : ML.countP (fun q => decide (0 < cross a b q)) = ML.length :=
      List.countP_eq_length.mpr (fun q hq => by simpa using hLside q hq)
    have h2 : ML.Sublist (a :: (ML ++ [b])) :=
      (List.sublist_append_left ML [b]).cons a
    have h3 := (h2.trans invL.sub).countP_le (fun q => decide (0 < cross a b q))
    rw [List.reverse_reverse, hs] at h3
    simp only [List.countP_cons, List.countP_append, List.countP_nil, cross_self_left,
      cross_self_right, lt_irrefl, decide_False, Bool.false_eq_true, if_false] at h3
    omega
  have hdis := countP_disjoint_le (fun q => decide (cross a b q < 0))
    (fun q => decide (0 < cross a b q)) smid (by
      intro q ⟨h1, h2⟩
      simp only [decide_eq_true_eq] at h1 h2
      exact lt_asymm h1 h2)
  have hlen : points.length = smid.length + 2 := by
    rw [← hperm.length_eq, hs]
    simp
  simp only [List.length_cons, List.length_append, List.length_reverse, List.length_nil]
  omega

/-! ### The hull and testConvex -/

/-- C8 on the corners of the unit square with the tolerance `1/100000`. -/
theorem hull_count_le_witness :
    (0 : ℚ) ≤ 1 / 100000 ∧ 3 ≤ unitSquarePoints.length ∧
    ∃ retPoly, hull (1 / 100000) unitSquarePoints = some retPoly ∧
      retPoly.length ≤ unitSquarePoints.length :=
  ⟨by norm_num, by decide,
    hull_count_le (1 / 100000) (by norm_num) unitSquarePoints (by decide)⟩

theorem cover_step_left (d : ℚ) (a b c q : Vector2) (hab : d * a.x < d * b.x)
    (hbc : d * b.x < d * c.x) (hturn : cross a b c ≤ 0) (h1 : d * a.x ≤ d * q.x)
    (h3 : 0 ≤ cross a b q) : 0 ≤ cross a c q := by
  have hid : (d * b.x - d * a.x) * cross a c q
      = (d * c.x - d * a.x) * cross a b q + (d * q.x - d * a.x) * (-cross a b c) := by
    unfold cross
    ring
  have hr : 0 ≤ (d * b.x - d * a.x) * cross a c q := by
    rw [hid]
    exact add_nonneg (mul_nonneg (by linarith) h3) (mul_nonneg (by linarith) (by linarith))
  exact nonneg_of_mul_nonneg_right hr (by linarith)

theorem cover_step_right (d : ℚ) (a b c q : Vector2) (hab : d * a.x < d * b.x)
    (hbc : d * b.x < d * c.x) (hturn : cross a b c ≤ 0) (h2 : d * q.x ≤ d * c.x)
    (h3 : 0 ≤ cross b c q) : 0 ≤ cross a c q := by
  have hid : (d * c.x - d * b.x) * cross a c q
      = (d * c.x - d * a.x) * cross b c q + (d * c.x - d * q.x) * (-cross a b c) := by
    unfold cross
    ring
  have hr : 0 ≤ (d * c.x - d * b.x) * cross a c q := by
    rw [hid]
    exact add_nonneg (mul_nonneg (by linarith) h3) (mul_nonneg (by linarith) (by linarith))
  exact nonneg_of_mul_nonneg_right hr (by linarith)

theorem pruneChain_covered (EPSILON d : ℚ) (pts : List Vector2)
    (hturn : ∀ a ∈ pts, ∀ b ∈ pts, ∀ c ∈ pts, d * a.x < d * b.x → d * b.x < d * c.x →
      cross a b c ≤ EPSILON → cross a b c ≤ 0)
    (c : Vector2) (hc : c ∈ pts) :
    ∀ S : List Vector2, (∀ v ∈ S, v ∈ pts) →
      (c :: S).Pairwise (fun later earlier => d * earlier.x < d * later.x) →
      ∀ q, Covered d (c :: S) q → Covered d (pruneChain EPSILON c S) q := by
  intro S
  induction S with
  | nil => intro _ _ q h; exact h
  | cons b t ih =>
    intro hmem hsorted q hq
    match t, hmem, hsorted, hq, ih with
    | [], _, _, hq, _ => exact hq
    | a :: rest, hmem, hsorted, hq, ih =>
      rw [pruneChain]
      by_cases ht : ccwPts EPSILON a b c = true
      · rw [if_pos ht]; exact hq
      · rw [if_neg ht]
        have hle : cross a b c ≤ EPSILON := by
          by_contra hgt
          exact ht ((ccwPts_iff EPSILON a b c).mpr (not_le.mp hgt))
        have hcb : d * b.x < d * c.x := List.rel_of_pairwise_cons hsorted (by simp)
        have hca : d * a.x < d * c.x := List.rel_of_pairwise_cons hsorted (by simp)
        have hba : d * a.x < d * b.x :=
          List.rel_of_pairwise_cons (List.Pairwise.of_cons hsorted) (by simp)
        have hturn' : cross a b c ≤ 0 :=
          hturn a (hmem a (by simp)) b (hmem b (by simp)) c hc hba hcb hle
        have hsorted' : (c :: a :: rest).Pairwise
            (fun later earlier => d * earlier.x < d * later.x) := by
          have := hsorted
          rw [List.pairwise_cons] at this ⊢
          refine ⟨fun x hx => this.1 x (List.mem_cons_of_mem _ hx), ?_⟩
          exact List.Pairwise.of_cons this.2
        apply ih (fun v hv => hmem v (List.mem_cons_of_mem _ hv)) hsorted'
        obtain ⟨u, w, hz, h1, h2, h3⟩ := hq
        simp only [List.tail_cons, List.zip_cons_cons, List.mem_cons, Prod.mk.injEq] at hz
        rcases hz with ⟨rfl, rfl⟩ | ⟨rfl, rfl⟩ | hz
        · -- edge (b, c)
          refine ⟨a, w, by simp, by linarith, h2, ?_⟩
          exact cover_step_right d a u w q hba hcb hturn' h2 h3
        · -- edge (a, b)
          refine ⟨u, c, by simp, h1, by linarith, ?_⟩
          exact cover_step_left d u w c q hba hcb hturn' h1 h3
        · exact ⟨u, w, by
            simp only [List.tail_cons, List.zip_cons_cons, List.mem_cons, Prod.mk.injEq]
            exact Or.inr hz, h1, h2, h3⟩

theorem covered_push (d : ℚ) (S : List Vector2) (c q : Vector2) (h : Covered d S q) :
    Covered d (c :: S) q := by
  obtain ⟨u, w, hz, h1, h2, h3⟩ := h
  refine ⟨u, w, ?_, h1, h2, h3⟩
  cases S with
  | nil => simp at hz
  | cons t rest =>
    simp only [List.tail_cons, List.zip_cons_cons, List.mem_cons]
    exact Or.inr hz

theorem covered_top (d : ℚ) (t c : Vector2) (rest : List Vector2) (h : d * t.x ≤ d * c.x) :
    Covered d (c :: t :: rest) c :=
  ⟨t, c, by simp, h, le_refl _, by rw [cross_self_right]⟩

theorem foldl_covered (EPSILON d : ℚ) (pts : List Vector2)
    (hturn : ∀ a ∈ pts, ∀ b ∈ pts, ∀ c ∈ pts, d * a.x < d * b.x → d * b.x < d * c.x →
      cross a b c ≤ EPSILON → cross a b c ≤ 0) :
    ∀ (others S pushed : List Vector2),
      ChainInv EPSILON (fun u v => d * v.x < d * u.x) S pushed →
      (∀ q ∈ pushed, Covered d S q) →
      (∀ v ∈ pushed ++ others, v ∈ pts) →
      (pushed ++ others).reverse.Pairwise (fun u v => d * v.x < d * u.x) →
      ChainInv EPSILON (fun u v => d * v.x < d * u.x)
        (others.foldl (fun chain p => pruneChain EPSILON p chain) S) (pushed ++ others) ∧
      ∀ q ∈ pushed ++ others,
        Covered d (others.foldl (fun chain p => pruneChain EPSILON p chain) S) q := by
  intro others
  induction others with
  | nil =>
    intro S pushed inv hcov _ _
    simpa using ⟨inv, hcov⟩
  | cons c cs ih =>
    intro S pushed inv hcov hmem hR
    have hsplit : (pushed ++ c :: cs).reverse = cs.reverse ++ (pushed ++ [c]).reverse := by
      simp
    have hR1 : (pushed ++ [c]).reverse.Pairwise (fun u v => d * v.x < d * u.x) := by
      rw [hsplit] at hR
      exact (List.pairwise_append.mp hR).2.1
    have inv' := ChainInv.push EPSILON _ S pushed c inv hR1
    have hrev : (pushed ++ [c]).reverse = c :: pushed.reverse := by simp
    have hcS : (c :: S).Pairwise (fun later earlier => d * earlier.x < d * later.x) := by
      rw [hrev] at hR1
      exact hR1.sublist (inv.sub.cons₂ c)
    have hSmem : ∀ v ∈ S, v ∈ pts := fun v hv =>
      hmem v (List.mem_append_left _ (List.mem_reverse.mp (inv.sub.subset hv)))
    have hcpts : c ∈ pts := hmem c (by simp)
    have hcov' : ∀ q ∈ pushed ++ [c], Covered d (pruneChain EPSILON c S) q := by
      intro q hq
      apply pruneChain_covered EPSILON d pts hturn c hcpts S hSmem hcS
      rw [List.mem_append, List.mem_singleton] at hq
      rcases hq with hq | rfl
      · exact covered_push d S c q (hcov q hq)
      · have h2 := inv.two
        match S, h2, hcS with
        | t :: rest, _, hcS =>
          exact covered_top d t q rest (le_of_lt (List.rel_of_pairwise_cons hcS (by simp)))
    have := ih (pruneChain EPSILON c S) (pushed ++ [c]) inv' hcov'
      (by simpa using hmem) (by simpa using hR)
    simpa using this

theorem lUpperOf_covered (EPSILON d : ℚ) (pts : List Vector2)
    (hturn : ∀ a ∈ pts, ∀ b ∈ pts, ∀ c ∈ pts, d * a.x < d * b.x → d * b.x < d * c.x →
      cross a b c ≤ EPSILON → cross a b c ≤ 0)
    (p0 p1 : Vector2) (rest : List Vector2) (hmem : ∀ v ∈ p0 :: p1 :: rest, v ∈ pts)
    (hR : (p0 :: p1 :: rest).reverse.Pairwise (fun u v => d * v.x < d * u.x)) :
    ∃ S, lUpperOf EPSILON (p0 :: p1 :: rest) = some S.reverse ∧
      ChainInv EPSILON (fun u v => d * v.x < d * u.x) S (p0 :: p1 :: rest) ∧
      ∀ q ∈ p0 :: p1 :: rest, Covered d S q := by
  refine ⟨buildChain EPSILON p0 p1 rest, by simp [lUpperOf], ?_⟩
  have init : ChainInv EPSILON (fun u v => d * v.x < d * u.x) [p1, p0] [p0, p1] :=
    ⟨trivial, by simp, rfl, rfl, le_refl 2, fun q hq => Or.inl (by
      rw [List.mem_cons, List.mem_singleton] at hq ⊢
      exact hq.symm)⟩
  have h01 : d * p0.x < d * p1.x := by
    have : ([p0, p1] : List Vector2).reverse.Pairwise (fun u v => d * v.x < d * u.x) := by
      have e : (p0 :: p1 :: rest).reverse = rest.reverse ++ [p0, p1].reverse := by simp
      rw [e] at hR
      exact (List.pairwise_append.mp hR).2.1
    simpa using this
  have hcov : ∀ q ∈ [p0, p1], Covered d [p1, p0] q := by
    intro q hq
    rw [List.mem_cons, List.mem_singleton] at hq
    rcases hq with rfl | rfl
    · exact ⟨q, p1, by simp, le_refl _, le_of_lt h01, by rw [cross_self_left]⟩
    · exact ⟨p0, q, by simp, le_of_lt h01, le_refl _, by rw [cross_self_right]⟩
  exact foldl_covered EPSILON d pts hturn rest [p1, p0] [p0, p1] init hcov hmem hR

theorem hull_structure_covered (EPSILON : ℚ) (points : List Vector2) (h2 : 2 ≤ points.length)
    (hx : (points.map Vector2.x).Nodup)
    (hturn : ∀ a ∈ points, ∀ b ∈ points, ∀ c ∈ points,
      (a.x < b.x ∧ b.x < c.x) ∨ (c.x < b.x ∧ b.x < a.x) →
      cross a b c ≤ EPSILON → cross a b c ≤ 0) :
    ∃ s SU SL, s.Perm points ∧ s.Pairwise (fun a b => a.x < b.x) ∧
      hull EPSILON points = some (SU.reverse ++ (SL.reverse.drop 1).dropLast) ∧
      ChainInv EPSILON (fun u v => 1 * v.x < 1 * u.x) SU s ∧
      ChainInv EPSILON (fun u v => -1 * v.x < -1 * u.x) SL s.reverse ∧
      (∀ q ∈ s, Covered 1 SU q) ∧ (∀ q ∈ s, Covered (-1) SL q) := by
  have hne : points ≠ [] := by
    intro e
    rw [e] at h2
    simp at h2
  obtain ⟨s, hrun, hperm, hsorted⟩ := xsort_spec points hne
  have hnd : (s.map Vector2.x).Nodup := (hperm.map Vector2.x).nodup_iff.mpr hx
  have hstrict : s.Pairwise (fun a b => a.x < b.x) := by
    have hne' : s.Pairwise (fun a b => a.x ≠ b.x) := List.pairwise_map.mp hnd
    exact (hsorted.and hne').imp (fun h => lt_of_le_of_ne h.1 h.2)
  have hlen : 2 ≤ s.length := by rw [hperm.length_eq]; exact h2
  have hturnU : ∀ a ∈ s, ∀ b ∈ s, ∀ c ∈ s, 1 * a.x < 1 * b.x → 1 * b.x < 1 * c.x →
      cross a b c ≤ EPSILON → cross a b c ≤ 0 :=
    fun a ha b hb c hc h1 h2 => hturn a (hperm.mem_iff.mp ha) b (hperm.mem_iff.mp hb) c
      (hperm.mem_iff.mp hc) (Or.inl ⟨by linarith, by linarith⟩)
  have hturnL : ∀ a ∈ s, ∀ b ∈ s, ∀ c ∈ s, -1 * a.x < -1 * b.x → -1 * b.x < -1 * c.x →
      cross a b c ≤ EPSILON → cross a b c ≤ 0 :=
    fun a ha b hb c hc h1 h2 => hturn a (hperm.mem_iff.mp ha) b (hperm.mem_iff.mp hb) c
      (hperm.mem_iff.mp hc) (Or.inr ⟨by linarith, by linarith⟩)
  obtain ⟨p0, p1, rest, hs⟩ := exists_two_of_length hlen
  obtain ⟨q0, q1, rest', hsr⟩ := exists_two_of_length (l := s.reverse) (by simpa using hlen)
  obtain ⟨SU, hU, invU, covU⟩ := lUpperOf_covered EPSILON 1 s hturnU p0 p1 rest
    (by rw [← hs]; exact fun v hv => hv) (by
      rw [← hs, List.pairwise_reverse]
      exact hstrict.imp (fun h => by linarith))
  obtain ⟨SL, hL, invL, covL⟩ := lUpperOf_covered EPSILON (-1) s hturnL q0 q1 rest'
    (by rw [← hsr]; exact fun v hv => List.mem_reverse.mp hv) (by
      rw [← hsr, List.reverse_reverse]
      exact hstrict.imp (fun h => by linarith))
  rw [← hs] at hU invU covU
  rw [← hsr] at hL invL covL
  refine ⟨s, SU, SL, hperm, hstrict, ?_, invU, invL, covU,
    fun q hq => covL q (List.mem_reverse.mpr hq)⟩
  unfold hull
  rw [hrun]
  simp only []
  rw [lLowerOf_eq, hU, hL]

theorem mem_of_mem_zip_tail {S : List Vector2} {w u : Vector2}
    (h : (w, u) ∈ List.zip S S.tail) : w ∈ S ∧ u ∈ S := by
  have := List.of_mem_zip h
  exact ⟨this.1, List.mem_of_mem_tail this.2⟩

theorem rel_of_mem_zip_tail (R : Vector2 → Vector2 → Prop) :
    ∀ (S : List Vector2) (w u : Vector2), S.Pairwise R → (w, u) ∈ List.zip S S.tail → R w u := by
  intro S
  induction S with
  | nil => intro w u _ h; simp at h
  | cons t rest ih =>
    intro w u hp h
    cases rest with
    | nil => simp at h
    | cons t2 rest2 =>
      simp only [List.tail_cons, List.zip_cons_cons, List.mem_cons, Prod.mk.injEq] at h
      rcases h with ⟨rfl, rfl⟩ | h
      · exact List.rel_of_pairwise_cons hp (by simp)
      · exact ih w u (List.Pairwise.of_cons hp) (by simpa using h)

theorem between_chains (α β u w u' w' q : Vector2) (hu : 0 ≤ cross α β u)
    (hw : 0 ≤ cross α β w) (hu' : 0 ≤ cross α β u') (hw' : 0 ≤ cross α β w')
    (h1 : u.x ≤ q.x) (h2 : q.x ≤ w.x) (h12 : u.x < w.x) (h3 : 0 ≤ cross u w q)
    (h1' : w'.x ≤ q.x) (h2' : q.x ≤ u'.x) (h12' : w'.x < u'.x) (h3' : 0 ≤ cross u' w' q) :
    0 ≤ cross α β q := by
  have id1 : (w.x - u.x) * cross α β q
      = (w.x - q.x) * cross α β u + (q.x - u.x) * cross α β w
        + (β.x - α.x) * cross u w q := by
    unfold cross
    ring
  have id2 : (u'.x - w'.x) * cross α β q
      = (u'.x - q.x) * cross α β w' + (q.x - w'.x) * cross α β u'
        + (α.x - β.x) * cross u' w' q := by
    unfold cross
    ring
  rcases le_total α.x β.x with hB | hB
  · have hr : 0 ≤ (w.x - u.x) * cross α β q := by
      rw [id1]
      exact add_nonneg (add_nonneg (mul_nonneg (by linarith) hu) (mul_nonneg (by linarith) hw))
        (mul_nonneg (by linarith) h3)
    exact nonneg_of_mul_nonneg_right hr (by linarith)
  · have hr : 0 ≤ (u'.x - w'.x) * cross α β q := by
      rw [id2]
      exact add_nonneg (add_nonneg (mul_nonneg (by linarith) hw') (mul_nonneg (by linarith) hu'))
        (mul_nonneg (by linarith) h3')
    exact nonneg_of_mul_nonneg_right hr (by linarith)

/-- C6, as amended. For every array of at least 3 points with pairwise different `x`
in which no point `b` turns by an amount in `(0, EPSILON]` between two points `a`, `c`
on either side of it in `x` (whenever `(b - a) x (c - a) <= EPSILON`, it is `<= 0`),
`hull` returns, every vertex it returns is an input point, and no input point lies
strictly outside the returned polygon: no line has every returned vertex on it or to
its left and the input point strictly to its right. -/
theorem hull_contains_input (EPSILON : ℚ) (points : List Vector2) (h3 : 3 ≤ points.length)
    (hx : (points.map Vector2.x).Nodup)
    (hturn : ∀ a ∈ points, ∀ b ∈ points, ∀ c ∈ points,
      (a.x < b.x ∧ b.x < c.x) ∨ (c.x < b.x ∧ b.x < a.x) →
      cross a b c ≤ EPSILON → cross a b c ≤ 0) :
    ∃ retPoly, hull EPSILON points = some retPoly ∧
      (∀ v ∈ retPoly, v ∈ points) ∧
      ∀ q ∈ points, ¬ StrictlyOutside retPoly q := by
  obtain ⟨s, SU, SL, hperm, hstrict, hrun, invU, invL, covU, covL⟩ :=
    hull_structure_covered EPSILON points (by omega) hx hturn
  have hlen : 2 ≤ s.length := by rw [hperm.length_eq]; omega
  obtain ⟨a, smid, b, hs⟩ := exists_ends_of_length hlen
  have hsh : s.head? = some a := by rw [hs]; rfl
  have hsl : s.getLast? = some b := by
    rw [hs, ← List.cons_append, List.getLast?_append_of_ne_nil _ (by simp)]
    rfl
  have hrh : s.reverse.head? = some b := by rw [List.head?_reverse]; exact hsl
  have hrl : s.reverse.getLast? = some a := by rw [List.getLast?_reverse]; exact hsh
  obtain ⟨MU, hMU⟩ := head_last_decomp invU.two (invU.top.trans hsl) (invU.bottom.trans hsh)
  obtain ⟨ML, hML⟩ := head_last_decomp invL.two (invL.top.trans hrl) (invL.bottom.trans hrh)
  subst hMU
  subst hML
  have hret : hull EPSILON points = some (a :: (MU.reverse ++ [b]) ++ ML.reverse) := by
    rw [hrun]
    simp
  have hUmem : ∀ v ∈ b :: (MU ++ [a]), v ∈ a :: (MU.reverse ++ [b]) ++ ML.reverse := by
    intro v hv
    simp only [List.mem_cons, List.mem_append, List.mem_singleton] at hv
    simp only [List.cons_append, List.append_assoc, List.mem_cons, List.mem_append,
      List.mem_reverse, List.mem_singleton]
    tauto
  have hLmem : ∀ v ∈ a :: (ML ++ [b]), v ∈ a :: (MU.reverse ++ [b]) ++ ML.reverse := by
    intro v hv
    simp only [List.mem_cons, List.mem_append, List.mem_singleton] at hv
    simp only [List.cons_append, List.append_assoc, List.mem_cons, List.mem_append,
      List.mem_reverse, List.mem_singleton]
    tauto
  refine ⟨_, hret, ?_, ?_⟩
  · intro v hv
    have hvs : v ∈ s := by
      simp only [List.cons_append, List.append_assoc, List.mem_cons, List.mem_append,
        List.mem_reverse, List.mem_singleton, List.not_mem_nil, or_false] at hv
      rcases hv with h | h | h | h
      · rw [h, hs]; simp
      · exact List.mem_reverse.mp (invU.sub.subset (by simp [h]))
      · rw [h, hs]; simp
      · have hvl : v ∈ ML := by simpa using h
        have := invL.sub.subset (show v ∈ a :: (ML ++ [b]) by simp [hvl])
        simpa using this
    exact hperm.mem_iff.mp hvs
  · intro q hq
    have hqs : q ∈ s := hperm.mem_iff.mpr hq
    obtain ⟨u, w, hz, h1, h2, h3'⟩ := covU q hqs
    obtain ⟨u', w', hz', h1', h2', h3''⟩ := covL q hqs
    have hUs : (b :: (MU ++ [a])).Pairwise (fun later earlier => earlier.x < later.x) := by
      have : s.reverse.Pairwise (fun later earlier => earlier.x < later.x) :=
        List.pairwise_reverse.mpr hstrict
      exact this.sublist invU.sub
    have hLs : (a :: (ML ++ [b])).Pairwise (fun later earlier => later.x < earlier.x) := by
      have := invL.sub
      rw [List.reverse_reverse] at this
      exact hstrict.sublist this
    have hlt := rel_of_mem_zip_tail _ _ w u hUs hz
    have hlt' := rel_of_mem_zip_tail _ _ w' u' hLs hz'
    obtain ⟨hwS, huS⟩ := mem_of_mem_zip_tail hz
    obtain ⟨hwS', huS'⟩ := mem_of_mem_zip_tail hz'
    rintro ⟨α, β, hall, hneg⟩
    have := between_chains α β u w u' w' q (hall u (hUmem u huS)) (hall w (hUmem w hwS))
      (hall u' (hLmem u' huS')) (hall w' (hLmem w' hwS'))
      (by linarith) (by linarith) hlt h3' (by linarith) (by linarith) hlt' h3''
    linarith

/-- C6 as stated fails: with the tolerance `1/100000`, `hull` drops the second point of
`skewDip` (four points with different `x`), which turns by exactly the tolerance
between the first and the third, and that input point lies strictly outside the
returned triangle, below its edge from `(0, 0)` to `(2, 0)`. Apart from the tolerance,
`hull` sorts by `x` only: of `tiedPoints` it returns `(0,2), (0,1), (1,0)`, and the
input point `(0, 0)` lies strictly outside that triangle. -/
theorem hull_leaves_input_point_outside :
    (skewDip.map Vector2.x).Nodup ∧
    cross ⟨0, 0⟩ ⟨1, -1 / 200000⟩ ⟨2, 0⟩ = 1 / 100000 ∧
    hull (1 / 100000) skewDip = some [⟨0, 0⟩, ⟨2, 0⟩, ⟨3 / 2, 1⟩] ∧
    (⟨1, -1 / 200000⟩ : Vector2) ∈ skewDip ∧
    StrictlyOutside [⟨0, 0⟩, ⟨2, 0⟩, ⟨3 / 2, 1⟩] ⟨1, -1 / 200000⟩ ∧
    hull (1 / 100000) tiedPoints = some [⟨0, 2⟩, ⟨0, 1⟩, ⟨1, 0⟩] ∧
    (⟨0, 0⟩ : Vector2) ∈ tiedPoints ∧
    StrictlyOutside [⟨0, 2⟩, ⟨0, 1⟩, ⟨1, 0⟩] ⟨0, 0⟩ := by
  refine ⟨by decide!, by decide!, by decide!, by decide!,
    ⟨⟨0, 0⟩, ⟨2, 0⟩, by decide!, by decide!⟩, by decide!, by decide!,
    ⟨⟨0, 1⟩, ⟨1, 0⟩, by decide!, by decide!⟩⟩

/-- The amended C6 on `farPoints`: the hull is `(0,0), (2,-1), (3,1), (1,2)` and the
fifth point `(3/2, 1/2)` is not outside it. -/
theorem hull_contains_input_witness :
    3 ≤ farPoints.length ∧ (farPoints.map Vector2.x).Nodup ∧
    (∀ a ∈ farPoints, ∀ b ∈ farPoints, ∀ c ∈ farPoints,
      (a.x < b.x ∧ b.x < c.x) ∨ (c.x < b.x ∧ b.x < a.x) →
      cross a b c ≤ 1 / 100000 → cross a b c ≤ 0) ∧
    hull (1 / 100000) farPoints = some [⟨0, 0⟩, ⟨2, -1⟩, ⟨3, 1⟩, ⟨1, 2⟩] ∧
    ∃ retPoly, hull (1 / 100000) farPoints = some retPoly ∧
      (∀ v ∈ retPoly, v ∈ farPoints) ∧
      ∀ q ∈ farPoints, ¬ StrictlyOutside retPoly q :=
  ⟨by decide, by decide!, by decide!, by decide!,
    hull_contains_input (1 / 100000) farPoints (by decide) (by decide!) (by decide!)⟩

/-! ### reverse, makeClockwise and the inside test -/

theorem exchange_length (l : List Vector2) (i k : Nat) : (exchange l i k).length = l.length := by
  unfold exchange
  split <;> simp

theorem exchange_getElem? (l : List Vector2) (i k : Nat) (hi : i < l.length)
    (hk : k < l.length) (j : Nat) :
    (exchange l i k)[j]? = if j = k then l[i]? else if j = i then l[k]? else l[j]? := by
  unfold exchange
  rw [List.getElem?_eq_getElem hi, List.getElem?_eq_getElem hk]
  simp only
  by_cases hjk : j = k
  · subst hjk
    rw [if_pos rfl, List.getElem?_set_self (by simpa using hk)]
  · rw [if_neg hjk, List.getElem?_set_ne (Ne.symm hjk)]
    by_cases hji : j = i
    · subst hji
      rw [if_pos rfl, List.getElem?_set_self hi]
    · rw [if_neg hji, List.getElem?_set_ne (Ne.symm hji)]

theorem reverse_prefix (polygon : List Vector2) :
    ∀ k, k ≤ polygon.length / 2 →
      ((List.range k).foldl (fun poly i => exchange poly i (polygon.length - 1 - i))
          polygon).length = polygon.length ∧
      ∀ j, ((List.range k).foldl (fun poly i => exchange poly i (polygon.length - 1 - i))
          polygon)[j]? =
        if j < k ∨ (polygon.length - k ≤ j ∧ j < polygon.length)
        then polygon[polygon.length - 1 - j]? else polygon[j]? := by
  intro k
  induction k with
  | zero =>
    intro _
    refine ⟨rfl, fun j => ?_⟩
    have : ¬ (j < 0 ∨ (polygon.length - 0 ≤ j ∧ j < polygon.length)) := by omega
    rw [if_neg this]
    rfl
  | succ n ih =>
    intro hk
    obtain ⟨hlen, hget⟩ := ih (by omega)
    rw [List.range_succ, List.foldl_append]
    simp only [List.foldl_cons, List.foldl_nil]
    refine ⟨by rw [exchange_length, hlen], fun j => ?_⟩
    rw [exchange_getElem? _ _ _ (by rw [hlen]; omega) (by rw [hlen]; omega), hget, hget, hget]
    by_cases h1 : j = polygon.length - 1 - n
    · rw [if_pos h1, if_neg (by omega), if_pos (by omega)]
      congr 1
      omega
    · rw [if_neg h1]
      by_cases h2 : j = n
      · rw [if_pos h2, if_neg (by omega), if_pos (by omega)]
        congr 1
        omega
      · rw [if_neg h2]
        by_cases h3 : j < n ∨ (polygon.length - n ≤ j ∧ j < polygon.length)
        · rw [if_pos h3, if_pos (by omega)]
        · rw [if_neg h3, if_neg (by omega)]

theorem reverse_eq (polygon : List Vector2) : reverse polygon = polygon.reverse := by
  obtain ⟨hlen, hget⟩ := reverse_prefix polygon (polygon.length / 2) (le_refl _)
  apply List.ext_getElem?
  intro j
  unfold reverse
  rw [hget]
  by_cases hj : j < polygon.length
  · rw [List.getElem?_reverse hj]
    by_cases h : j < polygon.length / 2 ∨
        (polygon.length - polygon.length / 2 ≤ j ∧ j < polygon.length)
    · rw [if_pos h]
    · rw [if_neg h]
      congr 1
      omega
  · have h1 : polygon.reverse[j]? = none := by
      rw [List.getElem?_eq_none_iff]
      simp only [List.length_reverse]
      omega
    rw [h1, if_neg (by omega), List.getElem?_eq_none_iff]
    omega

theorem bool_bne_comm (a b : Bool) : (a != b) = (b != a) := by
  cases a <;> cases b <;> rfl

theorem edgeCrosses_symm (testx testy : ℚ) (s e : Vector2) :
    edgeCrosses testx testy s e = edgeCrosses testx testy e s := by
  unfold edgeCrosses
  simp only
  by_cases h : (decide (e.y > testy) != decide (s.y > testy)) = true
  · have h' : (decide (s.y > testy) != decide (e.y > testy)) = true := by
      rw [bool_bne_comm]; exact h
    rw [h, h', Bool.true_and, Bool.true_and]
    have hne : s.y ≠ e.y := by
      intro heq
      rw [heq] at h
      simp at h
    have h1 : s.y - e.y ≠ 0 := sub_ne_zero.mpr hne
    have h2 : e.y - s.y ≠ 0 := sub_ne_zero.mpr (Ne.symm hne)
    have : (s.x - e.x) * (testy - e.y) / (s.y - e.y) + e.x
        = (e.x - s.x) * (testy - s.y) / (e.y - s.y) + s.x := by
      field_simp
      ring
    rw [this]
  · have h' : ¬ (decide (s.y > testy) != decide (e.y > testy)) = true := by
      rw [bool_bne_comm]; exact h
    simp only [Bool.not_eq_true] at h h'
    rw [h, h', Bool.false_and, Bool.false_and]

theorem testPointInsideLoop_eq (testx testy : ℚ) :
    ∀ (l : List Vector2) (s : Vector2) (c : Bool),
      testPointInsideLoop testx testy s l c = xor c (pathCrossings testx testy (s :: l)) := by
  intro l
  induction l with
  | nil => intro s c; simp [testPointInsideLoop, pathCrossings]
  | cons e rest ih =>
    intro s c
    rw [testPointInsideLoop, ih, pathCrossings]
    cases edgeCrosses testx testy s e <;> cases c <;> simp

theorem pathCrossings_concat (testx testy : ℚ) :
    ∀ (X : List Vector2) (x y : Vector2),
      pathCrossings testx testy (X ++ [x, y])
        = xor (pathCrossings testx testy (X ++ [x])) (edgeCrosses testx testy x y) := by
  intro X
  induction X with
  | nil => intro x y; simp [pathCrossings]
  | cons p ps ih =>
    intro x y
    cases ps with
    | nil => simp [pathCrossings]
    | cons p' ps' =>
      have := ih x y
      simp only [List.cons_append] at this ⊢
      rw [pathCrossings, this, pathCrossings]
      simp [Bool.xor_assoc]

theorem pathCrossings_reverse (testx testy : ℚ) :
    ∀ l : List Vector2, pathCrossings testx testy l.reverse = pathCrossings testx testy l := by
  intro l
  induction l with
  | nil => rfl
  | cons x t ih =>
    cases t with
    | nil => rfl
    | cons y r =>
      have e : (x :: y :: r).reverse = r.reverse ++ [y, x] := by simp
      have e2 : (y :: r).reverse = r.reverse ++ [y] := by simp
      rw [e, pathCrossings_concat, ← e2, ih, pathCrossings, edgeCrosses_symm testx testy y x,
        Bool.xor_comm]

theorem testPointInsidePolygon_reverse (testPoint : Vector2) (poly : List Vector2) :
    testPointInsidePolygon testPoint poly.reverse = testPointInsidePolygon testPoint poly := by
  unfold testPointInsidePolygon
  cases poly with
  | nil => rfl
  | cons h t =>
    have hl : (h :: t).reverse.getLast? = some h := by
      rw [List.getLast?_reverse]; rfl
    obtain ⟨last, hlast⟩ : ∃ last, (h :: t).getLast? = some last :=
      ⟨(h :: t).getLast (by simp), List.getLast?_eq_getLast _ _⟩
    have hrh : (h :: t).reverse.head? = some last := by
      rw [List.head?_reverse]; exact hlast
    rw [hl, hlast]
    simp only [testPointInsideLoop_eq, Bool.false_xor]
    obtain ⟨r', hr'⟩ : ∃ r', (h :: t).reverse = last :: r' := by
      cases hrev : (h :: t).reverse with
      | nil => rw [hrev] at hrh; exact absurd hrh (by simp)
      | cons z r' =>
        rw [hrev] at hrh
        simp only [List.head?_cons, Option.some.injEq] at hrh
        exact ⟨r', by rw [hrh]⟩
    have h1 : pathCrossings testPoint.x testPoint.y (h :: (h :: t).reverse)
        = xor (edgeCrosses testPoint.x testPoint.y h last)
            (pathCrossings testPoint.x testPoint.y (h :: t).reverse) := by
      rw [hr', pathCrossings]
    have h2 : pathCrossings testPoint.x testPoint.y (last :: h :: t)
        = xor (edgeCrosses testPoint.x testPoint.y last h)
            (pathCrossings testPoint.x testPoint.y (h :: t)) := by
      rw [pathCrossings]
    rw [h1, h2, pathCrossings_reverse, edgeCrosses_symm testPoint.x testPoint.y h last]

theorem makeClockwise_cases (polygon : List Vector2) :
    makeClockwise polygon = polygon ∨ makeClockwise polygon = polygon.reverse := by
  unfold makeClockwise
  split
  · exact Or.inl rfl
  · split
    · exact Or.inr (reverse_eq polygon)
    · exact Or.inl rfl

theorem makeClockwise_of_isClockwise (polygon : List Vector2) (h : isClockwise polygon = true) :
    makeClockwise polygon = polygon := by
  unfold makeClockwise
  rw [h]
  simp

theorem makeClockwise_length (polygon : List Vector2) :
    (makeClockwise polygon).length = polygon.length := by
  rcases makeClockwise_cases polygon with h | h <;> rw [h]
  simp

theorem mem_makeClockwise (polygon : List Vector2) (p : Vector2) :
    p ∈ makeClockwise polygon ↔ p ∈ polygon := by
  rcases makeClockwise_cases polygon with h | h <;> rw [h]
  simp

theorem testPointInsidePolygon_makeClockwise (testPoint : Vector2) (poly : List Vector2) :
    testPointInsidePolygon testPoint (makeClockwise poly)
      = testPointInsidePolygon testPoint poly := by
  rcases makeClockwise_cases poly with h | h <;> rw [h]
  exact testPointInsidePolygon_reverse testPoint poly

/-- C9. When every vertex of `poly1` tests inside `poly2`, `intersection` returns with
`poly1`'s length and the output holds exactly the vertex sequence of `poly1` as the call
leaves it, that is `poly1` made clockwise; when `poly1` is clockwise already, the
output is `poly1` unchanged. -/
theorem intersection_of_all_inside (EPSILON : ℚ) (atan2 : ℚ → ℚ → ℚ)
    (poly1 poly2 : List Vector2)
    (h : ∀ p ∈ poly1, testPointInsidePolygon p poly2 = true) :
    ∃ r, intersection EPSILON atan2 poly1 poly2 = some r ∧
      r.poly2 = r.poly1 ∧ r.poly1 = makeClockwise poly1 ∧
      r.poly2.length = poly1.length ∧
      (isClockwise poly1 = true → r.poly2 = poly1) := by
  have hall : (makeClockwise poly1).filter
      (fun p => testPointInsidePolygon p (makeClockwise poly2)) = makeClockwise poly1 := by
    rw [List.filter_eq_self]
    intro p hp
    rw [testPointInsidePolygon_makeClockwise]
    exact h p ((mem_makeClockwise poly1 p).mp hp)
  refine ⟨{ poly1 := makeClockwise poly1, poly2 := makeClockwise poly1 }, ?_, rfl, rfl,
    makeClockwise_length poly1, fun hc => makeClockwise_of_isClockwise poly1 hc⟩
  unfold intersection
  simp only [hall, if_true]

/-- C9 for a clockwise triangle inside the square with corners `(-1,-1)` and `(1,1)`:
the output is the triangle, vertex for vertex. -/
theorem intersection_of_all_inside_witness :
    (∀ p ∈ innerTriangle, testPointInsidePolygon p squareUmbra = true) ∧
    isClockwise innerTriangle = true ∧
    ∃ r, intersection (1 / 100000) diamondAtan2 innerTriangle squareUmbra = some r ∧
      r.poly2 = r.poly1 ∧ r.poly1 = makeClockwise innerTriangle ∧
      r.poly2.length = innerTriangle.length ∧
      (isClockwise innerTriangle = true → r.poly2 = innerTriangle) :=
  ⟨by decide!, by decide!,
    intersection_of_all_inside (1 / 100000) diamondAtan2 innerTriangle squareUmbra
      (by decide!)⟩

/-! ### intersection of a polygon with itself -/

theorem projectOutline_eq_map (light : Vector3) (poly : List Vector3)
    (hz : ∀ v ∈ poly, v.z ≠ light.z) :
    projectOutline light poly = some (poly.map fun v =>
      { x := light.x - light.z / (light.z - v.z) * (light.x - v.x)
        y := light.y - light.z / (light.z - v.z) * (light.y - v.y) }) := by
  induction poly with
  | nil => rfl
  | cons v rest ih =>
    have hv : light.z - v.z ≠ 0 := by
      have := hz v (List.mem_cons_self _ _)
      intro h
      exact this (by linarith)
    have ih' := ih (fun u hu => hz u (List.mem_cons_of_mem _ hu))
    simp only [projectOutline, if_neg hv, ih', List.map_cons]

/-- C15: for a light vertex `L` and a caster whose vertices `P` all have
`0 < P.z < L.z`, the projection step of `computeSpotShadow` returns one point per
caster vertex, and with `t = L.z / (L.z - P.z)` the point stored for `P` is
`(L.x + t (P.x - L.x), L.y + t (P.y - L.y))` while `L.z + t (P.z - L.z) = 0`: the
point where the line through `L` and `P` meets the plane `z = 0`. The outline is what
the loop over the light polygon stores for that light vertex. -/
theorem projectOutline_meets_receiver_plane (EPSILON : ℚ) (atan2 : ℚ → ℚ → ℚ)
    (light : Vector3) (poly : List Vector3)
    (hz : ∀ v ∈ poly, 0 < v.z ∧ v.z < light.z) :
    ∃ outline : List Vector2, projectOutline light poly = some outline ∧
      umbraLoop EPSILON atan2 poly [light] [] [] =
        some (Projection.regions outline outline) ∧
      outline.length = poly.length ∧
      ∀ (i : Nat) (v : Vector3), poly[i]? = some v →
        ∃ p : Vector2, outline[i]? = some p ∧
          p.x = light.x + light.z / (light.z - v.z) * (v.x - light.x) ∧
          p.y = light.y + light.z / (light.z - v.z) * (v.y - light.y) ∧
          light.z + light.z / (light.z - v.z) * (v.z - light.z) = 0 := by
  have hne : ∀ v ∈ poly, v.z ≠ light.z := fun v hv => ne_of_lt (hz v hv).2
  have hp := projectOutline_eq_map light poly hne
  refine ⟨_, hp, ?_, by simp, ?_⟩
  · simp [umbraLoop, hp]
  · intro i v hi
    refine ⟨{ x := light.x - light.z / (light.z - v.z) * (light.x - v.x)
              y := light.y - light.z / (light.z - v.z) * (light.y - v.y) },
      by simp [List.getElem?_map, hi], by ring, by ring, ?_⟩
    have hv : light.z - v.z ≠ 0 := by
      have := (hz v (List.getElem?_mem hi)).2
      intro h
      linarith
    field_simp
    ring

/-- The theorem of C15 at the first vertex of `wideLight` and `smallCaster`. -/
theorem projectOutline_meets_receiver_plane_witness :
    (∀ v ∈ smallCaster, 0 < v.z ∧ v.z < (⟨10, 0, 20⟩ : Vector3).z) ∧
    ∃ outline : List Vector2, projectOutline ⟨10, 0, 20⟩ smallCaster = some outline ∧
      umbraLoop (1 / 100000) diamondAtan2 smallCaster [⟨10, 0, 20⟩] [] [] =
        some (Projection.regions outline outline) ∧
      outline.length = smallCaster.length ∧
      ∀ (i : Nat) (v : Vector3), smallCaster[i]? = some v →
        ∃ p : Vector2, outline[i]? = some p ∧
          p.x = 10 + 20 / (20 - v.z) * (v.x - 10) ∧
          p.y = 0 + 20 / (20 - v.z) * (v.y - 0) ∧
          20 + 20 / (20 - v.z) * (v.z - 20) = 0 :=
  ⟨by decide!, projectOutline_meets_receiver_plane (1 / 100000) diamondAtan2 ⟨10, 0, 20⟩
    smallCaster (by decide!)⟩

/-! ### The fake umbra and the point cloud -/

section FakeUmbra

variable (EPSILON : ℚ) (rays layers : Nat) (FP_NAN : NFloat) (M_PI : ℚ) (sinf cosf : ℚ → ℚ)
  (atan2 : ℚ → ℚ → ℚ) (centroid2d : List Vector2 → Vector2)

/-- C13: in `computeSpotShadow`, when the gate is passed, the loop over the light
polygon ends with an umbra of fewer than 3 vertices and no caster vertex is at the
height of the light centre, the umbra handed to `generateTriangleStrip` has as many
vertices as the caster, and its `i`-th vertex is `c + 0.1 (p_i - c)`, `p_i` the
projection of caster vertex `i` from the light centre onto `z = 0` and `c` the
`centroid2d` of the `p_i`. -/
theorem computeSpotShadow_fake_umbra (lightPoly : List Vector3) (lightCenter : Vector3)
    (poly : List Vector3) (shadowRegion umbra penumbra : List Vector2)
    (hgate : inputPolyPositionValid lightPoly poly = some true)
    (hloop : umbraLoop EPSILON atan2 poly lightPoly [] [] =
      some (Projection.regions shadowRegion umbra))
    (hhull : hull EPSILON shadowRegion = some penumbra)
    (hshort : umbra.length < 3)
    (hz : ∀ v ∈ poly, v.z ≠ lightCenter.z) :
    ∃ projected fakeUmbra : List Vector2,
      projectOutline lightCenter poly = some projected ∧
      projected = poly.map (fun v =>
        { x := lightCenter.x + lightCenter.z / (lightCenter.z - v.z) * (v.x - lightCenter.x)
          y := lightCenter.y + lightCenter.z / (lightCenter.z - v.z) * (v.y - lightCenter.y) }) ∧
      computeSpotShadow EPSILON rays layers FP_NAN M_PI sinf cosf atan2 centroid2d
          lightPoly lightCenter poly =
        some (generateTriangleStrip rays layers FP_NAN M_PI sinf cosf centroid2d
          penumbra fakeUmbra) ∧
      fakeUmbra.length = poly.length ∧
      ∀ (i : Nat) (p : Vector2), projected[i]? = some p →
        fakeUmbra[i]? = some
          { x := (centroid2d projected).x + 1 / 10 * (p.x - (centroid2d projected).x)
            y := (centroid2d projected).y + 1 / 10 * (p.y - (centroid2d projected).y) } := by
  have hp := projectOutline_eq_map lightCenter poly hz
  obtain ⟨projected, hproj⟩ : ∃ projected : List Vector2, projected = poly.map (fun v =>
      { x := lightCenter.x - lightCenter.z / (lightCenter.z - v.z) * (lightCenter.x - v.x)
        y := lightCenter.y - lightCenter.z / (lightCenter.z - v.z) * (lightCenter.y - v.y) }) :=
    ⟨_, rfl⟩
  rw [← hproj] at hp
  have hc : computeSpotShadow EPSILON rays layers FP_NAN M_PI sinf cosf atan2 centroid2d
      lightPoly lightCenter poly =
      some (generateTriangleStrip rays layers FP_NAN M_PI sinf cosf centroid2d penumbra
        (projected.map fun p =>
          { x := (centroid2d projected).x * (1 - 1 / 10) + p.x * (1 / 10)
            y := (centroid2d projected).y * (1 - 1 / 10) + p.y * (1 / 10) })) := by
    simp only [computeSpotShadow, hgate, hloop, hhull, if_pos hshort, fakeUmbraOf, hp]
  refine ⟨projected, _, hp, ?_, hc, by simp [hproj], ?_⟩
  · rw [hproj]
    apply List.map_congr_left
    intro v _
    congr 1 <;> ring
  · intro i p hi
    rw [List.getElem?_map, hi]
    simp only [Option.map_some']
    congr 1
    congr 1 <;> ring

/-- The theorem of C13 at `wideLight` and `smallCaster`, where the outlines of the
first two light vertices do not meet. -/
theorem computeSpotShadow_fake_umbra_witness :
    ∃ projected fakeUmbra : List Vector2,
      projectOutline ⟨0, 0, 20⟩ smallCaster = some projected ∧
      projected = smallCaster.map (fun v =>
        { x := 0 + 20 / (20 - v.z) * (v.x - 0)
          y := 0 + 20 / (20 - v.z) * (v.y - 0) }) ∧
      computeSpotShadow (1 / 100000) 4 1 NFloat.nan 2 quarterSin quarterCos diamondAtan2
          meanCentroid wideLight ⟨0, 0, 20⟩ smallCaster =
        some (generateTriangleStrip 4 1 NFloat.nan 2 quarterSin quarterCos meanCentroid
          [⟨-12, -2⟩, ⟨12, -2⟩, ⟨10, 2⟩, ⟨-10, 2⟩] fakeUmbra) ∧
      fakeUmbra.length = smallCaster.length ∧
      ∀ (i : Nat) (p : Vector2), projected[i]? = some p →
        fakeUmbra[i]? = some
          { x := (meanCentroid projected).x + 1 / 10 * (p.x - (meanCentroid projected).x)
            y := (meanCentroid projected).y + 1 / 10 * (p.y - (meanCentroid projected).y) } :=
  computeSpotShadow_fake_umbra (1 / 100000) 4 1 NFloat.nan 2 quarterSin quarterCos
    diamondAtan2 meanCentroid wideLight ⟨0, 0, 20⟩ smallCaster
    twoOutlines []
    [⟨-12, -2⟩, ⟨12, -2⟩, ⟨10, 2⟩, ⟨-10, 2⟩]
    (by decide!) (by decide!) (by decide!) (by decide) (by decide!)

/-- C14: on `wideLight` (3 vertices) and `smallCaster` (3 vertices) the gate is passed,
the outlines of the first two light vertices do not meet, the loop over the light
polygon stops there, and the point cloud passed to `hull` holds the 6 points of
those two outlines: the outline of the third light vertex, `(-2,-12), (0,-8),
(2,-12)`, is not in it, and the penumbra built from it does not reach below
`y = -2`. -/
theorem computeSpotShadow_cloud_misses_outline :
    inputPolyPositionValid wideLight smallCaster = some true ∧
    umbraLoop (1 / 100000) diamondAtan2 smallCaster wideLight [] [] =
      some (Projection.regions
        twoOutlines []) ∧
    twoOutlines.length
      ≠ wideLight.length * smallCaster.length ∧
    projectOutline ⟨0, 10, 20⟩ smallCaster = some [⟨-2, -12⟩, ⟨0, -8⟩, ⟨2, -12⟩] ∧
    hull (1 / 100000) twoOutlines =
      some [⟨-12, -2⟩, ⟨12, -2⟩, ⟨10, 2⟩, ⟨-10, 2⟩] := by
  refine ⟨by decide!, by decide!, by decide, by decide!, by decide!⟩

end FakeUmbra

/-! ### Layout and opacity of the strip -/

section StripLayers

variable (rays layers : Nat) (FP_NAN : NFloat) (M_PI : ℚ) (sinf cosf : ℚ → ℚ)
  (centroid2d : List Vector2 → Vector2)

theorem getElem?_flatMap_range {β : Type} (f : Nat → Nat → β) (n m l r : Nat)
    (hl : l < n) (hr : r < m) :
    ((List.range n).flatMap fun a => (List.range m).map (f a))[l * m + r]?
      = some (f l r) := by
  induction n with
  | zero => omega
  | succ n ih =>
    have hlen : ((List.range n).flatMap fun a => (List.range m).map (f a)).length = n * m := by
      rw [length_bind_const _ _ m (by intro a _; simp), List.length_range]
    rw [List.range_succ, List.flatMap_append]
    rcases Nat.lt_succ_iff_lt_or_eq.mp hl with h | h
    · have hlt : l * m + r < n * m := by
        have : (l + 1) * m ≤ n * m := Nat.mul_le_mul_right m h
        rw [Nat.add_mul] at this
        omega
      rw [List.getElem?_append_left (by rw [hlen]; exact hlt)]
      exact ih h
    · subst h
      rw [List.getElem?_append_right (by rw [hlen]; omega), hlen]
      simp [hr]

theorem generateTriangleStrip_vertices (penumbra umbra : List Vector2)
    (size : Nat) (vertices : List AlphaVertex)
    (h : generateTriangleStrip rays layers FP_NAN M_PI sinf cosf centroid2d penumbra umbra
      = VertexBuffer.allocated size vertices) :
    vertices = ((List.range (layers + 1)).flatMap fun layerIndex =>
        (List.range rays).map fun rayIndex =>
          stripVertex rays layers FP_NAN M_PI sinf cosf centroid2d penumbra umbra
            layerIndex rayIndex)
      ++ [{ x := NFloat.val (centroid2d umbra).x, y := NFloat.val (centroid2d umbra).y,
            alpha := NFloat.val 1 }] := by
  unfold generateTriangleStrip at h
  split at h
  · exact absurd h (by simp)
  · simp only [VertexBuffer.allocated.injEq] at h
    exact h.2.symm

theorem generateTriangleStrip_getElem? (penumbra umbra : List Vector2)
    (size : Nat) (vertices : List AlphaVertex) (l r : Nat)
    (h : generateTriangleStrip rays layers FP_NAN M_PI sinf cosf centroid2d penumbra umbra
      = VertexBuffer.allocated size vertices)
    (hl : l ≤ layers) (hr : r < rays) :
    vertices[l * rays + r]? =
      some (stripVertex rays layers FP_NAN M_PI sinf cosf centroid2d penumbra umbra l r) := by
  rw [generateTriangleStrip_vertices rays layers FP_NAN M_PI sinf cosf centroid2d penumbra
    umbra size vertices h]
  have hlen : ((List.range (layers + 1)).flatMap fun layerIndex =>
        (List.range rays).map fun rayIndex =>
          stripVertex rays layers FP_NAN M_PI sinf cosf centroid2d penumbra umbra
            layerIndex rayIndex).length = (layers + 1) * rays := by
    rw [length_bind_const _ _ rays (by intro a _; simp), List.length_range]
  have hlt : l * rays + r < (layers + 1) * rays := by
    have : (l + 1) * rays ≤ (layers + 1) * rays := Nat.mul_le_mul_right rays (by omega)
    rw [Nat.add_mul] at this
    omega
  rw [List.getElem?_append_left (by rw [hlen]; exact hlt)]
  exact getElem?_flatMap_range _ (layers + 1) rays l r (by omega) hr

theorem calculateOpacity_val (r : ℚ) :
    calculateOpacity (NFloat.val r) = NFloat.val ((r * r + r) / 2) := rfl

theorem layerRatioOf_pos (l : Nat) (hL : 0 < layers) :
    layerRatioOf l layers = NFloat.val ((l : ℚ) / (layers : ℚ)) := by
  simp [layerRatioOf, Nat.pos_iff_ne_zero.mp hL]

theorem stripVertex_of_hits (penumbra umbra : List Vector2) (l r : Nat) (u p : ℚ)
    (hL : 0 < layers)
    (hu : umbraDistPerRay rays FP_NAN M_PI sinf cosf centroid2d umbra r = NFloat.val u)
    (hp : penumbraDistPerRay rays FP_NAN M_PI sinf cosf centroid2d penumbra umbra r
      = NFloat.val p) :
    stripVertex rays layers FP_NAN M_PI sinf cosf centroid2d penumbra umbra l r =
      { x := NFloat.val (sinf (rayStep rays M_PI * r)
              * (p + (l : ℚ) / (layers : ℚ) * (u - p)) + (centroid2d umbra).x)
        y := NFloat.val (cosf (rayStep rays M_PI * r)
              * (p + (l : ℚ) / (layers : ℚ) * (u - p)) + (centroid2d umbra).y)
        alpha := calculateOpacity (NFloat.val ((l : ℚ) / (layers : ℚ))) } := by
  simp only [stripVertex, hu, hp, layerRatioOf_pos layers l hL, NFloat.sub, NFloat.mul,
    NFloat.add]

theorem opacity_bounds (r : ℚ) (h0 : 0 ≤ r) (h1 : r ≤ 1) :
    0 ≤ (r * r + r) / 2 ∧ (r * r + r) / 2 ≤ 1 := by
  constructor
  · positivity
  · nlinarith

theorem opacity_mono (a b : ℚ) (h0 : 0 ≤ a) (hab : a ≤ b) :
    (a * a + a) / 2 ≤ (b * b + b) / 2 := by
  nlinarith [mul_nonneg h0 (sub_nonneg.mpr hab), mul_nonneg (le_trans h0 hab) (sub_nonneg.mpr hab)]

theorem ratio_bounds (l : Nat) (hL : 0 < layers) (hl : l ≤ layers) :
    0 ≤ (l : ℚ) / (layers : ℚ) ∧ (l : ℚ) / (layers : ℚ) ≤ 1 := by
  have hLq : (0 : ℚ) < (layers : ℚ) := by exact_mod_cast hL
  have hlq : (l : ℚ) ≤ (layers : ℚ) := by exact_mod_cast hl
  exact ⟨by positivity, (div_le_one hLq).mpr hlq⟩

end StripLayers

section StripClaims

variable (rays layers : Nat) (FP_NAN : NFloat) (M_PI : ℚ) (sinf cosf : ℚ → ℚ)
  (centroid2d : List Vector2 → Vector2)

/-- C16: when `generateTriangleStrip` allocates, with `0 < layers`, a layer index
`l ≤ layers`, a ray index `r < rays` and ray `r` meeting the umbra at distance `u`
and the penumbra at distance `p`, the vertex written at index `l * rays + r` has
opacity `calculateOpacity (l / layers)` and position
`centroid + (sinf (r * step), cosf (r * step)) * (p + (l / layers) * (u - p))`;
the vertex at index `r` is the penumbra hit point with opacity 0 and the vertex at
index `layers * rays + r` is the umbra hit point with opacity 1. -/
theorem generateTriangleStrip_vertex_at (penumbra umbra : List Vector2)
    (size : Nat) (vertices : List AlphaVertex) (l r : Nat) (u p : ℚ)
    (h : generateTriangleStrip rays layers FP_NAN M_PI sinf cosf centroid2d penumbra umbra
      = VertexBuffer.allocated size vertices)
    (hL : 0 < layers) (hl : l ≤ layers) (hr : r < rays)
    (hu : umbraDistPerRay rays FP_NAN M_PI sinf cosf centroid2d umbra r = NFloat.val u)
    (hp : penumbraDistPerRay rays FP_NAN M_PI sinf cosf centroid2d penumbra umbra r
      = NFloat.val p) :
    vertices[l * rays + r]? = some
      { x := NFloat.val ((centroid2d umbra).x + sinf (M_PI * 2 / (rays : ℚ) * r)
              * (p + (l : ℚ) / (layers : ℚ) * (u - p)))
        y := NFloat.val ((centroid2d umbra).y + cosf (M_PI * 2 / (rays : ℚ) * r)
              * (p + (l : ℚ) / (layers : ℚ) * (u - p)))
        alpha := calculateOpacity (NFloat.val ((l : ℚ) / (layers : ℚ))) } ∧
    vertices[r]? = some
      { x := NFloat.val ((centroid2d umbra).x + sinf (M_PI * 2 / (rays : ℚ) * r) * p)
        y := NFloat.val ((centroid2d umbra).y + cosf (M_PI * 2 / (rays : ℚ) * r) * p)
        alpha := NFloat.val 0 } ∧
    vertices[layers * rays + r]? = some
      { x := NFloat.val ((centroid2d umbra).x + sinf (M_PI * 2 / (rays : ℚ) * r) * u)
        y := NFloat.val ((centroid2d umbra).y + cosf (M_PI * 2 / (rays : ℚ) * r) * u)
        alpha := NFloat.val 1 } := by
  have hLq : (layers : ℚ) ≠ 0 := by exact_mod_cast Nat.pos_iff_ne_zero.mp hL
  have key : ∀ k : Nat, k ≤ layers → vertices[k * rays + r]? = some
      { x := NFloat.val ((centroid2d umbra).x + sinf (M_PI * 2 / (rays : ℚ) * r)
              * (p + (k : ℚ) / (layers : ℚ) * (u - p)))
        y := NFloat.val ((centroid2d umbra).y + cosf (M_PI * 2 / (rays : ℚ) * r)
              * (p + (k : ℚ) / (layers : ℚ) * (u - p)))
        alpha := calculateOpacity (NFloat.val ((k : ℚ) / (layers : ℚ))) } := by
    intro k hk
    rw [generateTriangleStrip_getElem? rays layers FP_NAN M_PI sinf cosf centroid2d penumbra
      umbra size vertices k r h hk hr,
      stripVertex_of_hits rays layers FP_NAN M_PI sinf cosf centroid2d penumbra umbra k r u p
        hL hu hp]
    simp only [rayStep, add_comm]
  refine ⟨key l hl, ?_, ?_⟩
  · have h0 := key 0 (Nat.zero_le _)
    simp only [Nat.zero_mul, Nat.zero_add, Nat.cast_zero, zero_div, zero_mul, add_zero,
      calculateOpacity_val] at h0
    rw [h0]
  · have h1 := key layers (Nat.le_refl _)
    simp only [div_self hLq, one_mul, calculateOpacity_val] at h1
    rw [h1]
    norm_num

/-- The theorem of C16 on the two squares with 4 rays and 1 layer, for layer 1 and
ray 1, which meets the umbra at distance 1 and the penumbra at distance 2. -/
theorem generateTriangleStrip_vertex_at_witness :
    ∃ size vertices,
      generateTriangleStrip 4 1 NFloat.nan 2 quarterSin quarterCos meanCentroid
        squarePenumbra squareUmbra = VertexBuffer.allocated size vertices ∧
      vertices[1 * 4 + 1]? = some
        { x := NFloat.val ((meanCentroid squareUmbra).x + quarterSin (2 * 2 / ((4 : Nat) : ℚ) * (1 : Nat))
                * (2 + ((1 : Nat) : ℚ) / ((1 : Nat) : ℚ) * (1 - 2)))
          y := NFloat.val ((meanCentroid squareUmbra).y + quarterCos (2 * 2 / ((4 : Nat) : ℚ) * (1 : Nat))
                * (2 + ((1 : Nat) : ℚ) / ((1 : Nat) : ℚ) * (1 - 2)))
          alpha := calculateOpacity (NFloat.val (((1 : Nat) : ℚ) / ((1 : Nat) : ℚ))) } ∧
      vertices[1]? = some
        { x := NFloat.val ((meanCentroid squareUmbra).x + quarterSin (2 * 2 / ((4 : Nat) : ℚ) * (1 : Nat)) * 2)
          y := NFloat.val ((meanCentroid squareUmbra).y + quarterCos (2 * 2 / ((4 : Nat) : ℚ) * (1 : Nat)) * 2)
          alpha := NFloat.val 0 } ∧
      vertices[1 * 4 + 1]? = some
        { x := NFloat.val ((meanCentroid squareUmbra).x + quarterSin (2 * 2 / ((4 : Nat) : ℚ) * (1 : Nat)) * 1)
          y := NFloat.val ((meanCentroid squareUmbra).y + quarterCos (2 * 2 / ((4 : Nat) : ℚ) * (1 : Nat)) * 1)
          alpha := NFloat.val 1 } :=
  ⟨_, _, squares_strip_run,
    generateTriangleStrip_vertex_at 4 1 NFloat.nan 2 quarterSin quarterCos meanCentroid
      squarePenumbra squareUmbra _ _ 1 1 1 2 squares_strip_run (by decide) (by decide)
      (by decide) (by decide!) (by decide!)⟩

/-- C17: `calculateOpacity` is non-decreasing on `[0, 1]` (on all of `0 ≤ a`, in
fact): for `0 ≤ a ≤ b` its values at `a` and `b` are numbers `x ≤ y`; and when `generateTriangleStrip` allocates
with `0 < layers`, for a ray `r < rays` and layers `l ≤ l2 ≤ layers` the opacities
written at indices `l * rays + r` and `l2 * rays + r` are numbers `x ≤ y`. -/
theorem calculateOpacity_monotone (a b : ℚ) (penumbra umbra : List Vector2)
    (size : Nat) (vertices : List AlphaVertex) (l l2 r : Nat)
    (h0 : 0 ≤ a) (hab : a ≤ b)
    (h : generateTriangleStrip rays layers FP_NAN M_PI sinf cosf centroid2d penumbra umbra
      = VertexBuffer.allocated size vertices)
    (hL : 0 < layers) (hll : l ≤ l2) (hl2 : l2 ≤ layers) (hr : r < rays) :
    (∃ x y : ℚ, calculateOpacity (NFloat.val a) = NFloat.val x ∧
      calculateOpacity (NFloat.val b) = NFloat.val y ∧ x ≤ y) ∧
    ∃ (v w : AlphaVertex) (x y : ℚ), vertices[l * rays + r]? = some v ∧
      vertices[l2 * rays + r]? = some w ∧ v.alpha = NFloat.val x ∧
      w.alpha = NFloat.val y ∧ x ≤ y := by
  refine ⟨⟨_, _, calculateOpacity_val a, calculateOpacity_val b, opacity_mono a b h0 hab⟩, ?_⟩
  have hLq : (0 : ℚ) < (layers : ℚ) := by exact_mod_cast hL
  have hq : (l : ℚ) / (layers : ℚ) ≤ (l2 : ℚ) / (layers : ℚ) :=
    div_le_div_of_nonneg_right (by exact_mod_cast hll) hLq.le
  refine ⟨_, _, _, _,
    generateTriangleStrip_getElem? rays layers FP_NAN M_PI sinf cosf centroid2d penumbra
      umbra size vertices l r h (le_trans hll hl2) hr,
    generateTriangleStrip_getElem? rays layers FP_NAN M_PI sinf cosf centroid2d penumbra
      umbra size vertices l2 r h hl2 hr, ?_, ?_,
    opacity_mono _ _ (ratio_bounds layers l hL (le_trans hll hl2)).1 hq⟩
  · simp only [stripVertex, layerRatioOf_pos layers l hL, calculateOpacity_val]
  · simp only [stripVertex, layerRatioOf_pos layers l2 hL, calculateOpacity_val]

/-- The theorem of C17 at `a = 1/4`, `b = 1/2` and on the two squares with 4 rays
and 1 layer, for ray 2 and the layers 0 and 1. -/
theorem calculateOpacity_monotone_witness :
    (∃ x y : ℚ, calculateOpacity (NFloat.val (1 / 4)) = NFloat.val x ∧
      calculateOpacity (NFloat.val (1 / 2)) = NFloat.val y ∧ x ≤ y) ∧
    ∃ size vertices,
      generateTriangleStrip 4 1 NFloat.nan 2 quarterSin quarterCos meanCentroid
        squarePenumbra squareUmbra = VertexBuffer.allocated size vertices ∧
      ∃ (v w : AlphaVertex) (x y : ℚ), vertices[0 * 4 + 2]? = some v ∧
        vertices[1 * 4 + 2]? = some w ∧ v.alpha = NFloat.val x ∧
        w.alpha = NFloat.val y ∧ x ≤ y :=
  have hw := calculateOpacity_monotone 4 1 NFloat.nan 2 quarterSin quarterCos meanCentroid
    (1 / 4) (1 / 2) squarePenumbra squareUmbra _ _ 0 1 2 (by norm_num) (by norm_num)
    squares_strip_run (by decide) (by decide) (by decide) (by decide)
  ⟨hw.1, _, _, squares_strip_run, hw.2⟩

/-- C18: for a layer ratio `r` in `[0, 1]`, `calculateOpacity r` is `(r * r + r) / 2`
and lies in `[0, 1]`; it is 0 at 0 and 1 at 1; and when `generateTriangleStrip`
allocates with `0 < layers`, every vertex written has an opacity in `[0, 1]`. -/
theorem calculateOpacity_in_unit_interval (r : ℚ) (penumbra umbra : List Vector2)
    (size : Nat) (vertices : List AlphaVertex)
    (h0 : 0 ≤ r) (h1 : r ≤ 1)
    (h : generateTriangleStrip rays layers FP_NAN M_PI sinf cosf centroid2d penumbra umbra
      = VertexBuffer.allocated size vertices)
    (hL : 0 < layers) :
    (calculateOpacity (NFloat.val r) = NFloat.val ((r * r + r) / 2) ∧
      0 ≤ (r * r + r) / 2 ∧ (r * r + r) / 2 ≤ 1) ∧
    calculateOpacity (NFloat.val 0) = NFloat.val 0 ∧
    calculateOpacity (NFloat.val 1) = NFloat.val 1 ∧
    ∀ v ∈ vertices, ∃ a : ℚ, v.alpha = NFloat.val a ∧ 0 ≤ a ∧ a ≤ 1 := by
  refine ⟨⟨rfl, opacity_bounds r h0 h1⟩, ?_, ?_, ?_⟩
  · rw [calculateOpacity_val]; norm_num
  · rw [calculateOpacity_val]; norm_num
  · intro v hv
    rw [generateTriangleStrip_vertices rays layers FP_NAN M_PI sinf cosf centroid2d penumbra
      umbra size vertices h] at hv
    rcases List.mem_append.mp hv with hv | hv
    · obtain ⟨l, hl, hv⟩ := List.mem_flatMap.mp hv
      obtain ⟨k, -, rfl⟩ := List.mem_map.mp hv
      have hl2 : l ≤ layers := by
        have := List.mem_range.mp hl
        omega
      have hb := ratio_bounds layers l hL hl2
      refine ⟨_, ?_, opacity_bounds _ hb.1 hb.2⟩
      simp only [stripVertex, layerRatioOf_pos layers l hL, calculateOpacity_val]
    · rw [List.mem_singleton] at hv
      subst hv
      exact ⟨1, rfl, by norm_num, le_refl _⟩

/-- The theorem of C18 at `r = 1/2` and on the two squares with 4 rays and 1 layer. -/
theorem calculateOpacity_in_unit_interval_witness :
    (calculateOpacity (NFloat.val (1 / 2)) = NFloat.val ((1 / 2 * (1 / 2) + 1 / 2) / 2) ∧
      (0 : ℚ) ≤ (1 / 2 * (1 / 2) + 1 / 2) / 2 ∧ ((1 / 2 * (1 / 2) + 1 / 2) / 2 : ℚ) ≤ 1) ∧
    calculateOpacity (NFloat.val 0) = NFloat.val 0 ∧
    calculateOpacity (NFloat.val 1) = NFloat.val 1 ∧
    ∃ size vertices,
      generateTriangleStrip 4 1 NFloat.nan 2 quarterSin quarterCos meanCentroid
        squarePenumbra squareUmbra = VertexBuffer.allocated size vertices ∧
      ∀ v ∈ vertices, ∃ a : ℚ, v.alpha = NFloat.val a ∧ 0 ≤ a ∧ a ≤ 1 :=
  have hw := calculateOpacity_in_unit_interval 4 1 NFloat.nan 2 quarterSin quarterCos
    meanCentroid (1 / 2) squarePenumbra squareUmbra _ _ (by norm_num) (by norm_num)
    squares_strip_run (by decide)
  ⟨hw.1, hw.2.1, hw.2.2.1, _, _, squares_strip_run, hw.2.2.2⟩

end StripClaims

/-! ### The failure sentinel -/

section Sentinel

variable (rays layers : Nat) (M_PI : ℚ) (sinf cosf : ℚ → ℚ)
  (centroid2d : List Vector2 → Vector2)

theorem rayIntersectPoly_isnan_of_val (c : ℚ) (poly : List Vector2) (point : Vector2)
    (dx dy : ℚ) : (rayIntersectPoly (NFloat.val c) poly point dx dy).isnan = false := by
  unfold rayIntersectPoly
  cases poly.getLast? with
  | none => rfl
  | some last =>
    simp only
    cases rayIntersectLoop point.x point.y dx dy last poly <;> rfl

/-- C20: with `FP_NAN` the integer classification macro of `<math.h>` (value `n`),
`rayIntersectPoly` never returns a NaN: on the empty polygon, and on the triangle
`(5,5), (6,5), (5,6)` for the ray from `(0,0)` along `(0,-1)`, which points away from
it and meets no edge, it returns the finite value `n`, on which `isnan` is false; so
for every umbra and penumbra the `isnan` tests of `generateTriangleStrip` never fire
and the strip is allocated. -/
theorem rayIntersectPoly_failure_is_not_nan (n : Int) :
    rayIntersectPoly (classificationSentinel n) [] ⟨0, 0⟩ 0 (-1) = NFloat.val (n : ℚ) ∧
    rayIntersectLoop 0 0 0 (-1) ⟨5, 6⟩ farPenumbra = none ∧
    rayIntersectPoly (classificationSentinel n) farPenumbra ⟨0, 0⟩ 0 (-1)
      = NFloat.val (n : ℚ) ∧
    (∀ (poly : List Vector2) (point : Vector2) (dx dy : ℚ),
      (rayIntersectPoly (classificationSentinel n) poly point dx dy).isnan = false) ∧
    ∀ penumbra umbra : List Vector2,
      generateTriangleStrip rays layers (classificationSentinel n) M_PI sinf cosf centroid2d
        penumbra umbra ≠ VertexBuffer.empty := by
  have hloop : rayIntersectLoop 0 0 0 (-1) ⟨5, 6⟩ farPenumbra = none := by decide!
  refine ⟨rfl, hloop, ?_, ?_, ?_⟩
  · exact rayIntersectPoly_of_loop_none _ farPenumbra ⟨5, 6⟩ ⟨0, 0⟩ 0 (-1) (by decide!) hloop
  · intro poly point dx dy
    exact rayIntersectPoly_isnan_of_val _ poly point dx dy
  · intro penumbra umbra
    have hret : ∀ i, rayLoopReturns rays (classificationSentinel n) M_PI sinf cosf centroid2d
        umbra i = false := by
      intro i
      simp only [rayLoopReturns, umbraDistPerRay, classificationSentinel,
        rayIntersectPoly_isnan_of_val]
      simp
    simp [generateTriangleStrip, hret]

end Sentinel

/-! ### The ray meets the boundary -/

theorem chain_iff_forall_zip (R : Vector2 → Vector2 → Prop) (x : Vector2)
    (l : List Vector2) :
    List.Chain R x l ↔ ∀ e ∈ List.zip (x :: l) l, R e.1 e.2 := by
  induction l generalizing x with
  | nil => simp
  | cons y t ih =>
    rw [List.chain_cons, ih y]
    simp only [List.zip_cons_cons, List.mem_cons, forall_eq_or_imp]

theorem rayIntersectLoop_some (px py dx dy : ℚ) (p1 : Vector2) (l : List Vector2) (r : ℚ)
    (h : rayIntersectLoop px py dx dy p1 l = some r) :
    ∃ e ∈ List.zip (p1 :: l) l, edgeQualifies px py dx dy e.1 e.2 ∧
      r = (e.1.x * (py - e.2.y) + e.2.x * (e.1.y - py) + px * (e.2.y - e.1.y))
            / (dx * (e.1.y - e.2.y) + dy * e.2.x - dy * e.1.x) := by
  induction l generalizing p1 with
  | nil => simp [rayIntersectLoop] at h
  | cons p2 rest ih =>
    simp only [rayIntersectLoop] at h
    split at h
    · rename_i hq
      simp only [Option.some.injEq] at h
      exact ⟨(p1, p2), by simp, hq, h.symm⟩
    · obtain ⟨e, he, hq⟩ := ih p2 h
      exact ⟨e, by simp only [List.zip_cons_cons, List.mem_cons]; exact Or.inr he, hq⟩

theorem rayIntersectLoop_of_qualifies (px py dx dy : ℚ) (p1 : Vector2) (l : List Vector2)
    (h : ∃ e ∈ List.zip (p1 :: l) l, edgeQualifies px py dx dy e.1 e.2) :
    ∃ r, rayIntersectLoop px py dx dy p1 l = some r := by
  induction l generalizing p1 with
  | nil => simp at h
  | cons p2 rest ih =>
    simp only [rayIntersectLoop]
    split
    · exact ⟨_, rfl⟩
    · rename_i hq
      obtain ⟨e, he, hqe⟩ := h
      simp only [List.zip_cons_cons, List.mem_cons] at he
      rcases he with rfl | he
      · exact absurd hqe hq
      · exact ih p2 ⟨e, he, hqe⟩

theorem cross_side_identity (o a b c : Vector2) (dx dy : ℚ) :
    cross o a c * sideOfRay o dx dy b =
      cross o a b * sideOfRay o dx dy c + sideOfRay o dx dy a * cross o b c := by
  simp only [cross, sideOfRay]
  ring

theorem cross_mul_dx (o a b : Vector2) (dx dy : ℚ) :
    cross o a b * dx = (b.x - o.x) * sideOfRay o dx dy a - (a.x - o.x) * sideOfRay o dx dy b := by
  simp only [cross, sideOfRay]
  ring

theorem cross_mul_dy (o a b : Vector2) (dx dy : ℚ) :
    cross o a b * dy = (b.y - o.y) * sideOfRay o dx dy a - (a.y - o.y) * sideOfRay o dx dy b := by
  simp only [cross, sideOfRay]
  ring

theorem cross_self (o a : Vector2) : cross o a a = 0 := by
  simp only [cross]
  ring

theorem sideOfRay_neg (o : Vector2) (dx dy : ℚ) (v : Vector2) :
    sideOfRay o (-dx) (-dy) v = -sideOfRay o dx dy v := by
  simp only [sideOfRay]
  ring

theorem cross_ne_zero_side (o a b : Vector2) (dx dy : ℚ) (hd : dx ≠ 0 ∨ dy ≠ 0)
    (hc : cross o a b ≠ 0) :
    sideOfRay o dx dy a ≠ 0 ∨ sideOfRay o dx dy b ≠ 0 := by
  by_contra h
  push_neg at h
  have h1 := cross_mul_dx o a b dx dy
  have h2 := cross_mul_dy o a b dx dy
  rw [h.1, h.2] at h1 h2
  simp only [mul_zero, sub_zero] at h1 h2
  rcases hd with hd | hd
  · exact hc ((mul_eq_zero.mp h1).resolve_right hd)
  · exact hc ((mul_eq_zero.mp h2).resolve_right hd)

theorem chain_trans_mem (R : Vector2 → Vector2 → Prop) (S : Vector2 → Prop)
    (htrans : ∀ a b c, S a → S b → S c → R a b → R b c → R a c)
    (x : Vector2) (l : List Vector2) (hch : List.Chain R x l) (hx : S x)
    (hl : ∀ v ∈ l, S v) : ∀ v ∈ l, R x v := by
  induction l generalizing x with
  | nil => simp
  | cons y t ih =>
    rw [List.chain_cons] at hch
    have hy : S y := hl y (List.mem_cons_self _ _)
    have ht : ∀ v ∈ t, S v := fun v hv => hl v (List.mem_cons_of_mem _ hv)
    intro v hv
    rcases List.mem_cons.mp hv with rfl | hv
    · exact hch.1
    · exact htrans x y v hx hy (ht v hv) hch.1 (ih y hch.2 hy ht v hv)

theorem closed_chain_not_all (R : Vector2 → Vector2 → Prop) (S : Vector2 → Prop)
    (htrans : ∀ a b c, S a → S b → S c → R a b → R b c → R a c)
    (hirr : ∀ a, ¬ R a a)
    (last : Vector2) (poly : List Vector2) (hlast : poly.getLast? = some last)
    (hch : List.Chain R last poly) : ¬ ∀ v ∈ poly, S v := by
  intro hall
  have hmem : last ∈ poly := List.mem_of_getLast?_eq_some hlast
  exact hirr last
    (chain_trans_mem R S htrans last poly hch (hall last hmem) hall last hmem)

theorem path_last_nonneg (f : Vector2 → ℚ) (x : Vector2) (l : List Vector2)
    (hch : List.Chain (fun p q => 0 ≤ f p → 0 < f q) x l)
    (h : 0 ≤ f x ∨ ∃ v ∈ l, 0 ≤ f v) (last : Vector2)
    (hlast : (x :: l).getLast? = some last) : 0 ≤ f last := by
  induction l generalizing x with
  | nil =>
    simp only [List.getLast?_singleton, Option.some.injEq] at hlast
    subst hlast
    rcases h with h | ⟨v, hv, -⟩
    · exact h
    · simp at hv
  | cons y t ih =>
    rw [List.chain_cons] at hch
    rw [List.getLast?_cons_cons] at hlast
    refine ih y hch.2 ?_ hlast
    rcases h with h | ⟨v, hv, hfv⟩
    · exact Or.inl (hch.1 h).le
    · rcases List.mem_cons.mp hv with rfl | hv
      · exact Or.inl hfv
      · exact Or.inr ⟨v, hv, hfv⟩

theorem path_all_pos (f : Vector2 → ℚ) (x : Vector2) (l : List Vector2)
    (hch : List.Chain (fun p q => 0 ≤ f p → 0 < f q) x l) (h : 0 ≤ f x) :
    ∀ v ∈ l, 0 < f v := by
  induction l generalizing x with
  | nil => simp
  | cons y t ih =>
    rw [List.chain_cons] at hch
    intro v hv
    rcases List.mem_cons.mp hv with rfl | hv
    · exact hch.1 h
    · exact ih y hch.2 (hch.1 h).le v hv

theorem exists_transition (f : Vector2 → ℚ) (last : Vector2) (poly : List Vector2)
    (hlast : poly.getLast? = some last) (h1 : ∃ v ∈ poly, 0 ≤ f v)
    (h2 : ∃ v ∈ poly, f v ≤ 0) :
    ∃ e ∈ List.zip (last :: poly) poly, 0 ≤ f e.1 ∧ f e.2 ≤ 0 := by
  by_contra hno
  push_neg at hno
  have hch : List.Chain (fun p q => 0 ≤ f p → 0 < f q) last poly :=
    (chain_iff_forall_zip _ last poly).mpr hno
  have hne : poly ≠ [] := by
    rintro rfl
    simp at hlast
  have hl2 : (last :: poly).getLast? = some last := by
    cases poly with
    | nil => exact absurd rfl hne
    | cons y t => rw [List.getLast?_cons_cons]; exact hlast
  have hfl : 0 ≤ f last := path_last_nonneg f last poly hch (Or.inr h1) last hl2
  obtain ⟨v, hv, hfv⟩ := h2
  exact absurd (path_all_pos f last poly hch hfl v hv) (not_lt.mpr hfv)

theorem edge_div_eq (o : Vector2) (dx dy : ℚ) (p1 p2 : Vector2) :
    dx * (p1.y - p2.y) + dy * p2.x - dy * p1.x
      = sideOfRay o dx dy p2 - sideOfRay o dx dy p1 := by
  simp only [sideOfRay]
  ring

theorem edge_t_num_eq (o : Vector2) (dx dy : ℚ) (p1 : Vector2) :
    dx * (p1.y - o.y) + dy * o.x - dy * p1.x = -sideOfRay o dx dy p1 := by
  simp only [sideOfRay]
  ring

theorem edge_t2_num_eq (o : Vector2) (p1 p2 : Vector2) :
    p1.x * (o.y - p2.y) + p2.x * (p1.y - o.y) + o.x * (p2.y - p1.y) = -cross o p1 p2 := by
  simp only [cross]
  ring

theorem edgeQualifies_of_left (o : Vector2) (dx dy : ℚ) (p1 p2 : Vector2)
    (hd : dx ≠ 0 ∨ dy ≠ 0) (hc : 0 < cross o p1 p2)
    (h1 : 0 ≤ sideOfRay o dx dy p1) (h2 : sideOfRay o dx dy p2 ≤ 0) :
    edgeQualifies o.x o.y dx dy p1 p2 := by
  have hne := cross_ne_zero_side o p1 p2 dx dy hd (ne_of_gt hc)
  have hlt : sideOfRay o dx dy p2 - sideOfRay o dx dy p1 < 0 := by
    rcases hne with h | h
    · have : 0 < sideOfRay o dx dy p1 := lt_of_le_of_ne h1 (Ne.symm h)
      linarith
    · have : sideOfRay o dx dy p2 < 0 := lt_of_le_of_ne h2 h
      linarith
  unfold edgeQualifies
  rw [edge_div_eq o, edge_t_num_eq, edge_t2_num_eq]
  refine ⟨ne_of_lt hlt, ⟨?_, ?_⟩, ?_⟩
  · exact div_nonneg_of_nonpos (by linarith) hlt.le
  · rw [div_le_one_of_neg hlt]
    linarith
  · exact div_pos_of_neg_of_neg (by linarith) hlt

theorem edgeQualifies_of_right (o : Vector2) (dx dy : ℚ) (p1 p2 : Vector2)
    (hd : dx ≠ 0 ∨ dy ≠ 0) (hc : cross o p1 p2 < 0)
    (h1 : sideOfRay o dx dy p1 ≤ 0) (h2 : 0 ≤ sideOfRay o dx dy p2) :
    edgeQualifies o.x o.y dx dy p1 p2 := by
  have hne := cross_ne_zero_side o p1 p2 dx dy hd (ne_of_lt hc)
  have hlt : 0 < sideOfRay o dx dy p2 - sideOfRay o dx dy p1 := by
    rcases hne with h | h
    · have : sideOfRay o dx dy p1 < 0 := lt_of_le_of_ne h1 h
      linarith
    · have : 0 < sideOfRay o dx dy p2 := lt_of_le_of_ne h2 (Ne.symm h)
      linarith
  unfold edgeQualifies
  rw [edge_div_eq o, edge_t_num_eq, edge_t2_num_eq]
  refine ⟨ne_of_gt hlt, ⟨?_, ?_⟩, ?_⟩
  · exact div_nonneg (by linarith) hlt.le
  · rw [div_le_one hlt]
    linarith
  · exact div_pos (by linarith) hlt

theorem edge_hit_point (px py dx dy : ℚ) (p1 p2 : Vector2)
    (hdiv : dx * (p1.y - p2.y) + dy * p2.x - dy * p1.x ≠ 0) :
    px + (p1.x * (py - p2.y) + p2.x * (p1.y - py) + px * (p2.y - p1.y))
          / (dx * (p1.y - p2.y) + dy * p2.x - dy * p1.x) * dx
      = p1.x + (dx * (p1.y - py) + dy * px - dy * p1.x)
          / (dx * (p1.y - p2.y) + dy * p2.x - dy * p1.x) * (p2.x - p1.x) ∧
    py + (p1.x * (py - p2.y) + p2.x * (p1.y - py) + px * (p2.y - p1.y))
          / (dx * (p1.y - p2.y) + dy * p2.x - dy * p1.x) * dy
      = p1.y + (dx * (p1.y - py) + dy * px - dy * p1.x)
          / (dx * (p1.y - p2.y) + dy * p2.x - dy * p1.x) * (p2.y - p1.y) := by
  constructor
  · field_simp
    ring
  · field_simp
    ring

theorem not_all_one_side (o : Vector2) (dx dy : ℚ) (last : Vector2) (poly : List Vector2)
    (hlast : poly.getLast? = some last)
    (hch : List.Chain (fun p q => 0 < cross o p q) last poly ∨
      List.Chain (fun p q => cross o p q < 0) last poly) :
    (∃ v ∈ poly, 0 ≤ sideOfRay o dx dy v) ∧ (∃ v ∈ poly, sideOfRay o dx dy v ≤ 0) := by
  have key : ∀ a b c : Vector2, cross o a c * sideOfRay o dx dy b =
      cross o a b * sideOfRay o dx dy c + sideOfRay o dx dy a * cross o b c :=
    fun a b c => cross_side_identity o a b c dx dy
  have irr1 : ∀ a : Vector2, ¬ 0 < cross o a a := fun a => by rw [cross_self]; exact lt_irrefl 0
  have irr2 : ∀ a : Vector2, ¬ cross o a a < 0 := fun a => by rw [cross_self]; exact lt_irrefl 0
  rcases hch with hch | hch
  · have hA := closed_chain_not_all (fun p q => 0 < cross o p q)
      (fun v => 0 < sideOfRay o dx dy v)
      (fun a b c ha hb hc hab hbc => by
        have h := key a b c
        have h1 := mul_pos hab hc
        have h2 := mul_pos ha hbc
        by_contra hn
        have h3 := mul_nonpos_of_nonpos_of_nonneg (not_lt.mp hn) hb.le
        linarith) irr1 last poly hlast hch
    have hB := closed_chain_not_all (fun p q => 0 < cross o p q)
      (fun v => sideOfRay o dx dy v < 0)
      (fun a b c ha hb hc hab hbc => by
        have h := key a b c
        have h1 := mul_neg_of_pos_of_neg hab hc
        have h2 := mul_neg_of_neg_of_pos ha hbc
        by_contra hn
        have h3 := mul_nonneg_of_nonpos_of_nonpos (not_lt.mp hn) hb.le
        linarith) irr1 last poly hlast hch
    push_neg at hA hB
    obtain ⟨v, hv, hfv⟩ := hA
    obtain ⟨w, hw, hfw⟩ := hB
    exact ⟨⟨w, hw, not_lt.mp hfw⟩, ⟨v, hv, not_lt.mp hfv⟩⟩
  · have hA := closed_chain_not_all (fun p q => cross o p q < 0)
      (fun v => 0 < sideOfRay o dx dy v)
      (fun a b c ha hb hc hab hbc => by
        have h := key a b c
        have h1 := mul_neg_of_neg_of_pos hab hc
        have h2 := mul_neg_of_pos_of_neg ha hbc
        by_contra hn
        have h3 := mul_nonneg (not_lt.mp hn) hb.le
        linarith) irr2 last poly hlast hch
    have hB := closed_chain_not_all (fun p q => cross o p q < 0)
      (fun v => sideOfRay o dx dy v < 0)
      (fun a b c ha hb hc hab hbc => by
        have h := key a b c
        have h1 := mul_pos_of_neg_of_neg hab hc
        have h2 := mul_pos_of_neg_of_neg ha hbc
        by_contra hn
        have h3 := mul_nonpos_of_nonneg_of_nonpos (not_lt.mp hn) hb.le
        linarith) irr2 last poly hlast hch
    push_neg at hA hB
    obtain ⟨v, hv, hfv⟩ := hA
    obtain ⟨w, hw, hfw⟩ := hB
    exact ⟨⟨w, hw, not_lt.mp hfw⟩, ⟨v, hv, not_lt.mp hfv⟩⟩

theorem exists_qualifying_edge (o : Vector2) (dx dy : ℚ) (last : Vector2)
    (poly : List Vector2) (hlast : poly.getLast? = some last) (hd : dx ≠ 0 ∨ dy ≠ 0)
    (hside : (∀ e ∈ List.zip (last :: poly) poly, 0 < cross o e.1 e.2) ∨
      (∀ e ∈ List.zip (last :: poly) poly, cross o e.1 e.2 < 0)) :
    ∃ e ∈ List.zip (last :: poly) poly, edgeQualifies o.x o.y dx dy e.1 e.2 := by
  have hch : List.Chain (fun p q => 0 < cross o p q) last poly ∨
      List.Chain (fun p q => cross o p q < 0) last poly := by
    rcases hside with h | h
    · exact Or.inl ((chain_iff_forall_zip _ last poly).mpr h)
    · exact Or.inr ((chain_iff_forall_zip _ last poly).mpr h)
  obtain ⟨hpos, hneg⟩ := not_all_one_side o dx dy last poly hlast hch
  rcases hside with h | h
  · obtain ⟨e, he, h1, h2⟩ := exists_transition (sideOfRay o dx dy) last poly hlast hpos hneg
    exact ⟨e, he, edgeQualifies_of_left o dx dy e.1 e.2 hd (h e he) h1 h2⟩
  · obtain ⟨e, he, h1, h2⟩ := exists_transition (fun v => -sideOfRay o dx dy v) last poly hlast
      (by obtain ⟨v, hv, hfv⟩ := hneg; exact ⟨v, hv, by simpa using hfv⟩)
      (by obtain ⟨v, hv, hfv⟩ := hpos; exact ⟨v, hv, by simpa using hfv⟩)
    exact ⟨e, he, edgeQualifies_of_right o dx dy e.1 e.2 hd (h e he)
      (by simpa using h1) (by simpa using h2)⟩

/-- C19: for every polygon, every origin `o` strictly inside it (strictly on the same
side of every edge, which a convex polygon with at least 3 vertices has for each of
its interior points) and every non-zero direction `(dx, dy)`, `rayIntersectPoly`
finds a qualifying edge and returns a distance `d > 0`, and the point
`o + d (dx, dy)` is the point `p1 + t (p2 - p1)`, `0 ≤ t ≤ 1`, of an edge
`(p1, p2)` of the polygon. -/
theorem rayIntersectPoly_hits_boundary (FP_NAN : NFloat) (poly : List Vector2)
    (o : Vector2) (dx dy : ℚ) (hin : StrictlyInside poly o) (hd : dx ≠ 0 ∨ dy ≠ 0) :
    ∃ (d : ℚ) (e : Vector2 × Vector2) (t : ℚ),
      rayIntersectPoly FP_NAN poly o dx dy = NFloat.val d ∧ 0 < d ∧
      e ∈ walkedEdges poly ∧ 0 ≤ t ∧ t ≤ 1 ∧
      o.x + d * dx = e.1.x + t * (e.2.x - e.1.x) ∧
      o.y + d * dy = e.1.y + t * (e.2.y - e.1.y) := by
  obtain ⟨hne, hside⟩ := hin
  obtain ⟨last, hlast⟩ : ∃ last, poly.getLast? = some last :=
    ⟨poly.getLast hne, List.getLast?_eq_getLast poly hne⟩
  have hw : walkedEdges poly = List.zip (last :: poly) poly := by
    simp only [walkedEdges, hlast]
  rw [hw] at hside ⊢
  obtain ⟨r, hr⟩ := rayIntersectLoop_of_qualifies o.x o.y dx dy last poly
    (exists_qualifying_edge o dx dy last poly hlast hd hside)
  obtain ⟨e, he, hq, hre⟩ := rayIntersectLoop_some o.x o.y dx dy last poly r hr
  have hp := edge_hit_point o.x o.y dx dy e.1 e.2 hq.1
  rw [← hre] at hp
  refine ⟨r, e, _, rayIntersectPoly_of_loop FP_NAN poly last o dx dy r hlast hr, ?_, he,
    hq.2.1.1, hq.2.1.2, hp.1, hp.2⟩
  rw [hre]
  exact hq.2.2

/-- The theorem of C19 on the square with corners `(-1,-1)` and `(1,1)`, from the
origin `(1/2, 0)` along `(1, 2)`. -/
theorem rayIntersectPoly_hits_boundary_witness :
    StrictlyInside squareUmbra ⟨1 / 2, 0⟩ ∧ ((1 : ℚ) ≠ 0 ∨ (2 : ℚ) ≠ 0) ∧
    ∃ (d : ℚ) (e : Vector2 × Vector2) (t : ℚ),
      rayIntersectPoly NFloat.nan squareUmbra ⟨1 / 2, 0⟩ 1 2 = NFloat.val d ∧ 0 < d ∧
      e ∈ walkedEdges squareUmbra ∧ 0 ≤ t ∧ t ≤ 1 ∧
      (1 / 2 : ℚ) + d * 1 = e.1.x + t * (e.2.x - e.1.x) ∧
      (0 : ℚ) + d * 2 = e.1.y + t * (e.2.y - e.1.y) :=
  have hin : StrictlyInside squareUmbra ⟨1 / 2, 0⟩ := by
    unfold StrictlyInside
    decide!
  ⟨hin, Or.inl one_ne_zero,
    rayIntersectPoly_hits_boundary NFloat.nan squareUmbra ⟨1 / 2, 0⟩ 1 2 hin
      (Or.inl one_ne_zero)⟩

/-! ### Order of the arguments of intersection -/

theorem exists_top_vertex (l : List Vector2) (h : l ≠ []) :
    ∃ v ∈ l, ∀ u ∈ l, u.y ≤ v.y := by
  induction l with
  | nil => exact absurd rfl h
  | cons a t ih =>
    by_cases ht : t = []
    · subst ht
      exact ⟨a, by simp, by simp⟩
    · obtain ⟨v, hv, hmax⟩ := ih ht
      by_cases hav : a.y ≤ v.y
      · refine ⟨v, List.mem_cons_of_mem _ hv, ?_⟩
        intro u hu
        rcases List.mem_cons.mp hu with rfl | hu
        · exact hav
        · exact hmax u hu
      · refine ⟨a, List.mem_cons_self _ _, ?_⟩
        intro u hu
        rcases List.mem_cons.mp hu with rfl | hu
        · exact le_refl _
        · exact le_trans (hmax u hu) (le_of_lt (not_le.mp hav))

theorem intersection_unfold (EPSILON : ℚ) (atan2 : ℚ → ℚ → ℚ) (A B P Q : List Vector2)
    (hP : makeClockwise A = P) (hQ : makeClockwise B = Q) :
    intersection EPSILON atan2 A B =
      if (P.filter (fun p => testPointInsidePolygon p Q)).length = P.length then
        some { poly1 := P, poly2 := P }
      else if (Q.filter (fun p => testPointInsidePolygon p P)).length = Q.length then
        some { poly1 := P, poly2 := Q }
      else if P.length * Q.length + 2 < (candidates EPSILON P Q).length then none
      else if (candidates EPSILON P Q).length = 0 then some { poly1 := P, poly2 := [] }
      else
        match sort atan2 (candidates EPSILON P Q) (centerOf (candidates EPSILON P Q)) with
        | none => none
        | some sorted =>
          some { poly1 := P,
                 poly2 := filterClose EPSILON (centerOf (candidates EPSILON P Q)) sorted } := by
  subst hP hQ
  rfl

/-- C11: for the convex triangle `(0,0), (0,1), (1,0)` and its copy moved by `3/1000`
along `x`, `intersection` returns 3 vertices in one order and 4 in the other, and the
two results enclose different shoelace areas. -/
theorem intersection_order_changes_result :
    ∃ r₁ r₂, intersection (1 / 100000) diamondAtan2 cornerTriangle shiftedTriangle = some r₁ ∧
      intersection (1 / 100000) diamondAtan2 shiftedTriangle cornerTriangle = some r₂ ∧
      r₁.poly2 = [⟨3 / 1000, 997 / 1000⟩, ⟨1, 0⟩, ⟨3 / 1000, 0⟩] ∧
      r₂.poly2 = [⟨0, 1⟩, ⟨3 / 1000, 997 / 1000⟩, ⟨1, 0⟩, ⟨3 / 1000, 0⟩] ∧
      r₁.poly2.length ≠ r₂.poly2.length ∧
      shoelaceArea r₁.poly2 ≠ shoelaceArea r₂.poly2 := by
  have h1 : intersection (1 / 100000) diamondAtan2 cornerTriangle shiftedTriangle
      = some { poly1 := cornerTriangle,
               poly2 := [⟨3 / 1000, 997 / 1000⟩, ⟨1, 0⟩, ⟨3 / 1000, 0⟩] } := by decide!
  have h2 : intersection (1 / 100000) diamondAtan2 shiftedTriangle cornerTriangle
      = some { poly1 := shiftedTriangle,
               poly2 := [⟨0, 1⟩, ⟨3 / 1000, 997 / 1000⟩, ⟨1, 0⟩, ⟨3 / 1000, 0⟩] } := by decide!
  exact ⟨_, _, h1, h2, rfl, rfl, by decide, by decide!⟩

/-- C12: for the convex triangles `poly1 = (3/1000,0), (3/1000,1), (1003/1000,0)` and
`poly2 = (0,0), (0,1), (1,0)`, `intersection(poly1, poly2)` returns the four vertices
`(0,1), (3/1000,997/1000), (1,0), (3/1000,0)`; `testPointInsidePolygon` reports the
point `(1/2000, 399/400)` inside that result and inside `poly2`, but not inside
`poly1`. -/
theorem intersection_result_leaves_poly1 :
    ∃ r, intersection (1 / 100000) diamondAtan2 shiftedTriangle cornerTriangle = some r ∧
      r.poly1 = shiftedTriangle ∧
      r.poly2 = [⟨0, 1⟩, ⟨3 / 1000, 997 / 1000⟩, ⟨1, 0⟩, ⟨3 / 1000, 0⟩] ∧
      testPointInsidePolygon ⟨1 / 2000, 399 / 400⟩ r.poly2 = true ∧
      testPointInsidePolygon ⟨1 / 2000, 399 / 400⟩ r.poly1 = false ∧
      testPointInsidePolygon ⟨1 / 2000, 399 / 400⟩ cornerTriangle = true := by
  have h : intersection (1 / 100000) diamondAtan2 shiftedTriangle cornerTriangle
      = some { poly1 := shiftedTriangle,
               poly2 := [⟨0, 1⟩, ⟨3 / 1000, 997 / 1000⟩, ⟨1, 0⟩, ⟨3 / 1000, 0⟩] } := by decide!
  exact ⟨_, h, rfl, rfl, by decide!, by decide!, by decide!⟩

/-! ### Strip bounds, orientation test and sorting -/

/-- C29: for all ray and layer counts the number of vertices `generateTriangleStrip`
writes, `rays * (layers + 1) + 1`, is at most `getStripSize rays layers`; and when the
strip is allocated, the size passed to `alloc` is `getStripSize rays layers` and the
vertices written number `rays * (layers + 1) + 1`, no more than that size. -/
theorem generateTriangleStrip_writes_in_bounds (rays layers : Nat) (FP_NAN : NFloat)
    (M_PI : ℚ) (sinf cosf : ℚ → ℚ) (centroid2d : List Vector2 → Vector2)
    (penumbra umbra : List Vector2) (size : Nat) (vertices : List AlphaVertex)
    (h : generateTriangleStrip rays layers FP_NAN M_PI sinf cosf centroid2d penumbra umbra
      = VertexBuffer.allocated size vertices) :
    rays * (layers + 1) + 1 ≤ getStripSize rays layers ∧
    size = getStripSize rays layers ∧
    vertices.length = rays * (layers + 1) + 1 ∧
    vertices.length ≤ size := by
  have hb : rays * (layers + 1) + 1 ≤ getStripSize rays layers := by
    unfold getStripSize
    have : layers * 2 * (rays + 1) = rays * layers + rays * layers + 2 * layers := by ring
    rw [this, Nat.mul_add]
    omega
  have hv := generateTriangleStrip_vertices rays layers FP_NAN M_PI sinf cosf centroid2d
    penumbra umbra size vertices h
  have hlen : vertices.length = rays * (layers + 1) + 1 := by
    rw [hv, List.length_append, length_bind_const _ _ rays (by intro a _; simp)]
    simp only [List.length_range, List.length_singleton]
    ring
  have hs : size = getStripSize rays layers := by
    unfold generateTriangleStrip at h
    split at h
    · exact absurd h (by simp)
    · simp only [VertexBuffer.allocated.injEq] at h
      exact h.1.symm
  exact ⟨hb, hs, hlen, by rw [hlen, hs]; exact hb⟩

/-- The theorem of C29 on the two squares with 4 rays and 1 layer: 9 vertices are
written into 16 allocated. -/
theorem generateTriangleStrip_writes_in_bounds_witness :
    ∃ size vertices,
      generateTriangleStrip 4 1 NFloat.nan 2 quarterSin quarterCos meanCentroid
        squarePenumbra squareUmbra = VertexBuffer.allocated size vertices ∧
      4 * (1 + 1) + 1 ≤ getStripSize 4 1 ∧
      size = getStripSize 4 1 ∧
      vertices.length = 4 * (1 + 1) + 1 ∧
      vertices.length ≤ size :=
  ⟨_, _, squares_strip_run,
    generateTriangleStrip_writes_in_bounds 4 1 NFloat.nan 2 quarterSin quarterCos meanCentroid
      squarePenumbra squareUmbra _ _ squares_strip_run⟩

/-- C23: for all points `a`, `b`, `c`, `ccw(a, b, c)` is true exactly when the cross
product `(b - a) × (c - a)` exceeds `EPSILON`; so, with `EPSILON ≥ 0`, it is true when
the counter-clockwise triangle has area (half the cross product) above `EPSILON`, and
false for a clockwise triple (negative cross product), for a triple within `EPSILON`
of collinear, and for collinear points. -/
theorem ccw_iff_cross_gt (EPSILON : ℚ) (a b c : Vector2) (hE : 0 ≤ EPSILON) :
    (ccw EPSILON a.x a.y b.x b.y c.x c.y = true ↔
      EPSILON < (b.x - a.x) * (c.y - a.y) - (b.y - a.y) * (c.x - a.x)) ∧
    (EPSILON < ((b.x - a.x) * (c.y - a.y) - (b.y - a.y) * (c.x - a.x)) / 2 →
      ccw EPSILON a.x a.y b.x b.y c.x c.y = true) ∧
    ((b.x - a.x) * (c.y - a.y) - (b.y - a.y) * (c.x - a.x) < 0 →
      ccw EPSILON a.x a.y b.x b.y c.x c.y = false) ∧
    (|(b.x - a.x) * (c.y - a.y) - (b.y - a.y) * (c.x - a.x)| ≤ EPSILON →
      ccw EPSILON a.x a.y b.x b.y c.x c.y = false) ∧
    ((b.x - a.x) * (c.y - a.y) - (b.y - a.y) * (c.x - a.x) = 0 →
      ccw EPSILON a.x a.y b.x b.y c.x c.y = false) := by
  have key : ccw EPSILON a.x a.y b.x b.y c.x c.y = true ↔
      EPSILON < (b.x - a.x) * (c.y - a.y) - (b.y - a.y) * (c.x - a.x) := by
    unfold ccw
    simp
  have keyf : ∀ {P : Prop} (_ : P →
      ¬ EPSILON < (b.x - a.x) * (c.y - a.y) - (b.y - a.y) * (c.x - a.x)),
      P → ccw EPSILON a.x a.y b.x b.y c.x c.y = false := by
    intro P hP hp
    cases hc : ccw EPSILON a.x a.y b.x b.y c.x c.y with
    | false => rfl
    | true => exact absurd (key.mp hc) (hP hp)
  refine ⟨key, ?_, keyf ?_, keyf ?_, keyf ?_⟩
  · intro h
    exact key.mpr (by linarith)
  · intro h
    exact not_lt.mpr (by linarith)
  · intro h
    exact not_lt.mpr (le_trans (le_abs_self _) h)
  · intro h
    rw [h]
    exact not_lt.mpr hE

/-- The theorem of C23 at `EPSILON = 1/100000` and the triple `(0,0), (1,0), (0,1)`. -/
theorem ccw_iff_cross_gt_witness :
    ((0 : ℚ) ≤ 1 / 100000) ∧
    ccw (1 / 100000) 0 0 1 0 0 1 = true ∧
    (ccw (1 / 100000) 0 0 1 0 0 1 = true ↔
      (1 / 100000 : ℚ) < (1 - 0) * (1 - 0) - (0 - 0) * (0 - 0)) :=
  ⟨by norm_num, by decide!,
    (ccw_iff_cross_gt (1 / 100000) ⟨0, 0⟩ ⟨1, 0⟩ ⟨0, 1⟩ (by norm_num)).1⟩

/-- C25: on every non-empty array `xsort` returns (every read and swap inside the
array, the recursion within its bound), and what it leaves is a permutation of the
input in non-decreasing order of `x`; `sort` does the same with the key
`angle(point, center)`. -/
theorem xsort_and_sort_sorted (atan2 : ℚ → ℚ → ℚ) (points : List Vector2)
    (center : Vector2) (h : points ≠ []) :
    (∃ sorted, xsort points = some sorted ∧ sorted.Perm points ∧
      sorted.length = points.length ∧
      sorted.Pairwise (fun a b => a.x ≤ b.x)) ∧
    ∃ sorted, sort atan2 points center = some sorted ∧ sorted.Perm points ∧
      sorted.length = points.length ∧
      sorted.Pairwise (fun a b => angle atan2 a center ≤ angle atan2 b center) := by
  obtain ⟨s1, h1, hp1, hs1⟩ := xsort_spec points h
  obtain ⟨s2, h2, hp2, hs2⟩ := sort_spec atan2 points center h
  exact ⟨⟨s1, h1, hp1, hp1.length_eq, hs1⟩, ⟨s2, h2, hp2, hp2.length_eq, hs2⟩⟩

/-- The theorem of C25 on the four points of `shallowDip`, sorted about `(1, 0)`. -/
theorem xsort_and_sort_sorted_witness :
    shallowDip ≠ [] ∧
    (∃ sorted, xsort shallowDip = some sorted ∧ sorted.Perm shallowDip ∧
      sorted.length = shallowDip.length ∧
      sorted.Pairwise (fun a b => a.x ≤ b.x)) ∧
    ∃ sorted, sort diamondAtan2 shallowDip ⟨1, 0⟩ = some sorted ∧ sorted.Perm shallowDip ∧
      sorted.length = shallowDip.length ∧
      sorted.Pairwise (fun a b => angle diamondAtan2 a ⟨1, 0⟩ ≤ angle diamondAtan2 b ⟨1, 0⟩) :=
  ⟨by decide, xsort_and_sort_sorted diamondAtan2 shallowDip ⟨1, 0⟩ (by decide)⟩

/-! ### The line intersection -/

theorem lineIntersection_eq_some_iff (EPSILON x1 y1 x2 y2 x3 y3 x4 y4 : ℚ) (r : Vector2) :
    lineIntersection EPSILON x1 y1 x2 y2 x3 y3 x4 y4 = some r ↔
      lineDet x1 y1 x2 y2 x3 y3 x4 y4 ≠ 0 ∧
      ((lineCommonPoint x1 y1 x2 y2 x3 y3 x4 y4).x - x1)
        * ((lineCommonPoint x1 y1 x2 y2 x3 y3 x4 y4).x - x2) ≤ EPSILON ∧
      ((lineCommonPoint x1 y1 x2 y2 x3 y3 x4 y4).x - x3)
        * ((lineCommonPoint x1 y1 x2 y2 x3 y3 x4 y4).x - x4) ≤ EPSILON ∧
      ((lineCommonPoint x1 y1 x2 y2 x3 y3 x4 y4).y - y1)
        * ((lineCommonPoint x1 y1 x2 y2 x3 y3 x4 y4).y - y2) ≤ EPSILON ∧
      ((lineCommonPoint x1 y1 x2 y2 x3 y3 x4 y4).y - y3)
        * ((lineCommonPoint x1 y1 x2 y2 x3 y3 x4 y4).y - y4) ≤ EPSILON ∧
      r = lineCommonPoint x1 y1 x2 y2 x3 y3 x4 y4 := by
  unfold lineIntersection lineDet lineCommonPoint
  by_cases hd : (x1 - x2) * (y3 - y4) - (y1 - y2) * (x3 - x4) = 0
  · simp [hd]
  · simp only [hd, if_false, ne_eq, not_false_eq_true, true_and]
    split
    · rename_i hb
      constructor
      · intro h
        exact absurd h (by simp)
      · rintro ⟨h1, h2, h3, h4, -⟩
        rcases hb with h | h | h | h
        · exact absurd h1 (not_le.mpr h)
        · exact absurd h2 (not_le.mpr h)
        · exact absurd h3 (not_le.mpr h)
        · exact absurd h4 (not_le.mpr h)
    · rename_i hb
      push_neg at hb
      constructor
      · intro h
        simp only [Option.some.injEq] at h
        exact ⟨hb.1, hb.2.1, hb.2.2.1, hb.2.2.2, h.symm⟩
      · rintro ⟨-, -, -, -, h⟩
        rw [h]

theorem lineCommonPoint_onLine (x1 y1 x2 y2 x3 y3 x4 y4 : ℚ)
    (hd : lineDet x1 y1 x2 y2 x3 y3 x4 y4 ≠ 0) :
    OnLine x1 y1 x2 y2 (lineCommonPoint x1 y1 x2 y2 x3 y3 x4 y4) ∧
    OnLine x3 y3 x4 y4 (lineCommonPoint x1 y1 x2 y2 x3 y3 x4 y4) := by
  unfold lineDet at hd
  unfold OnLine lineCommonPoint
  constructor
  · simp only
    field_simp
    ring
  · simp only
    field_simp
    ring

theorem lineCommonPoint_unique (x1 y1 x2 y2 x3 y3 x4 y4 : ℚ) (q : Vector2)
    (hd : lineDet x1 y1 x2 y2 x3 y3 x4 y4 ≠ 0)
    (h1 : OnLine x1 y1 x2 y2 q) (h2 : OnLine x3 y3 x4 y4 q) :
    q = lineCommonPoint x1 y1 x2 y2 x3 y3 x4 y4 := by
  unfold lineDet at hd
  unfold OnLine at h1 h2
  unfold lineCommonPoint
  have hx : q.x = ((x1 * y2 - y1 * x2) * (x3 - x4) - (x1 - x2) * (x3 * y4 - y3 * x4))
      / ((x1 - x2) * (y3 - y4) - (y1 - y2) * (x3 - x4)) := by
    rw [eq_div_iff hd]
    linear_combination (x3 - x4) * h1 - (x1 - x2) * h2
  have hy : q.y = ((x1 * y2 - y1 * x2) * (y3 - y4) - (y1 - y2) * (x3 * y4 - y3 * x4))
      / ((x1 - x2) * (y3 - y4) - (y1 - y2) * (x3 - x4)) := by
    rw [eq_div_iff hd]
    linear_combination (y3 - y4) * h1 - (y1 - y2) * h2
  cases q
  simp only [Vector2.mk.injEq]
  exact ⟨hx, hy⟩

theorem segment_bound (a b s EPSILON : ℚ) (hE : 0 ≤ EPSILON) (h0 : 0 ≤ s) (h1 : s ≤ 1) :
    (a + s * (b - a) - a) * (a + s * (b - a) - b) ≤ EPSILON := by
  have h : (a + s * (b - a) - a) * (a + s * (b - a) - b) = -(s * (1 - s) * ((b - a) * (b - a))) := by
    ring
  rw [h]
  have h2 : 0 ≤ s * (1 - s) * ((b - a) * (b - a)) :=
    mul_nonneg (mul_nonneg h0 (by linarith)) (mul_self_nonneg _)
  linarith

/-- C22: `lineIntersection` returns true, with `ret = r`, exactly when the determinant
`d` is not zero, the point `(x, y)` it computes satisfies the four bounds
`(x-x1)(x-x2) ≤ EPSILON`, `(x-x3)(x-x4) ≤ EPSILON`, `(y-y1)(y-y2) ≤ EPSILON`,
`(y-y3)(y-y4) ≤ EPSILON`, and `r` is that point; when `d` is not zero that point lies
on both lines and is their only common point; and, with `EPSILON ≥ 0`, two
non-parallel segments that meet at a point `p1 + s (p2 - p1) = p3 + u (p4 - p3)` with
`s` and `u` in `[0, 1]` are reported, with that point. -/
theorem lineIntersection_reports_iff (EPSILON x1 y1 x2 y2 x3 y3 x4 y4 : ℚ)
    (hE : 0 ≤ EPSILON) :
    (∀ r : Vector2, lineIntersection EPSILON x1 y1 x2 y2 x3 y3 x4 y4 = some r ↔
      lineDet x1 y1 x2 y2 x3 y3 x4 y4 ≠ 0 ∧
      ((lineCommonPoint x1 y1 x2 y2 x3 y3 x4 y4).x - x1)
        * ((lineCommonPoint x1 y1 x2 y2 x3 y3 x4 y4).x - x2) ≤ EPSILON ∧
      ((lineCommonPoint x1 y1 x2 y2 x3 y3 x4 y4).x - x3)
        * ((lineCommonPoint x1 y1 x2 y2 x3 y3 x4 y4).x - x4) ≤ EPSILON ∧
      ((lineCommonPoint x1 y1 x2 y2 x3 y3 x4 y4).y - y1)
        * ((lineCommonPoint x1 y1 x2 y2 x3 y3 x4 y4).y - y2) ≤ EPSILON ∧
      ((lineCommonPoint x1 y1 x2 y2 x3 y3 x4 y4).y - y3)
        * ((lineCommonPoint x1 y1 x2 y2 x3 y3 x4 y4).y - y4) ≤ EPSILON ∧
      r = lineCommonPoint x1 y1 x2 y2 x3 y3 x4 y4) ∧
    (lineDet x1 y1 x2 y2 x3 y3 x4 y4 ≠ 0 →
      OnLine x1 y1 x2 y2 (lineCommonPoint x1 y1 x2 y2 x3 y3 x4 y4) ∧
      OnLine x3 y3 x4 y4 (lineCommonPoint x1 y1 x2 y2 x3 y3 x4 y4) ∧
      ∀ q : Vector2, OnLine x1 y1 x2 y2 q → OnLine x3 y3 x4 y4 q →
        q = lineCommonPoint x1 y1 x2 y2 x3 y3 x4 y4) ∧
    (lineDet x1 y1 x2 y2 x3 y3 x4 y4 ≠ 0 → ∀ s u : ℚ, 0 ≤ s → s ≤ 1 → 0 ≤ u → u ≤ 1 →
      x1 + s * (x2 - x1) = x3 + u * (x4 - x3) → y1 + s * (y2 - y1) = y3 + u * (y4 - y3) →
      lineIntersection EPSILON x1 y1 x2 y2 x3 y3 x4 y4
        = some { x := x1 + s * (x2 - x1), y := y1 + s * (y2 - y1) }) := by
  refine ⟨fun r => lineIntersection_eq_some_iff EPSILON x1 y1 x2 y2 x3 y3 x4 y4 r, ?_, ?_⟩
  · intro hd
    obtain ⟨h1, h2⟩ := lineCommonPoint_onLine x1 y1 x2 y2 x3 y3 x4 y4 hd
    exact ⟨h1, h2, fun q hq1 hq2 => lineCommonPoint_unique x1 y1 x2 y2 x3 y3 x4 y4 q hd hq1 hq2⟩
  · intro hd s u hs0 hs1 hu0 hu1 hx hy
    have hq : ({ x := x1 + s * (x2 - x1), y := y1 + s * (y2 - y1) } : Vector2)
        = lineCommonPoint x1 y1 x2 y2 x3 y3 x4 y4 := by
      apply lineCommonPoint_unique x1 y1 x2 y2 x3 y3 x4 y4 _ hd
      · unfold OnLine
        simp only
        ring
      · unfold OnLine
        simp only
        rw [hx, hy]
        ring
    rw [lineIntersection_eq_some_iff, ← hq]
    simp only
    refine ⟨hd, segment_bound x1 x2 s EPSILON hE hs0 hs1, ?_,
      segment_bound y1 y2 s EPSILON hE hs0 hs1, ?_, trivial⟩
    · rw [hx]
      exact segment_bound x3 x4 u EPSILON hE hu0 hu1
    · rw [hy]
      exact segment_bound y3 y4 u EPSILON hE hu0 hu1

/-- The theorem of C22 for the diagonals of the square with corners `(0,0)` and
`(2,2)`, which meet at `(1,1)`. -/
theorem lineIntersection_reports_iff_witness :
    ((0 : ℚ) ≤ 1 / 100000) ∧
    lineDet 0 0 2 2 0 2 2 0 ≠ 0 ∧
    lineIntersection (1 / 100000) 0 0 2 2 0 2 2 0 = some ⟨1, 1⟩ ∧
    (lineDet 0 0 2 2 0 2 2 0 ≠ 0 → ∀ s u : ℚ, 0 ≤ s → s ≤ 1 → 0 ≤ u → u ≤ 1 →
      0 + s * (2 - 0) = 0 + u * (2 - 0) → 0 + s * (2 - 0) = 2 + u * (0 - 2) →
      lineIntersection (1 / 100000) 0 0 2 2 0 2 2 0
        = some { x := 0 + s * (2 - 0), y := 0 + s * (2 - 0) }) :=
  ⟨by norm_num, by decide!, by decide!,
    (lineIntersection_reports_iff (1 / 100000) 0 0 2 2 0 2 2 0 (by norm_num)).2.2⟩

/-! ### makeClockwise -/

theorem shoelaceLoop_eq :
    ∀ (l : List Vector2) (p : Vector2) (s : ℚ),
      shoelaceLoop p l s = s + pathShoelace (p :: l) := by
  intro l
  induction l with
  | nil => intro p s; simp [shoelaceLoop, pathShoelace]
  | cons e rest ih =>
    intro p s
    rw [shoelaceLoop, ih, pathShoelace]
    ring

theorem pathShoelace_concat :
    ∀ (X : List Vector2) (x y : Vector2),
      pathShoelace (X ++ [x, y]) = pathShoelace (X ++ [x]) + (x.x * y.y - y.x * x.y) := by
  intro X
  induction X with
  | nil => intro x y; simp [pathShoelace]
  | cons p ps ih =>
    intro x y
    cases ps with
    | nil => simp [pathShoelace]
    | cons q qs =>
      have := ih x y
      simp only [List.cons_append] at this ⊢
      rw [pathShoelace, this, pathShoelace]
      ring

theorem pathShoelace_reverse :
    ∀ l : List Vector2, pathShoelace l.reverse = -pathShoelace l := by
  intro l
  induction l with
  | nil => simp [pathShoelace]
  | cons x t ih =>
    cases t with
    | nil => simp [pathShoelace]
    | cons y r =>
      have e : (x :: y :: r).reverse = r.reverse ++ [y, x] := by simp
      have e2 : (y :: r).reverse = r.reverse ++ [y] := by simp
      rw [e, pathShoelace_concat, ← e2, ih, pathShoelace]
      ring

theorem shoelaceSum_reverse (polygon : List Vector2) :
    shoelaceSum polygon.reverse = -shoelaceSum polygon := by
  unfold shoelaceSum
  cases polygon with
  | nil => simp
  | cons h t =>
    have hl : (h :: t).reverse.getLast? = some h := by
      rw [List.getLast?_reverse]; rfl
    obtain ⟨last, hlast⟩ : ∃ last, (h :: t).getLast? = some last :=
      ⟨(h :: t).getLast (by simp), List.getLast?_eq_getLast _ _⟩
    have hrh : (h :: t).reverse.head? = some last := by
      rw [List.head?_reverse]; exact hlast
    rw [hl, hlast]
    simp only [shoelaceLoop_eq, zero_add]
    obtain ⟨r', hr'⟩ : ∃ r', (h :: t).reverse = last :: r' := by
      cases hrev : (h :: t).reverse with
      | nil => rw [hrev] at hrh; exact absurd hrh (by simp)
      | cons z r' =>
        rw [hrev] at hrh
        simp only [List.head?_cons, Option.some.injEq] at hrh
        exact ⟨r', by rw [hrh]⟩
    have h1 : pathShoelace (h :: (h :: t).reverse)
        = (h.x * last.y - last.x * h.y) + pathShoelace (h :: t).reverse := by
      rw [hr', pathShoelace]
    have h2 : pathShoelace (last :: h :: t)
        = (last.x * h.y - h.x * last.y) + pathShoelace (h :: t) := by
      rw [pathShoelace]
    rw [h1, h2, pathShoelace_reverse]
    ring

theorem isClockwise_iff (polygon : List Vector2) :
    isClockwise polygon = true ↔ shoelaceSum polygon < 0 := by
  unfold isClockwise shoelaceSum
  cases polygon.getLast? with
  | none => simp
  | some last => simp

/-- C24: after `makeClockwise`, a non-empty polygon whose shoelace sum is not zero is
clockwise (`isClockwise` is true, the shoelace sum negative); the vertex sequence is
unchanged when it was clockwise already and exactly reversed otherwise; a polygon of
length 0 is unchanged. -/
theorem makeClockwise_spec (polygon : List Vector2) :
    (polygon ≠ [] → shoelaceSum polygon ≠ 0 →
      isClockwise (makeClockwise polygon) = true ∧
      shoelaceSum (makeClockwise polygon) < 0) ∧
    (isClockwise polygon = true → makeClockwise polygon = polygon) ∧
    (polygon ≠ [] → isClockwise polygon = false →
      makeClockwise polygon = polygon.reverse) ∧
    (polygon.length = 0 → makeClockwise polygon = polygon) := by
  have hcw : isClockwise polygon = true → makeClockwise polygon = polygon :=
    makeClockwise_of_isClockwise polygon
  have hccw : polygon ≠ [] → isClockwise polygon = false →
      makeClockwise polygon = polygon.reverse := by
    intro hne h
    unfold makeClockwise
    rw [if_neg (by simpa using hne), h]
    simp [reverse_eq]
  refine ⟨?_, hcw, hccw, ?_⟩
  · intro hne hsum
    have hgoal : shoelaceSum (makeClockwise polygon) < 0 := by
      cases h : isClockwise polygon with
      | true =>
        rw [hcw h]
        exact (isClockwise_iff polygon).mp h
      | false =>
        rw [hccw hne h, shoelaceSum_reverse]
        have hnot : ¬ shoelaceSum polygon < 0 := by
          intro hlt
          rw [(isClockwise_iff polygon).mpr hlt] at h
          exact Bool.noConfusion h
        have : 0 < shoelaceSum polygon := lt_of_le_of_ne (not_lt.mp hnot) (Ne.symm hsum)
        linarith
    exact ⟨(isClockwise_iff _).mpr hgoal, hgoal⟩
  · intro h
    unfold makeClockwise
    rw [if_pos h]

/-- The theorem of C24 on the corners of the unit square listed counter-clockwise:
`makeClockwise` reverses them and the result is clockwise. -/
theorem makeClockwise_spec_witness :
    unitSquarePoints ≠ [] ∧ shoelaceSum unitSquarePoints ≠ 0 ∧
    isClockwise unitSquarePoints = false ∧
    makeClockwise unitSquarePoints = unitSquarePoints.reverse ∧
    isClockwise (makeClockwise unitSquarePoints) = true ∧
    shoelaceSum (makeClockwise unitSquarePoints) < 0 :=
  have h := makeClockwise_spec unitSquarePoints
  ⟨by decide, by decide!, by decide!, h.2.2.1 (by decide) (by decide!),
    h.1 (by decide) (by decide!)⟩

/-! ### The point cloud passed to hull -/

theorem projectOutline_length (light : Vector3) :
    ∀ (poly : List Vector3) (outline : List Vector2),
      projectOutline light poly = some outline → outline.length = poly.length := by
  intro poly
  induction poly with
  | nil =>
    intro outline h
    simp only [projectOutline, Option.some.injEq] at h
    subst h
    rfl
  | cons v rest ih =>
    intro outline h
    simp only [projectOutline] at h
    split at h
    · exact absurd h (by simp)
    · cases hr : projectOutline light rest with
      | none => rw [hr] at h; exact absurd h (by simp)
      | some more =>
        rw [hr] at h
        simp only [Option.some.injEq] at h
        rw [← h, List.length_cons, List.length_cons, ih more hr]

theorem umbraLoop_cloud (EPSILON : ℚ) (atan2 : ℚ → ℚ → ℚ) (poly : List Vector3) :
    ∀ (lights : List Vector3) (shadowRegion umbra sr um : List Vector2),
      umbraLoop EPSILON atan2 poly lights shadowRegion umbra
        = some (Projection.regions sr um) →
      ∃ k, k ≤ lights.length ∧ (lights ≠ [] → 1 ≤ k) ∧
        sr.length = shadowRegion.length + k * poly.length := by
  intro lights
  induction lights with
  | nil =>
    intro shadowRegion umbra sr um h
    simp only [umbraLoop, Option.some.injEq, Projection.regions.injEq] at h
    exact ⟨0, le_refl _, fun hne => absurd rfl hne, by rw [← h.1]; simp⟩
  | cons light lights ih =>
    intro shadowRegion umbra sr um h
    simp only [umbraLoop] at h
    cases hp : projectOutline light poly with
    | none =>
      rw [hp] at h
      exact absurd h (by simp)
    | some outline =>
      rw [hp] at h
      have hlen := projectOutline_length light poly outline hp
      have step : ∀ um2 : List Vector2,
          umbraLoop EPSILON atan2 poly lights (shadowRegion ++ outline) um2
            = some (Projection.regions sr um) →
          ∃ k, k ≤ (light :: lights).length ∧ ((light :: lights) ≠ [] → 1 ≤ k) ∧
            sr.length = shadowRegion.length + k * poly.length := by
        intro um2 hrun
        obtain ⟨k, hk1, -, hk3⟩ := ih (shadowRegion ++ outline) um2 sr um hrun
        refine ⟨k + 1, by simp only [List.length_cons]; omega, fun _ => by omega, ?_⟩
        rw [hk3, List.length_append, hlen]
        ring
      simp only at h
      split at h
      · exact step outline h
      · cases hr : intersection EPSILON atan2 outline umbra with
        | none =>
          rw [hr] at h
          exact absurd h (by simp)
        | some r =>
          rw [hr] at h
          simp only at h
          split at h
          · simp only [Option.some.injEq, Projection.regions.injEq] at h
            refine ⟨1, by simp, fun _ => le_refl _, ?_⟩
            rw [← h.1, List.length_append, hlen]
            ring
          · exact step r.poly2 h

/-- C27: `computeSpotShadow` has no guard on the number of points it passes to `hull`.
Whenever the loop over a non-empty light polygon ends with the point cloud
`shadowRegion` that is passed to `hull`, the cloud holds `k` times the caster's
length, `k` between 1 and the light polygon's length; so for a caster of at least 3
vertices the cloud has at least 3 points and `hull` returns, all its reads inside
the array. -/
theorem computeSpotShadow_cloud_size (EPSILON : ℚ) (atan2 : ℚ → ℚ → ℚ)
    (lightPoly poly : List Vector3) (hlight : lightPoly ≠ []) (hpoly : 3 ≤ poly.length)
    (shadowRegion umbra : List Vector2)
    (hrun : umbraLoop EPSILON atan2 poly lightPoly [] []
      = some (Projection.regions shadowRegion umbra)) :
    (∃ k, 1 ≤ k ∧ k ≤ lightPoly.length ∧ shadowRegion.length = k * poly.length) ∧
    3 ≤ shadowRegion.length ∧
    ∃ penumbra, hull EPSILON shadowRegion = some penumbra := by
  obtain ⟨k, hk1, hk2, hk3⟩ :=
    umbraLoop_cloud EPSILON atan2 poly lightPoly [] [] shadowRegion umbra hrun
  have hk2' := hk2 hlight
  simp only [List.length_nil, Nat.zero_add] at hk3
  have h3 : 3 ≤ shadowRegion.length := by
    rw [hk3]
    calc 3 ≤ poly.length := hpoly
      _ = 1 * poly.length := (Nat.one_mul _).symm
      _ ≤ k * poly.length := Nat.mul_le_mul_right _ hk2'
  obtain ⟨s, SU, SL, -, -, hh, -, -⟩ := hull_structure EPSILON shadowRegion (by omega)
  exact ⟨⟨k, hk2', hk1, hk3⟩, h3, _, hh⟩

/-- The theorem of C27 at `narrowLight` and `smallCaster`: the loop ends after both
light vertices with a cloud of 6 points and an umbra of 3 vertices. -/
theorem computeSpotShadow_cloud_size_witness :
    narrowLight ≠ [] ∧ 3 ≤ smallCaster.length ∧
    umbraLoop (1 / 100000) diamondAtan2 smallCaster narrowLight [] []
      = some (Projection.regions narrowOutlines [⟨-1 / 2, 1⟩, ⟨1, -2⟩, ⟨-2, -2⟩]) ∧
    (∃ k, 1 ≤ k ∧ k ≤ narrowLight.length ∧
      narrowOutlines.length = k * smallCaster.length) ∧
    3 ≤ narrowOutlines.length ∧
    ∃ penumbra, hull (1 / 100000) narrowOutlines = some penumbra :=
  ⟨by decide, by decide, by decide!,
    computeSpotShadow_cloud_size (1 / 100000) diamondAtan2 narrowLight smallCaster
      (by decide) (by decide) narrowOutlines [⟨-1 / 2, 1⟩, ⟨1, -2⟩, ⟨-2, -2⟩] (by decide!)⟩

/-- C27 fails as stated: the caster with the single vertex `(0,0,5)` under the light
polygon with the single vertex `(0,0,20)` passes the gate, the point cloud passed to
`hull` has 1 point, and `hull` reads `points[1]` outside it. -/
theorem computeSpotShadow_passes_one_point_to_hull :
    1 ≤ pointCaster.length ∧ 1 ≤ pointLight.length ∧
    inputPolyPositionValid pointLight pointCaster = some true ∧
    umbraLoop (1 / 100000) diamondAtan2 pointCaster pointLight [] []
      = some (Projection.regions [⟨0, 0⟩] [⟨0, 0⟩]) ∧
    ¬ 3 ≤ ([⟨0, 0⟩] : List Vector2).length ∧
    ([⟨0, 0⟩] : List Vector2)[1]? = none ∧
    hull (1 / 100000) [⟨0, 0⟩] = none := by
  refine ⟨by decide, by decide, by decide!, by decide!, by decide, rfl, by decide!⟩

/-! ### Neighbours in the output of intersection -/

theorem filterStep_writtenApart (EPSILON : ℚ) (center : Vector2) (cands out : List Vector2)
    (p : Vector2) (hp : p ∈ cands)
    (h : List.Chain' (flip (WrittenApart EPSILON center cands)) out) :
    List.Chain' (flip (WrittenApart EPSILON center cands)) (filterStep EPSILON center out p) := by
  cases out with
  | nil => simp [filterStep]
  | cons last below =>
    simp only [filterStep]
    split
    · rename_i hfar
      exact List.Chain'.cons ⟨p, hp, hfar, Or.inl rfl⟩ h
    · split
      · rename_i hcloser
        cases below with
        | nil => exact List.chain'_singleton p
        | cons u rest =>
          rw [List.chain'_cons] at h ⊢
          obtain ⟨⟨w, hw, hwu, hvw⟩, hrest⟩ := h
          refine ⟨⟨w, hw, hwu, Or.inr ?_⟩, hrest⟩
          rcases hvw with rfl | hlt
          · exact hcloser
          · exact lt_trans hcloser hlt
      · exact h

theorem filterStep_foldl_writtenApart (EPSILON : ℚ) (center : Vector2)
    (cands : List Vector2) :
    ∀ (rest out : List Vector2), (∀ p ∈ rest, p ∈ cands) →
      List.Chain' (flip (WrittenApart EPSILON center cands)) out →
      List.Chain' (flip (WrittenApart EPSILON center cands))
        (rest.foldl (filterStep EPSILON center) out) := by
  intro rest
  induction rest with
  | nil => intro out _ h; exact h
  | cons p ps ih =>
    intro out hmem h
    rw [List.foldl_cons]
    exact ih _ (fun q hq => hmem q (List.mem_cons_of_mem _ hq))
      (filterStep_writtenApart EPSILON center cands out p (hmem p (List.mem_cons_self _ _)) h)

theorem filterClose_writtenApart (EPSILON : ℚ) (center : Vector2) (cands sorted : List Vector2)
    (hmem : ∀ p ∈ sorted, p ∈ cands) :
    List.Chain' (WrittenApart EPSILON center cands) (filterClose EPSILON center sorted) := by
  cases sorted with
  | nil => simp [filterClose]
  | cons p0 rest =>
    unfold filterClose
    rw [List.chain'_reverse]
    exact filterStep_foldl_writtenApart EPSILON center cands rest [p0]
      (fun q hq => hmem q (List.mem_cons_of_mem _ hq)) (List.chain'_singleton p0)

/-- C26: whenever `intersection` takes the general path (neither polygon has all its
vertices inside the other) and returns, then for every two consecutive output vertices
`u`, `v` the filter loop first wrote after `u` a candidate `w` with squared distance
at least `EPSILON` from `u`; `v` is `w`, or a candidate closer to the centre that
replaced it. -/
theorem intersection_general_written_apart (EPSILON : ℚ) (atan2 : ℚ → ℚ → ℚ)
    (A B : List Vector2) (r : Intersected)
    (h1 : ¬ ∀ p ∈ A, testPointInsidePolygon p B = true)
    (h2 : ¬ ∀ p ∈ B, testPointInsidePolygon p A = true)
    (hr : intersection EPSILON atan2 A B = some r) :
    List.Chain' (WrittenApart EPSILON
      (centerOf (candidates EPSILON (makeClockwise A) (makeClockwise B)))
      (candidates EPSILON (makeClockwise A) (makeClockwise B))) r.poly2 := by
  rw [intersection_unfold EPSILON atan2 A B _ _ rfl rfl] at hr
  have c1 : ¬ ((makeClockwise A).filter
      (fun p => testPointInsidePolygon p (makeClockwise B))).length = (makeClockwise A).length := by
    intro h
    apply h1
    intro p hp
    have := List.filter_length_eq_length.mp h p ((mem_makeClockwise A p).mpr hp)
    rwa [testPointInsidePolygon_makeClockwise] at this
  have c2 : ¬ ((makeClockwise B).filter
      (fun p => testPointInsidePolygon p (makeClockwise A))).length = (makeClockwise B).length := by
    intro h
    apply h2
    intro p hp
    have := List.filter_length_eq_length.mp h p ((mem_makeClockwise B p).mpr hp)
    rwa [testPointInsidePolygon_makeClockwise] at this
  rw [if_neg c1, if_neg c2] at hr
  split at hr
  · exact absurd hr (by simp)
  · split at hr
    · simp only [Option.some.injEq] at hr
      rw [← hr]
      exact List.chain'_nil
    · rename_i hlen
      have hne : candidates EPSILON (makeClockwise A) (makeClockwise B) ≠ [] :=
        fun h => hlen (by rw [h]; rfl)
      obtain ⟨s, hs, hperm, -⟩ := sort_spec atan2 _
        (centerOf (candidates EPSILON (makeClockwise A) (makeClockwise B))) hne
      rw [hs] at hr
      simp only [Option.some.injEq] at hr
      rw [← hr]
      exact filterClose_writtenApart EPSILON _ _ s (fun p hp => hperm.mem_iff.mp hp)

/-- The theorem of C26 on the unit square and the unit square moved by `(1/2, 1/2)`,
where `intersection` returns the square with the corners `(1/2, 1/2)` and `(1, 1)`. -/
theorem intersection_general_written_apart_witness :
    (¬ ∀ p ∈ unitSquare, testPointInsidePolygon p offsetSquare = true) ∧
    (¬ ∀ p ∈ offsetSquare, testPointInsidePolygon p unitSquare = true) ∧
    intersection (1 / 100000) diamondAtan2 unitSquare offsetSquare
      = some { poly1 := unitSquare,
               poly2 := [⟨1 / 2, 1⟩, ⟨1, 1⟩, ⟨1, 1 / 2⟩, ⟨1 / 2, 1 / 2⟩] } ∧
    List.Chain' (WrittenApart (1 / 100000)
      (centerOf (candidates (1 / 100000) (makeClockwise unitSquare)
        (makeClockwise offsetSquare)))
      (candidates (1 / 100000) (makeClockwise unitSquare) (makeClockwise offsetSquare)))
      [⟨1 / 2, 1⟩, ⟨1, 1⟩, ⟨1, 1 / 2⟩, ⟨1 / 2, 1 / 2⟩] :=
  ⟨by decide!, by decide!, by decide!,
    intersection_general_written_apart (1 / 100000) diamondAtan2 unitSquare offsetSquare
      { poly1 := unitSquare, poly2 := [⟨1 / 2, 1⟩, ⟨1, 1⟩, ⟨1, 1 / 2⟩, ⟨1 / 2, 1 / 2⟩] }
      (by decide!) (by decide!) (by decide!)⟩

/-- C26 fails as stated: for `wedgeTriangle` and `sliverTriangle` neither polygon has
all its vertices inside the other, `intersection` returns the 3 vertices
`(1/5, 1/2000), (1, 3/2000), (1, -1/2000)`, and the squared distance of the last two
is `1/250000`, below `EPSILON = 1/100000`. -/
theorem intersection_leaves_close_neighbours :
    (¬ ∀ p ∈ wedgeTriangle, testPointInsidePolygon p sliverTriangle = true) ∧
    (¬ ∀ p ∈ sliverTriangle, testPointInsidePolygon p wedgeTriangle = true) ∧
    ∃ r, intersection (1 / 100000) diamondAtan2 wedgeTriangle sliverTriangle = some r ∧
      r.poly2 = [⟨1 / 5, 1 / 2000⟩, ⟨1, 3 / 2000⟩, ⟨1, -1 / 2000⟩] ∧
      2 ≤ r.poly2.length ∧
      distSquared ⟨1, 3 / 2000⟩ ⟨1, -1 / 2000⟩ < 1 / 100000 := by
  have h : intersection (1 / 100000) diamondAtan2 wedgeTriangle sliverTriangle
      = some { poly1 := [⟨0, -1003 / 6000⟩, ⟨0, 1003 / 2000⟩, ⟨1003 / 1000, 0⟩],
               poly2 := [⟨1 / 5, 1 / 2000⟩, ⟨1, 3 / 2000⟩, ⟨1, -1 / 2000⟩] } := by decide!
  exact ⟨by decide!, by decide!, _, h, rfl, by decide, by decide!⟩

/-! ### Capacity of the scratch array -/

/-- C28: for the convex triangles `tinyUpper` and `tinyLower` (both clockwise,
`n1 = n2 = 3`) `intersection` takes the general path: 2 of the 3 vertices of the
first are inside the second and 1 of the 3 vertices of the second inside the first;
every one of the 9 pairs of edges then adds a point, so the scratch array `poly`
receives 12 points, one more than its `n1 * n2 + 2 = 11` entries, and the write past
the end of the array is the `none` of the model. -/
theorem intersection_candidates_exceed_scratch :
    makeClockwise tinyUpper = tinyUpper ∧ makeClockwise tinyLower = tinyLower ∧
    (tinyUpper.filter (fun p => testPointInsidePolygon p tinyLower)).length = 2 ∧
    (tinyLower.filter (fun p => testPointInsidePolygon p tinyUpper)).length = 1 ∧
    (candidates (1 / 100000) tinyUpper tinyLower).length = 12 ∧
    tinyUpper.length * tinyLower.length + 2 = 11 ∧
    tinyUpper.length * tinyLower.length + 2
      < (candidates (1 / 100000) (makeClockwise tinyUpper) (makeClockwise tinyLower)).length ∧
    testConvex (1 / 100000) tinyUpper = true ∧ testConvex (1 / 100000) tinyLower = true ∧
    intersection (1 / 100000) diamondAtan2 tinyUpper tinyLower = none := by
  have h1 : makeClockwise tinyUpper = tinyUpper := by decide!
  have h2 : makeClockwise tinyLower = tinyLower := by decide!
  have h3 : (candidates (1 / 100000) tinyUpper tinyLower).length = 12 := by decide!
  refine ⟨h1, h2, by decide!, by decide!, h3, by decide, ?_, by decide!, by decide!,
    by decide!⟩
  rw [h1, h2, h3]
  decide

/-! ### The point-in-polygon test on convex polygons -/

theorem pathCrossings_all_false (tx ty : ℚ) :
    ∀ (l : List Vector2) (x : Vector2),
      (∀ e ∈ List.zip (x :: l) l, edgeCrosses tx ty e.1 e.2 = false) →
      pathCrossings tx ty (x :: l) = false := by
  intro l
  induction l with
  | nil => intro x _; rfl
  | cons y t ih =>
    intro x h
    rw [pathCrossings, h (x, y) (by simp), ih y (fun e he => h e (by
      simp only [List.zip_cons_cons, List.mem_cons]; exact Or.inr he))]
    rfl

theorem pathCrossings_straddle (tx ty : ℚ) :
    ∀ (l : List Vector2) (x last : Vector2),
      (∀ e ∈ List.zip (x :: l) l,
        edgeCrosses tx ty e.1 e.2 = (decide (e.2.y > ty) != decide (e.1.y > ty))) →
      (x :: l).getLast? = some last →
      pathCrossings tx ty (x :: l) = (decide (last.y > ty) != decide (x.y > ty)) := by
  intro l
  induction l with
  | nil =>
    intro x last _ hl
    simp only [List.getLast?_singleton, Option.some.injEq] at hl
    subst hl
    simp [pathCrossings]
  | cons y t ih =>
    intro x last h hl
    rw [List.getLast?_cons_cons] at hl
    rw [pathCrossings, h (x, y) (by simp), ih y last (fun e he => h e (by
      simp only [List.zip_cons_cons, List.mem_cons]; exact Or.inr he)) hl]
    cases decide (y.y > ty) <;> cases decide (x.y > ty) <;> cases decide (last.y > ty) <;> rfl

theorem edgeCrosses_eq (tx ty : ℚ) (a b : Vector2) :
    edgeCrosses tx ty a b =
      ((decide (b.y > ty) != decide (a.y > ty)) &&
        decide (tx < (a.x - b.x) * (ty - b.y) / (a.y - b.y) + b.x)) := rfl

theorem cross_on_segment (a b u w : Vector2) (τ : ℚ) :
    cross a b ⟨w.x + τ * (u.x - w.x), w.y + τ * (u.y - w.y)⟩
      = (1 - τ) * cross a b w + τ * cross a b u := by
  simp only [cross]
  ring

theorem straddle_param (ty : ℚ) (u w : Vector2)
    (hs : (decide (w.y > ty) != decide (u.y > ty)) = true) :
    u.y - w.y ≠ 0 ∧ 0 ≤ (ty - w.y) / (u.y - w.y) ∧ (ty - w.y) / (u.y - w.y) ≤ 1 := by
  by_cases hw : w.y > ty
  · by_cases hu : u.y > ty
    · simp [hw, hu] at hs
    · have hu' : u.y ≤ ty := not_lt.mp hu
      have hneg : u.y - w.y < 0 := by linarith
      refine ⟨ne_of_lt hneg, div_nonneg_of_nonpos (by linarith) hneg.le, ?_⟩
      rw [div_le_one_of_neg hneg]
      linarith
  · by_cases hu : u.y > ty
    · have hw' : w.y ≤ ty := not_lt.mp hw
      have hpos : 0 < u.y - w.y := by linarith
      refine ⟨ne_of_gt hpos, div_nonneg (by linarith) hpos.le, ?_⟩
      rw [div_le_one hpos]
      linarith
    · simp [hw, hu] at hs

theorem cross_at_crossing_nonneg (a b u w : Vector2) (ty : ℚ)
    (hs : (decide (w.y > ty) != decide (u.y > ty)) = true)
    (hu : 0 ≤ cross a b u) (hw : 0 ≤ cross a b w) :
    0 ≤ cross a b ⟨(u.x - w.x) * (ty - w.y) / (u.y - w.y) + w.x, ty⟩ := by
  obtain ⟨hne, h0, h1⟩ := straddle_param ty u w hs
  have hx : (u.x - w.x) * (ty - w.y) / (u.y - w.y) + w.x
      = w.x + (ty - w.y) / (u.y - w.y) * (u.x - w.x) := by ring
  have hy : ty = w.y + (ty - w.y) / (u.y - w.y) * (u.y - w.y) := by
    field_simp
  have h := cross_on_segment a b u w ((ty - w.y) / (u.y - w.y))
  rw [← hx, ← hy] at h
  rw [h]
  exact add_nonneg (mul_nonneg (by linarith) hw) (mul_nonneg h0 hu)

theorem cross_between (a b : Vector2) (x0 x1 t ty : ℚ) (h0 : 0 ≤ cross a b ⟨x0, ty⟩)
    (h1 : 0 ≤ cross a b ⟨x1, ty⟩) (hl : x0 ≤ t) (hr : t ≤ x1) :
    0 ≤ cross a b ⟨t, ty⟩ := by
  simp only [cross] at h0 h1 ⊢
  by_cases hs : 0 ≤ b.y - a.y
  · have := mul_le_mul_of_nonneg_left hr hs
    nlinarith
  · have hs' : b.y - a.y ≤ 0 := le_of_lt (not_le.mp hs)
    have := mul_le_mul_of_nonpos_left hl hs'
    nlinarith

theorem mem_of_mem_walked (poly : List Vector2) (last : Vector2)
    (hlast : poly.getLast? = some last) (e : Vector2 × Vector2)
    (he : e ∈ List.zip (last :: poly) poly) : e.1 ∈ poly ∧ e.2 ∈ poly := by
  have h := List.of_mem_zip he
  refine ⟨?_, h.2⟩
  rcases List.mem_cons.mp h.1 with h1 | h1
  · rw [h1]; exact List.mem_of_getLast?_eq_some hlast
  · exact h1

theorem testPointInsidePolygon_eq_path (p : Vector2) (poly : List Vector2) (last : Vector2)
    (hlast : poly.getLast? = some last) :
    testPointInsidePolygon p poly = pathCrossings p.x p.y (last :: poly) := by
  unfold testPointInsidePolygon
  rw [hlast]
  simp only [testPointInsideLoop_eq, Bool.false_xor]

theorem closed_path_last (poly : List Vector2) (last : Vector2)
    (hlast : poly.getLast? = some last) : (last :: poly).getLast? = some last := by
  cases poly with
  | nil => simp at hlast
  | cons y t => rw [List.getLast?_cons_cons]; exact hlast

theorem testPointInsidePolygon_of_outside (poly : List Vector2) (p : Vector2)
    (h : StrictlyOutside poly p) : testPointInsidePolygon p poly = false := by
  obtain ⟨a, b, hQ, hp⟩ := h
  cases hl : poly.getLast? with
  | none => unfold testPointInsidePolygon; rw [hl]
  | some last =>
    rw [testPointInsidePolygon_eq_path p poly last hl]
    have hX : ∀ e ∈ List.zip (last :: poly) poly,
        (decide (e.2.y > p.y) != decide (e.1.y > p.y)) = true →
        0 ≤ cross a b ⟨(e.1.x - e.2.x) * (p.y - e.2.y) / (e.1.y - e.2.y) + e.2.x, p.y⟩ := by
      intro e he hs
      obtain ⟨h1, h2⟩ := mem_of_mem_walked poly last hl e he
      exact cross_at_crossing_nonneg a b e.1 e.2 p.y hs (hQ _ h1) (hQ _ h2)
    by_cases hex : ∃ e ∈ List.zip (last :: poly) poly, edgeCrosses p.x p.y e.1 e.2 = true
    · obtain ⟨e0, he0, hc0⟩ := hex
      rw [edgeCrosses_eq, Bool.and_eq_true] at hc0
      have hlt0 := of_decide_eq_true hc0.2
      have hall : ∀ e ∈ List.zip (last :: poly) poly,
          edgeCrosses p.x p.y e.1 e.2 = (decide (e.2.y > p.y) != decide (e.1.y > p.y)) := by
        intro e he
        rw [edgeCrosses_eq]
        cases hs : (decide (e.2.y > p.y) != decide (e.1.y > p.y)) with
        | false => rfl
        | true =>
          by_cases hlt : p.x < (e.1.x - e.2.x) * (p.y - e.2.y) / (e.1.y - e.2.y) + e.2.x
          · simp [hlt]
          · exfalso
            have := cross_between a b _ _ p.x p.y (hX e he hs) (hX e0 he0 hc0.1)
              (not_lt.mp hlt) hlt0.le
            exact absurd hp (not_lt.mpr this)
      rw [pathCrossings_straddle p.x p.y poly last last hall (closed_path_last poly last hl)]
      simp
    · push_neg at hex
      exact pathCrossings_all_false p.x p.y poly last
        (fun e he => by
          have := hex e he
          simpa using this)

theorem cross_rotate (a b p : Vector2) : cross p a b = cross a b p := by
  simp only [cross]
  ring

theorem cross_eq_crossing (a b : Vector2) (tx ty : ℚ) (h : a.y - b.y ≠ 0) :
    cross a b ⟨tx, ty⟩
      = (b.y - a.y) * ((a.x - b.x) * (ty - b.y) / (a.y - b.y) + b.x - tx) := by
  simp only [cross]
  field_simp
  ring

theorem edgeCrosses_of_left (a b p : Vector2) (h : 0 < cross a b p) :
    edgeCrosses p.x p.y a b = decide (a.y ≤ p.y ∧ p.y < b.y) := by
  rw [edgeCrosses_eq]
  by_cases hb : b.y > p.y
  · by_cases ha : a.y > p.y
    · have : ¬ (a.y ≤ p.y ∧ p.y < b.y) := fun hh => absurd ha (not_lt.mpr hh.1)
      simp [hb, ha]
    · have ha' : a.y ≤ p.y := not_lt.mp ha
      have hne : a.y - b.y ≠ 0 := by
        intro e
        linarith
      have hc := cross_eq_crossing a b p.x p.y hne
      have hpos : 0 < b.y - a.y := by linarith
      have hX : 0 < (a.x - b.x) * (p.y - b.y) / (a.y - b.y) + b.x - p.x := by
        have h' : 0 < (b.y - a.y) * ((a.x - b.x) * (p.y - b.y) / (a.y - b.y) + b.x - p.x) := by
          rw [← hc]; exact h
        exact (pos_iff_pos_of_mul_pos h').mp hpos
      have hlt : p.x < (a.x - b.x) * (p.y - b.y) / (a.y - b.y) + b.x := by linarith
      simp [hb, ha, ha', hlt]
  · have hb' : b.y ≤ p.y := not_lt.mp hb
    have hup : ¬ (a.y ≤ p.y ∧ p.y < b.y) := fun hh => hb hh.2
    by_cases ha : a.y > p.y
    · have hne : a.y - b.y ≠ 0 := by
        intro e
        linarith
      have hc := cross_eq_crossing a b p.x p.y hne
      have hneg : b.y - a.y < 0 := by linarith
      have hX : (a.x - b.x) * (p.y - b.y) / (a.y - b.y) + b.x - p.x < 0 := by
        have h' : 0 < (b.y - a.y) * ((a.x - b.x) * (p.y - b.y) / (a.y - b.y) + b.x - p.x) := by
          rw [← hc]; exact h
        by_contra hn
        have := mul_nonpos_of_nonpos_of_nonneg hneg.le (not_lt.mp hn)
        linarith
      have hlt : ¬ p.x < (a.x - b.x) * (p.y - b.y) / (a.y - b.y) + b.x := by
        intro hh
        linarith
      simp [hb, ha, hlt]
    · simp [hb, ha]

theorem nodup_zip_right {α β : Type} :
    ∀ (l₁ : List α) (l₂ : List β), l₂.Nodup → (List.zip l₁ l₂).Nodup := by
  intro l₁
  induction l₁ with
  | nil => intro l₂ _; simp
  | cons a t ih =>
    intro l₂ h
    cases l₂ with
    | nil => simp
    | cons b s =>
      rw [List.zip_cons_cons, List.nodup_cons]
      rw [List.nodup_cons] at h
      exact ⟨fun hm => h.1 (List.of_mem_zip hm).2, ih s h.2⟩

theorem pathCrossings_unique (tx ty : ℚ) :
    ∀ (l : List Vector2) (x : Vector2), (List.zip (x :: l) l).Nodup →
      (∃ e ∈ List.zip (x :: l) l, edgeCrosses tx ty e.1 e.2 = true) →
      (∀ e ∈ List.zip (x :: l) l, ∀ e' ∈ List.zip (x :: l) l,
        edgeCrosses tx ty e.1 e.2 = true → edgeCrosses tx ty e'.1 e'.2 = true → e = e') →
      pathCrossings tx ty (x :: l) = true := by
  intro l
  induction l with
  | nil => intro x _ h _; simp at h
  | cons y t ih =>
    intro x hnd hex huniq
    rw [List.zip_cons_cons, List.nodup_cons] at hnd
    rw [pathCrossings]
    cases hxy : edgeCrosses tx ty x y with
    | true =>
      have hfalse : ∀ e ∈ List.zip (y :: t) t, edgeCrosses tx ty e.1 e.2 = false := by
        intro e he
        cases hc : edgeCrosses tx ty e.1 e.2 with
        | false => rfl
        | true =>
          have := huniq (x, y) (by simp) e (by
            simp only [List.zip_cons_cons, List.mem_cons]; exact Or.inr he) hxy hc
          rw [← this] at he
          exact absurd he hnd.1
      rw [pathCrossings_all_false tx ty t y hfalse]
      rfl
    | false =>
      have hex' : ∃ e ∈ List.zip (y :: t) t, edgeCrosses tx ty e.1 e.2 = true := by
        obtain ⟨e, he, hc⟩ := hex
        simp only [List.zip_cons_cons, List.mem_cons] at he
        rcases he with rfl | he
        · rw [hxy] at hc
          exact Bool.noConfusion hc
        · exact ⟨e, he, hc⟩
      rw [ih y hnd.2 hex' (fun e he e' he' => huniq e (by
          simp only [List.zip_cons_cons, List.mem_cons]; exact Or.inr he) e' (by
          simp only [List.zip_cons_cons, List.mem_cons]; exact Or.inr he'))]
      rfl

theorem exists_vertex_above_below (poly : List Vector2) (last : Vector2)
    (hlast : poly.getLast? = some last) (p : Vector2)
    (hside : (∀ e ∈ List.zip (last :: poly) poly, 0 < cross p e.1 e.2) ∨
      (∀ e ∈ List.zip (last :: poly) poly, cross p e.1 e.2 < 0)) :
    (∃ v ∈ poly, p.y < v.y) ∧ (∃ v ∈ poly, v.y < p.y) := by
  constructor
  · obtain ⟨e, he, hq⟩ := exists_qualifying_edge p 0 1 last poly hlast (Or.inr one_ne_zero) hside
    obtain ⟨h1, h2⟩ := mem_of_mem_walked poly last hlast e he
    have hp := (edge_hit_point p.x p.y 0 1 e.1 e.2 hq.1).2
    obtain ⟨-, ⟨ht0, ht1⟩, ht2⟩ := hq
    by_contra hno
    push_neg at hno
    have ha := hno e.1 h1
    have hb := hno e.2 h2
    have k1 := mul_nonneg (sub_nonneg.mpr ht1) (sub_nonneg.mpr ha)
    have k2 := mul_nonneg ht0 (sub_nonneg.mpr hb)
    nlinarith
  · obtain ⟨e, he, hq⟩ := exists_qualifying_edge p 0 (-1) last poly hlast
      (Or.inr (by norm_num)) hside
    obtain ⟨h1, h2⟩ := mem_of_mem_walked poly last hlast e he
    have hp := (edge_hit_point p.x p.y 0 (-1) e.1 e.2 hq.1).2
    obtain ⟨-, ⟨ht0, ht1⟩, ht2⟩ := hq
    by_contra hno
    push_neg at hno
    have ha := hno e.1 h1
    have hb := hno e.2 h2
    have k1 := mul_nonneg (sub_nonneg.mpr ht1) (sub_nonneg.mpr ha)
    have k2 := mul_nonneg ht0 (sub_nonneg.mpr hb)
    nlinarith

theorem exists_up_edge (poly : List Vector2) (last : Vector2)
    (hlast : poly.getLast? = some last) (ty : ℚ)
    (h1 : ∃ v ∈ poly, ty < v.y) (h2 : ∃ v ∈ poly, v.y ≤ ty) :
    ∃ e ∈ List.zip (last :: poly) poly, e.1.y ≤ ty ∧ ty < e.2.y := by
  obtain ⟨e, he, hf1, hf2⟩ := exists_transition (fun v => if ty < v.y then -1 else 1) last poly
    hlast
    (by
      obtain ⟨v, hv, hvy⟩ := h2
      exact ⟨v, hv, by simp only [if_neg (not_lt.mpr hvy)]; norm_num⟩)
    (by
      obtain ⟨v, hv, hvy⟩ := h1
      exact ⟨v, hv, by simp only [if_pos hvy]; norm_num⟩)
  refine ⟨e, he, ?_, ?_⟩
  · by_contra hn
    simp only [if_pos (not_le.mp hn)] at hf1
    norm_num at hf1
  · by_contra hn
    simp only [if_neg hn] at hf2
    norm_num at hf2

theorem exists_down_edge (poly : List Vector2) (last : Vector2)
    (hlast : poly.getLast? = some last) (ty : ℚ)
    (h1 : ∃ v ∈ poly, ty < v.y) (h2 : ∃ v ∈ poly, v.y ≤ ty) :
    ∃ e ∈ List.zip (last :: poly) poly, e.2.y ≤ ty ∧ ty < e.1.y := by
  obtain ⟨e, he, hf1, hf2⟩ := exists_transition (fun v => if ty < v.y then 1 else -1) last poly
    hlast
    (by
      obtain ⟨v, hv, hvy⟩ := h1
      exact ⟨v, hv, by simp only [if_pos hvy]; norm_num⟩)
    (by
      obtain ⟨v, hv, hvy⟩ := h2
      exact ⟨v, hv, by simp only [if_neg (not_lt.mpr hvy)]; norm_num⟩)
  refine ⟨e, he, ?_, ?_⟩
  · by_contra hn
    simp only [if_pos (not_le.mp hn)] at hf2
    norm_num at hf2
  · by_contra hn
    simp only [if_neg hn] at hf1
    norm_num at hf1

theorem up_edge_unique (poly : List Vector2) (a b c d : Vector2) (ty : ℚ)
    (ha : a.y ≤ ty) (hb : ty < b.y) (hc : c.y ≤ ty) (hd : ty < d.y)
    (hap : a ∈ poly) (hbp : b ∈ poly) (hcp : c ∈ poly) (hdp : d ∈ poly)
    (hab : ∀ v ∈ poly, v ≠ a → v ≠ b → 0 < cross a b v)
    (hcd : ∀ v ∈ poly, v ≠ c → v ≠ d → 0 < cross c d v) : (a, b) = (c, d) := by
  have wab : ∀ v ∈ poly, 0 ≤ cross a b v := by
    intro v hv
    by_cases h1 : v = a
    · rw [h1]; simp [cross]
    · by_cases h2 : v = b
      · rw [h2]; simp only [cross]; ring_nf; exact le_refl _
      · exact (hab v hv h1 h2).le
  have wcd : ∀ v ∈ poly, 0 ≤ cross c d v := by
    intro v hv
    by_cases h1 : v = c
    · rw [h1]; simp [cross]
    · by_cases h2 : v = d
      · rw [h2]; simp only [cross]; ring_nf; exact le_refl _
      · exact (hcd v hv h1 h2).le
  have hda : d ≠ a := fun e => by rw [e] at hd; linarith
  have hcb : c ≠ b := fun e => by rw [e] at hc; linarith
  have hbc : b ≠ c := fun e => hcb e.symm
  by_cases hca : c = a
  · by_cases hdb : d = b
    · rw [hca, hdb]
    · exfalso
      have k1 := hab d hdp hda hdb
      have k2 := hcd b hbp hbc (fun e => hdb e.symm)
      rw [hca] at k2
      have : cross a d b = -cross a b d := by simp only [cross]; ring
      linarith
  · exfalso
    have k1 := hab c hcp hca hcb
    have k2 := wab d hdp
    have k3 := wcd a hap
    have k4 := wcd b hbp
    have hid : (d.y - ty) * cross a b c + (ty - c.y) * cross a b d
        + (b.y - ty) * cross c d a + (ty - a.y) * cross c d b = 0 := by
      simp only [cross]
      ring
    have p1 := mul_pos (sub_pos.mpr hd) k1
    have p2 := mul_nonneg (sub_nonneg.mpr hc) k2
    have p3 := mul_nonneg (sub_pos.mpr hb).le k3
    have p4 := mul_nonneg (sub_nonneg.mpr ha) k4
    linarith

theorem zip_fst_mem_dropLast :
    ∀ (l : List Vector2) (x : Vector2) (e : Vector2 × Vector2),
      e ∈ List.zip (x :: l) l → e.1 ∈ (x :: l).dropLast := by
  intro l
  induction l with
  | nil => intro x e he; simp at he
  | cons y t ih =>
    intro x e he
    rw [List.zip_cons_cons, List.mem_cons] at he
    rw [List.dropLast_cons₂]
    rcases he with rfl | he
    · exact List.mem_cons_self _ _
    · exact List.mem_cons_of_mem _ (ih y e he)

theorem vertex_starts_edge :
    ∀ (l : List Vector2) (x v : Vector2), v ∈ (x :: l).dropLast →
      ∃ w, (v, w) ∈ List.zip (x :: l) l := by
  intro l
  induction l with
  | nil => intro x v hv; simp at hv
  | cons y t ih =>
    intro x v hv
    rw [List.dropLast_cons₂, List.mem_cons] at hv
    rcases hv with rfl | hv
    · exact ⟨y, by simp⟩
    · obtain ⟨w, hw⟩ := ih y v hv
      exact ⟨w, by rw [List.zip_cons_cons]; exact List.mem_cons_of_mem _ hw⟩

theorem pred_unique :
    ∀ (l : List Vector2) (x a v b : Vector2), l.Nodup →
      (a, b) ∈ List.zip (x :: l) l → (v, b) ∈ List.zip (x :: l) l → a = v := by
  intro l
  induction l with
  | nil => intro x a v b _ h; simp at h
  | cons y t ih =>
    intro x a v b hnd h1 h2
    rw [List.zip_cons_cons, List.mem_cons] at h1 h2
    rw [List.nodup_cons] at hnd
    rcases h1 with h1 | h1
    · rcases h2 with h2 | h2
      · rw [Prod.mk.injEq] at h1 h2
        rw [h1.1, h2.1]
      · rw [Prod.mk.injEq] at h1
        have := (List.of_mem_zip h2).2
        rw [h1.2] at this
        exact absurd this hnd.1
    · rcases h2 with h2 | h2
      · rw [Prod.mk.injEq] at h2
        have := (List.of_mem_zip h1).2
        rw [h2.2] at this
        exact absurd this hnd.1
      · exact ih y a v b hnd.2 h1 h2

theorem succ_unique :
    ∀ (l : List Vector2) (x a b d : Vector2), (x :: l).dropLast.Nodup →
      (a, b) ∈ List.zip (x :: l) l → (a, d) ∈ List.zip (x :: l) l → b = d := by
  intro l
  induction l with
  | nil => intro x a b d _ h; simp at h
  | cons y t ih =>
    intro x a b d hnd h1 h2
    rw [List.zip_cons_cons, List.mem_cons] at h1 h2
    rw [List.dropLast_cons₂, List.nodup_cons] at hnd
    rcases h1 with h1 | h1
    · rcases h2 with h2 | h2
      · rw [Prod.mk.injEq] at h1 h2
        rw [h1.2, h2.2]
      · rw [Prod.mk.injEq] at h1
        have := zip_fst_mem_dropLast t y (a, d) h2
        simp only at this
        rw [h1.1] at this
        exact absurd this hnd.1
    · rcases h2 with h2 | h2
      · rw [Prod.mk.injEq] at h2
        have := zip_fst_mem_dropLast t y (a, b) h1
        simp only at this
        rw [h2.1] at this
        exact absurd this hnd.1
      · exact ih y a b d hnd.2 h1 h2

theorem closed_path_dropLast (poly : List Vector2) (last : Vector2)
    (hlast : poly.getLast? = some last) :
    (last :: poly).dropLast = last :: poly.dropLast ∧ poly = poly.dropLast ++ [last] := by
  have h2 : poly = poly.dropLast ++ [last] := (List.dropLast_append_getLast? last hlast).symm
  refine ⟨?_, h2⟩
  cases poly with
  | nil => simp at hlast
  | cons y t => rw [List.dropLast_cons₂]

theorem closed_path_dropLast_nodup (poly : List Vector2) (last : Vector2)
    (hlast : poly.getLast? = some last) (hnd : poly.Nodup) :
    (last :: poly).dropLast.Nodup := by
  obtain ⟨h1, h2⟩ := closed_path_dropLast poly last hlast
  rw [h1]
  have hp : (last :: poly.dropLast).Perm poly := by
    conv_rhs => rw [h2]
    exact (List.perm_append_singleton last poly.dropLast).symm
  exact hp.nodup_iff.mpr hnd

theorem mem_closed_path_dropLast (poly : List Vector2) (last : Vector2)
    (hlast : poly.getLast? = some last) (v : Vector2) (hv : v ∈ poly) :
    v ∈ (last :: poly).dropLast := by
  obtain ⟨h1, h2⟩ := closed_path_dropLast poly last hlast
  rw [h1]
  rw [h2] at hv
  rcases List.mem_append.mp hv with h | h
  · exact List.mem_cons_of_mem _ h
  · rw [List.mem_singleton.mp h]
    exact List.mem_cons_self _ _

theorem filter_length_le_of_imp {α : Type} (p q : α → Bool) :
    ∀ l : List α, (∀ x ∈ l, p x = true → q x = true) →
      (l.filter p).length ≤ (l.filter q).length := by
  intro l
  induction l with
  | nil => intro _; simp
  | cons a t ih =>
    intro h
    have ht := ih (fun x hx => h x (List.mem_cons_of_mem _ hx))
    have ha := h a (List.mem_cons_self _ _)
    cases hp : p a with
    | false =>
      cases hq : q a with
      | false => simp only [List.filter_cons, hp, hq]; exact ht
      | true => simp only [List.filter_cons, hp, hq, List.length_cons]; simp; omega
    | true =>
      simp only [List.filter_cons, hp, ha hp, List.length_cons]
      simp
      exact ht

theorem filter_length_lt_of_imp {α : Type} (p q : α → Bool) :
    ∀ l : List α, (∀ x ∈ l, p x = true → q x = true) →
      (∃ x ∈ l, q x = true ∧ p x = false) →
      (l.filter p).length < (l.filter q).length := by
  intro l
  induction l with
  | nil => intro _ h; simp at h
  | cons a t ih =>
    intro h hex
    have hle := filter_length_le_of_imp p q t (fun x hx => h x (List.mem_cons_of_mem _ hx))
    have ha := h a (List.mem_cons_self _ _)
    cases hp : p a with
    | false =>
      cases hq : q a with
      | false =>
        simp only [List.filter_cons, hp, hq]
        simp
        apply ih (fun x hx => h x (List.mem_cons_of_mem _ hx))
        obtain ⟨x, hx, hqx, hpx⟩ := hex
        rcases List.mem_cons.mp hx with rfl | hx
        · rw [hq] at hqx; exact Bool.noConfusion hqx
        · exact ⟨x, hx, hqx, hpx⟩
      | true =>
        simp only [List.filter_cons, hp, hq, List.length_cons]
        simp
        omega
    | true =>
      simp only [List.filter_cons, hp, ha hp, List.length_cons]
      simp
      apply ih (fun x hx => h x (List.mem_cons_of_mem _ hx))
      obtain ⟨x, hx, hqx, hpx⟩ := hex
      rcases List.mem_cons.mp hx with rfl | hx
      · rw [hp] at hpx; exact Bool.noConfusion hpx
      · exact ⟨x, hx, hqx, hpx⟩

theorem collinear_step_a (a b v w : Vector2) :
    (b.y - v.y) * cross v w a + (v.y - a.y) * cross v w b = -(w.y - v.y) * cross a b v := by
  simp only [cross]
  ring

theorem collinear_step_b (a b v w : Vector2) :
    cross a b w = cross a b v - (cross v w b - cross v w a) := by
  simp only [cross]
  ring

theorem collinear_step_c (a b v w p : Vector2) :
    (b.y - a.y) * cross v w p = (w.y - v.y) * (cross a b p - cross a b v)
      + (p.y - v.y) * (cross v w b - cross v w a) := by
  simp only [cross]
  ring

theorem eq_of_collinear_same_height (a b w : Vector2) (hab : a.y < b.y)
    (hw : cross a b w = 0) (hy : w.y = b.y) : w = b := by
  have hx : w.x = b.x := by
    simp only [cross] at hw
    rw [hy] at hw
    have h : (b.y - a.y) * (b.x - w.x) = 0 := by linarith
    rcases mul_eq_zero.mp h with h | h
    · linarith
    · linarith
  cases w
  cases b
  simp only [Vector2.mk.injEq]
  exact ⟨hx, hy⟩

theorem no_vertex_inside_edge (poly : List Vector2) (last : Vector2)
    (hlast : poly.getLast? = some last) (p : Vector2) (hnd : poly.Nodup)
    (hin : ∀ e ∈ List.zip (last :: poly) poly, 0 < cross e.1 e.2 p)
    (hconv : ∀ e ∈ List.zip (last :: poly) poly, ∀ v ∈ poly, 0 ≤ cross e.1 e.2 v) :
    ∀ (m : Nat) (e : Vector2 × Vector2), e ∈ List.zip (last :: poly) poly →
      ∀ c ∈ poly, (poly.filter (fun v => decide (e.2.y < v.y))).length = m →
        cross e.1 e.2 c = 0 → e.1.y < c.y → c.y < e.2.y → False := by
  intro m
  induction m using Nat.strong_induction_on with
  | _ m ih =>
    intro e he c hc hm hcol hac hcb
    obtain ⟨hap, hbp⟩ := mem_of_mem_walked poly last hlast e he
    have hcT : c ∈ poly.filter
        (fun v => decide (cross e.1 e.2 v = 0 ∧ c.y ≤ v.y ∧ v.y < e.2.y)) := by
      rw [List.mem_filter]
      exact ⟨hc, decide_eq_true ⟨hcol, le_refl _, hcb⟩⟩
    obtain ⟨v, hvT, hmax⟩ := exists_top_vertex _ (List.ne_nil_of_mem hcT)
    rw [List.mem_filter] at hvT
    obtain ⟨hvp, hvd⟩ := hvT
    obtain ⟨hvcol, hcv, hvb⟩ := of_decide_eq_true hvd
    have hav : e.1.y < v.y := lt_of_lt_of_le hac hcv
    obtain ⟨w, hw⟩ := vertex_starts_edge poly last v
      (mem_closed_path_dropLast poly last hlast v hvp)
    obtain ⟨-, hwp⟩ := mem_of_mem_walked poly last hlast (v, w) hw
    have k1 : 0 ≤ cross v w e.1 := hconv (v, w) hw e.1 hap
    have k2 : 0 ≤ cross v w e.2 := hconv (v, w) hw e.2 hbp
    have i1 := collinear_step_a e.1 e.2 v w
    rw [hvcol, mul_zero] at i1
    have m1 := mul_nonneg (sub_pos.mpr hvb).le k1
    have m2 := mul_nonneg (sub_pos.mpr hav).le k2
    have z1 : (e.2.y - v.y) * cross v w e.1 = 0 := by linarith
    have z2 : (v.y - e.1.y) * cross v w e.2 = 0 := by linarith
    have c1 : cross v w e.1 = 0 :=
      (mul_eq_zero.mp z1).resolve_left (ne_of_gt (sub_pos.mpr hvb))
    have c2 : cross v w e.2 = 0 :=
      (mul_eq_zero.mp z2).resolve_left (ne_of_gt (sub_pos.mpr hav))
    have hwcol : cross e.1 e.2 w = 0 := by
      rw [collinear_step_b e.1 e.2 v w, hvcol, c1, c2]
      ring
    have i3 := collinear_step_c e.1 e.2 v w p
    rw [hvcol, c1, c2] at i3
    have hvw : v.y < w.y := by
      have hp1 : 0 < (e.2.y - e.1.y) * cross v w p :=
        mul_pos (by linarith) (hin (v, w) hw)
      have hp2 : 0 < (w.y - v.y) * cross e.1 e.2 p := by
        have : (w.y - v.y) * cross e.1 e.2 p = (e.2.y - e.1.y) * cross v w p := by
          rw [i3]; ring
        rw [this]; exact hp1
      have := (pos_iff_pos_of_mul_pos hp2).mpr (hin e he)
      linarith
    have hbw : e.2.y ≤ w.y := by
      by_contra hn
      have hwT : w ∈ poly.filter
          (fun v => decide (cross e.1 e.2 v = 0 ∧ c.y ≤ v.y ∧ v.y < e.2.y)) := by
        rw [List.mem_filter]
        exact ⟨hwp, decide_eq_true ⟨hwcol, by linarith, not_le.mp hn⟩⟩
      have := hmax w hwT
      linarith
    rcases lt_or_eq_of_le hbw with hlt | heq
    · have hlen : (poly.filter (fun u => decide (w.y < u.y))).length < m := by
        rw [← hm]
        apply filter_length_lt_of_imp
        · intro x _ hx
          have := of_decide_eq_true hx
          exact decide_eq_true (by linarith)
        · exact ⟨w, hwp, decide_eq_true hlt, decide_eq_false (lt_irrefl _)⟩
      exact ih _ hlen (v, w) hw e.2 hbp rfl c2 hvb hlt
    · have hwb : w = e.2 :=
        eq_of_collinear_same_height e.1 e.2 w (by linarith) hwcol heq.symm
      rw [hwb] at hw
      have hav2 : e.1 = v := pred_unique poly last e.1 v e.2 hnd he hw
      rw [hav2] at hav
      exact lt_irrefl _ hav

theorem eq_of_collinear_at_start (a b c : Vector2) (hab : a.y < b.y)
    (hc : cross a b c = 0) (hy : c.y = a.y) : c = a := by
  have hx : c.x = a.x := by
    simp only [cross] at hc
    rw [hy] at hc
    have h : (b.y - a.y) * (c.x - a.x) = 0 := by linarith
    rcases mul_eq_zero.mp h with h | h
    · linarith
    · linarith
  cases c
  cases a
  simp only [Vector2.mk.injEq]
  exact ⟨hx, hy⟩

theorem up_edge_unique_weak (poly : List Vector2) (last : Vector2)
    (hlast : poly.getLast? = some last) (p : Vector2) (hnd : poly.Nodup)
    (hin : ∀ e ∈ List.zip (last :: poly) poly, 0 < cross e.1 e.2 p)
    (hconv : ∀ e ∈ List.zip (last :: poly) poly, ∀ v ∈ poly, 0 ≤ cross e.1 e.2 v)
    (ty : ℚ) (e e' : Vector2 × Vector2)
    (he : e ∈ List.zip (last :: poly) poly) (he' : e' ∈ List.zip (last :: poly) poly)
    (ha : e.1.y ≤ ty) (hb : ty < e.2.y) (hc : e'.1.y ≤ ty) (hd : ty < e'.2.y) : e = e' := by
  obtain ⟨hap, hbp⟩ := mem_of_mem_walked poly last hlast e he
  obtain ⟨hcp, hdp⟩ := mem_of_mem_walked poly last hlast e' he'
  have k1 := hconv e he e'.1 hcp
  have k2 := hconv e he e'.2 hdp
  have k3 := hconv e' he' e.1 hap
  have k4 := hconv e' he' e.2 hbp
  have hid : (e'.2.y - ty) * cross e.1 e.2 e'.1 + (ty - e'.1.y) * cross e.1 e.2 e'.2
      + (e.2.y - ty) * cross e'.1 e'.2 e.1 + (ty - e.1.y) * cross e'.1 e'.2 e.2 = 0 := by
    simp only [cross]
    ring
  have p1 := mul_nonneg (sub_pos.mpr hd).le k1
  have p2 := mul_nonneg (sub_nonneg.mpr hc) k2
  have p3 := mul_nonneg (sub_pos.mpr hb).le k3
  have p4 := mul_nonneg (sub_nonneg.mpr ha) k4
  have z1 : (e'.2.y - ty) * cross e.1 e.2 e'.1 = 0 := by linarith
  have z3 : (e.2.y - ty) * cross e'.1 e'.2 e.1 = 0 := by linarith
  have c1 : cross e.1 e.2 e'.1 = 0 :=
    (mul_eq_zero.mp z1).resolve_left (ne_of_gt (sub_pos.mpr hd))
  have c3 : cross e'.1 e'.2 e.1 = 0 :=
    (mul_eq_zero.mp z3).resolve_left (ne_of_gt (sub_pos.mpr hb))
  rcases lt_trichotomy e.1.y e'.1.y with hlt | heq | hgt
  · exact absurd (no_vertex_inside_edge poly last hlast p hnd hin hconv _ e he e'.1 hcp rfl c1
      hlt (by linarith)) id
  · have hca : e'.1 = e.1 := eq_of_collinear_at_start e.1 e.2 e'.1 (by linarith) c1 heq.symm
    have he2 : (e.1, e'.2) ∈ List.zip (last :: poly) poly := by
      rw [← hca]; exact he'
    have hbd : e.2 = e'.2 := succ_unique poly last e.1 e.2 e'.2
      (closed_path_dropLast_nodup poly last hlast hnd) he he2
    exact Prod.ext hca.symm hbd
  · exact absurd (no_vertex_inside_edge poly last hlast p hnd hin hconv _ e' he' e.1 hap rfl c3
      hgt (by linarith)) id

theorem pathCrossings_inside_left (poly : List Vector2) (last : Vector2)
    (hlast : poly.getLast? = some last) (p : Vector2) (hnd : poly.Nodup)
    (hin : ∀ e ∈ List.zip (last :: poly) poly, 0 < cross e.1 e.2 p)
    (hconv : ∀ e ∈ List.zip (last :: poly) poly, ∀ v ∈ poly, 0 ≤ cross e.1 e.2 v) :
    pathCrossings p.x p.y (last :: poly) = true := by
  have hE : ∀ e ∈ List.zip (last :: poly) poly,
      edgeCrosses p.x p.y e.1 e.2 = decide (e.1.y ≤ p.y ∧ p.y < e.2.y) :=
    fun e he => edgeCrosses_of_left e.1 e.2 p (hin e he)
  obtain ⟨habove, hbelow⟩ := exists_vertex_above_below poly last hlast p
    (Or.inl (fun e he => by rw [cross_rotate]; exact hin e he))
  obtain ⟨e0, he0, h0a, h0b⟩ := exists_up_edge poly last hlast p.y habove
    (by obtain ⟨v, hv, hvy⟩ := hbelow; exact ⟨v, hv, hvy.le⟩)
  apply pathCrossings_unique p.x p.y poly last (nodup_zip_right _ _ hnd)
  · exact ⟨e0, he0, by rw [hE e0 he0]; exact decide_eq_true ⟨h0a, h0b⟩⟩
  · intro e he e' he' hc hc'
    rw [hE e he] at hc
    rw [hE e' he'] at hc'
    obtain ⟨ha, hb⟩ := of_decide_eq_true hc
    obtain ⟨hc2, hd⟩ := of_decide_eq_true hc'
    exact up_edge_unique_weak poly last hlast p hnd hin hconv p.y e e' he he' ha hb hc2 hd

theorem walked_reverse (poly : List Vector2) (last h : Vector2)
    (hlast : poly.getLast? = some last) (hhead : poly.head? = some h) :
    ∀ e ∈ List.zip (h :: poly.reverse) poly.reverse,
      (e.2, e.1) ∈ List.zip (last :: poly) poly := by
  have hS : List.Chain' (fun a b => (a, b) ∈ List.zip (last :: poly) poly) (last :: poly) :=
    (chain_iff_forall_zip _ last poly).mpr (fun e he => he)
  have hrev : List.Chain' (flip (fun a b => (a, b) ∈ List.zip (last :: poly) poly))
      (last :: poly).reverse := List.chain'_reverse.mpr hS
  rw [List.reverse_cons, List.chain'_append] at hrev
  obtain ⟨hr1, -, hr3⟩ := hrev
  have hlink := hr3 h (by rw [List.getLast?_reverse]; exact hhead) last (by simp)
  have hch : List.Chain (flip (fun a b => (a, b) ∈ List.zip (last :: poly) poly)) h
      poly.reverse := by
    show List.Chain' _ (h :: poly.reverse)
    rw [List.chain'_cons']
    refine ⟨?_, hr1⟩
    intro y hy
    rw [List.head?_reverse, hlast] at hy
    simp only [Option.mem_def, Option.some.injEq] at hy
    rw [← hy]
    exact hlink
  exact (chain_iff_forall_zip _ h poly.reverse).mp hch

theorem testPointInsidePolygon_inside_left (poly : List Vector2) (last : Vector2)
    (hlast : poly.getLast? = some last) (p : Vector2) (hnd : poly.Nodup)
    (hin : ∀ e ∈ List.zip (last :: poly) poly, 0 < cross e.1 e.2 p)
    (hconv : ∀ e ∈ List.zip (last :: poly) poly, ∀ v ∈ poly, 0 ≤ cross e.1 e.2 v) :
    testPointInsidePolygon p poly = true := by
  rw [testPointInsidePolygon_eq_path p poly last hlast]
  exact pathCrossings_inside_left poly last hlast p hnd hin hconv

theorem testPointInsidePolygon_inside_right (poly : List Vector2) (last : Vector2)
    (hlast : poly.getLast? = some last) (p : Vector2) (hnd : poly.Nodup)
    (hin : ∀ e ∈ List.zip (last :: poly) poly, cross e.1 e.2 p < 0)
    (hconv : ∀ e ∈ List.zip (last :: poly) poly, ∀ v ∈ poly, cross e.1 e.2 v ≤ 0) :
    testPointInsidePolygon p poly = true := by
  obtain ⟨h, hhead⟩ : ∃ h, poly.head? = some h := by
    cases poly with
    | nil => simp at hlast
    | cons y t => exact ⟨y, rfl⟩
  have hl' : poly.reverse.getLast? = some h := by
    rw [List.getLast?_reverse]; exact hhead
  have hw := walked_reverse poly last h hlast hhead
  rw [← testPointInsidePolygon_reverse]
  apply testPointInsidePolygon_inside_left poly.reverse h hl' p (List.nodup_reverse.mpr hnd)
  · intro e he
    have := hin (e.2, e.1) (hw e he)
    simp only at this
    linarith [cross_swap e.2 e.1 p]
  · intro e he v hv
    have := hconv (e.2, e.1) (hw e he) v (List.mem_reverse.mp hv)
    simp only at this
    linarith [cross_swap e.2 e.1 v]

/-- C21: for every convex polygon with distinct vertices and at least 3 of them, in
either winding order, `testPointInsidePolygon` returns true for every point strictly
inside it (strictly on the inner side of every edge) and false for every point
strictly outside it (strictly beyond a line that has all the vertices on its other
side or on it). -/
theorem testPointInsidePolygon_convex (poly : List Vector2) (p : Vector2)
    (hlen : 3 ≤ poly.length) :
    (InsideConvex poly p → testPointInsidePolygon p poly = true) ∧
    (StrictlyOutside poly p → testPointInsidePolygon p poly = false) := by
  refine ⟨?_, testPointInsidePolygon_of_outside poly p⟩
  rintro ⟨hnd, hside⟩
  have hne : poly ≠ [] := by
    intro h
    rw [h] at hlen
    simp at hlen
  obtain ⟨last, hlast⟩ : ∃ last, poly.getLast? = some last :=
    ⟨poly.getLast hne, List.getLast?_eq_getLast poly hne⟩
  have hw : walkedEdges poly = List.zip (last :: poly) poly := by
    simp only [walkedEdges, hlast]
  rw [hw] at hside
  rcases hside with h | h
  · exact testPointInsidePolygon_inside_left poly last hlast p hnd
      (fun e he => (h e he).1) (fun e he => (h e he).2)
  · exact testPointInsidePolygon_inside_right poly last hlast p hnd
      (fun e he => (h e he).1) (fun e he => (h e he).2)

/-- The theorem of C21 on the unit square: the point `(1/2, 1/3)` is strictly inside
and the test is true; the point `(2, 1/3)` is strictly outside and the test is
false. -/
theorem testPointInsidePolygon_convex_witness :
    3 ≤ unitSquare.length ∧
    InsideConvex unitSquare ⟨1 / 2, 1 / 3⟩ ∧
    testPointInsidePolygon ⟨1 / 2, 1 / 3⟩ unitSquare = true ∧
    StrictlyOutside unitSquare ⟨2, 1 / 3⟩ ∧
    testPointInsidePolygon ⟨2, 1 / 3⟩ unitSquare = false :=
  have hin : InsideConvex unitSquare ⟨1 / 2, 1 / 3⟩ := by
    unfold InsideConvex
    decide!
  have hout : StrictlyOutside unitSquare ⟨2, 1 / 3⟩ :=
    ⟨⟨1, 0⟩, ⟨1, 1⟩, by decide!, by decide!⟩
  ⟨by decide, hin,
    (testPointInsidePolygon_convex unitSquare ⟨1 / 2, 1 / 3⟩ (by decide)).1 hin, hout,
    (testPointInsidePolygon_convex unitSquare ⟨2, 1 / 3⟩ (by decide)).2 hout⟩

/-! ### Intersection of a convex polygon with itself -/

end SpotShadow
